import Mathlib

/-!
# Verification of `torch/fx/experimental/subgraph_creation_example.py`

This file gives a shallow embedding of the `split_module` transformation of
the repository and proves / refutes the frozen claims about it.

Modelling conventions:

* Python dicts become insertion-ordered association lists
  (`List (String × β)`); `aset` is `d[k] = v`, `alookup` is `d.get(k)`.
* Python sets (`Partition.inputs`, `Partition.outputs`, dependency sets)
  become duplicate-free insertion-ordered lists (`addSet`); the source
  relies only on each set being iterated in a consistent order within one
  run, which this determinization provides.
* The mutable node attribute `_fx_partition` becomes an explicit map from
  node name to partition name (`tags`), threaded through the run; the
  incoming tag state of the graph's nodes is an explicit argument, so that
  mutation across repeated runs is expressible.
* Fallible operations (`raise RuntimeError`, `KeyError`, `IndexError`)
  become an `Except SplitErr` pipeline.
* `torch.fx.Graph` / `GraphModule` / `Proxy` are code of this repository
  that is not under `src/`; their behaviour (node creation, graph
  invocation) is modelled from the spec where needed (see the doc comments
  starting with `Modelled from the spec:`).
-/

namespace SplitMod

/-- Node op-kinds.  The spec's "call" kind covers both `call_function`
(opaque operation identifier target) and `call_module` (dotted attribute
path target); `placeholder` is the input-placeholder kind and `get_attr`
the attribute-reference kind. -/
inductive Op where
  | placeholder
  | get_attr
  | call_function
  | call_module
deriving DecidableEq

/-- An argument of a node: a reference to another node by name, or a
literal (used by the emitted indexed-accessor nodes). -/
inductive Arg where
  | ref (name : String)
  | lit (k : Nat)
deriving DecidableEq

/-- A node of a computation graph (`torch.fx.Node`): unique name, op-kind,
target, ordered arguments and keyword arguments. -/
structure Node where
  name : String
  op : Op
  target : String
  args : List Arg
  kwargs : List (String × Arg)
deriving DecidableEq

/-- The result expression of a graph: a single node reference or a tuple
of node references (`graph.result`).  `Graph.output` of a sub-graph always
installs a tuple. -/
inductive ResExpr where
  | ref (name : String)
  | tup (names : List String)
deriving DecidableEq

/-- Modelled from the spec: a computation graph is an append-only ordered
sequence of nodes terminated by an optional result expression
(`torch.fx.Graph`, whose `result` starts as `None` and is set by
`Graph.output`). -/
structure Graph where
  nodes : List Node
  result : Option ResExpr
deriving DecidableEq

def emptyGraph : Graph := { nodes := [], result := none }

/-- Modelled from the spec: the root object exposing attribute-path
lookup.  A leaf (`prim`) is an opaque parameter or callable sub-module,
identified by a number; an inner node is a finite attribute table. -/
inductive Obj where
  | prim (k : Nat)
  | attrs (children : List (String × Obj))

/-- One `getattr` step on the root object (`hasattr`/`getattr` on one
path segment). -/
def getattrObj : Obj → String → Option Obj
  | .prim _, _ => none
  | .attrs [], _ => none
  | .attrs ((k, v) :: rest), a => if k = a then some v else getattrObj (.attrs rest) a

/-- Resolution of a dotted path, segment by segment, against an object;
`none` when some segment is absent (the source raises there). -/
def resolvePath (o : Obj) (path : List String) : Option Obj :=
  match path with
  | [] => some o
  | a :: rest =>
    match getattrObj o a with
    | some o' => resolvePath o' rest
    | none => none

/-- Association-list lookup: Python `dict.get(k)`. -/
def alookup {β : Type} : List (String × β) → String → Option β
  | [], _ => none
  | (a, b) :: rest, k => if a = k then some b else alookup rest k

/-- Association-list update: Python `d[k] = v` (updates in place, or
appends preserving insertion order). -/
def aset {β : Type} : List (String × β) → String → β → List (String × β)
  | [], k, v => [(k, v)]
  | (a, b) :: rest, k, v => if a = k then (k, v) :: rest else (a, b) :: aset rest k v

/-- Python `set.add` on a duplicate-free insertion-ordered list. -/
def addSet (l : List String) (x : String) : List String :=
  if x ∈ l then l else l ++ [x]

/-- The per-group accumulator (`class Partition`). -/
structure Partition where
  name : String
  node_names : List String
  inputs : List String
  outputs : List String
  partitions_dependent_on : List String
  partition_dependents : List String
  graph : Graph
  environment : List (String × String)
  targets : List (String × Obj)

/-- `Partition.__init__`. -/
def emptyPartition (name : String) : Partition :=
  { name := name, node_names := [], inputs := [], outputs := [],
    partitions_dependent_on := [], partition_dependents := [],
    graph := emptyGraph, environment := [], targets := [] }

abbrev PartMap := List (String × Partition)

/-- Update the partition stored under a key (`partitions[k]` then mutate
in place); leaves the map unchanged when the key is absent (which, as for
`recordCrossPartitionUse`, cannot happen in the runs considered). -/
def updateP (ps : PartMap) (k : String) (f : Partition → Partition) : PartMap :=
  match alookup ps k with
  | some p => aset ps k (f p)
  | none => ps

/-- The partition stored under a key, defaulting to an empty partition
(used to state properties totally). -/
def partGet (ps : PartMap) (k : String) : Partition :=
  (alookup ps k).getD (emptyPartition k)

/-- Node-name references appearing in a node's `args` followed by its
`kwargs` values, in order — the nodes `map_arg` visits. -/
def argRefs : Arg → List String
  | .ref n => [n]
  | .lit _ => []

def nodeRefs (n : Node) : List String :=
  n.args.flatMap argRefs ++ n.kwargs.flatMap (fun kv => argRefs kv.2)

/-- The node references of the result expression, in order. -/
def resultRefs : Option ResExpr → List String
  | none => []
  | some (.ref n) => [n]
  | some (.tup ns) => ns

/-- A node is skipped by Dependency Discovery iff it is an
input-placeholder or an attribute-reference. -/
def Eligible (n : Node) : Prop := ¬(n.op = Op.placeholder ∨ n.op = Op.get_attr)

instance (n : Node) : Decidable (Eligible n) := by unfold Eligible; infer_instance

/-- The error taxonomy of the transformation.  `cycleErr` is the
`RuntimeError("cycle exists between partitions!")`; `unresolvedTarget`
covers the two `... not found!` raises; `corruptEnv` is a `KeyError` on an
environment; `indexErr` is the `IndexError` of `list(partition.outputs)[0]`
on an empty outputs set. -/
inductive SplitErr where
  | cycleErr
  | unresolvedTarget (target : String)
  | corruptEnv (name : String)
  | indexErr
deriving DecidableEq

/-! ## Dependency Discovery -/

/-- The state of the discovery pass: the partition map, the `orig_nodes`
dict, and the `_fx_partition` tag state of the original graph's nodes
(the source stores the tags as a mutable attribute on each node; here
they are an explicit map from node name to partition name). -/
structure DiscSt where
  partitions : PartMap
  orig_nodes : List (String × Node)
  tags : List (String × String)

/-- `record_cross_partition_use(def_node, use_node)`: `defName` is the
defining node's name, `useName` the consuming node's name (or `none` for
the virtual result consumer); partition membership is read from the tag
state.  The `partitions[...]` lookups cannot dangle in any run considered
here (a tag is always written before it is read), so a dangling name
leaves the map unchanged where Python would raise `KeyError`. -/
def recordCrossPartitionUse (tags : List (String × String)) (ps : PartMap)
    (defName : String) (useName : Option String) : PartMap :=
  let defP := alookup tags defName
  let useP := useName.bind (alookup tags)
  if defP = useP then ps
  else
    let ps1 :=
      match defP with
      | some dp =>
        updateP ps dp (fun p =>
          { p with
            outputs := addSet p.outputs defName
            partition_dependents :=
              match useP with
              | some up => addSet p.partition_dependents up
              | none => p.partition_dependents })
      | none => ps
    match useP with
    | some up =>
      updateP ps1 up (fun p =>
        { p with
          inputs := addSet p.inputs defName
          partitions_dependent_on :=
            match defP with
            | some dp => addSet p.partitions_dependent_on dp
            | none => p.partitions_dependent_on })
    | none => ps1

/-- One iteration of the node loop of Dependency Discovery. -/
def discStep (cb : Node → Int) (st : DiscSt) (node : Node) : DiscSt :=
  let orig_nodes := aset st.orig_nodes node.name node
  if node.op = Op.placeholder ∨ node.op = Op.get_attr then
    { st with orig_nodes := orig_nodes }
  else
    let pname := toString (cb node)
    let ps :=
      match alookup st.partitions pname with
      | some _ => st.partitions
      | none => st.partitions ++ [(pname, emptyPartition pname)]
    let ps := updateP ps pname (fun p => { p with node_names := p.node_names ++ [node.name] })
    let tags := aset st.tags node.name pname
    let ps := (nodeRefs node).foldl
      (fun acc d => recordCrossPartitionUse tags acc d (some node.name)) ps
    { partitions := ps, orig_nodes := orig_nodes, tags := tags }

/-- Dependency Discovery: the node loop followed by the result-expression
pass (`map_arg(m.graph.result, lambda n: record_cross_partition_use(n, None))`).
`tags0` is the `_fx_partition` state the graph's nodes carry on entry
(empty for a freshly traced graph). -/
def discover (g : Graph) (cb : Node → Int) (tags0 : List (String × String)) : DiscSt :=
  let st := g.nodes.foldl (discStep cb) ⟨[], [], tags0⟩
  { st with
    partitions := (resultRefs g.result).foldl
      (fun acc d => recordCrossPartitionUse st.tags acc d none) st.partitions }

/-! ## Topological Ordering & Cycle Check -/

/-- Seeding of the worklist: partitions with no dependencies, in map
order. -/
def rootParts (ps : PartMap) : List String :=
  (ps.filter (fun e => e.2.partitions_dependent_on = [])).map Prod.fst

/-- `partitions[d].partitions_dependent_on.remove(r)`.  Python raises
`KeyError` when `r` is absent; on discovery output the transpose
invariant guarantees presence, so plain erasure is faithful there. -/
def removeDepFrom (ps : PartMap) (d r : String) : PartMap :=
  updateP ps d (fun p =>
    { p with partitions_dependent_on := p.partitions_dependent_on.erase r })

/-- The inner loop over the popped partition's dependents: remove the
popped partition from each dependent's depends-on set and enqueue the
dependent once that set becomes empty. -/
def processDeps (r : String) (acc : PartMap × List String) (deps : List String) :
    PartMap × List String :=
  deps.foldl
    (fun (acc : PartMap × List String) d =>
      let ps' := removeDepFrom acc.1 d r
      let roots' :=
        match alookup ps' d with
        | some p => if p.partitions_dependent_on = [] then acc.2 ++ [d] else acc.2
        | none => acc.2
      (ps', roots'))
    acc

/-- The Kahn's-style elimination loop (`while root_partitions: ...`),
popping from the end of the worklist.  The fuel equals the number of
partitions, which suffices: each iteration appends one distinct partition
to the output. -/
def kahnLoop : Nat → PartMap → List String → List String → PartMap × List String
  | 0, ps, _, sorted => (ps, sorted)
  | fuel + 1, ps, roots, sorted =>
    match roots.getLast? with
    | none => (ps, sorted)
    | some r =>
      let roots0 := roots.dropLast
      let deps :=
        match alookup ps r with
        | some p => p.partition_dependents
        | none => []
      let pr := processDeps r (ps, roots0) deps
      kahnLoop fuel pr.1 pr.2 (sorted ++ [r])

/-- Topological Ordering: seed the worklist, run the elimination loop;
returns the (dependency-sets-mutated) partition map and the sorted
partition name sequence. -/
def kahn (ps : PartMap) : PartMap × List String :=
  kahnLoop ps.length ps (rootParts ps) []

/-! ## Sub-graph Construction and Top-Level Rebuild -/

/-- Modelled from the spec: `graph.placeholder(name)` appends an
input-placeholder node declaring `name`. -/
def mkPlaceholder (nm : String) : Node :=
  { name := nm, op := Op.placeholder, target := nm, args := [], kwargs := [] }

/-- The placeholder-declaration pass: for each partition in topological
order, declare one placeholder per name in its `inputs` set and record it
in the partition's environment.  (The source keys the environment by the
original `Node` object via `orig_nodes[input]`; node names are unique, so
the environment is keyed by name here, and the created placeholder's name
is the declared input name.) -/
def addPlaceholders (ps : PartMap) (sorted : List String) : PartMap :=
  sorted.foldl
    (fun acc pname =>
      updateP acc pname (fun p =>
        p.inputs.foldl
          (fun q inp =>
            { q with
              graph := { q.graph with nodes := q.graph.nodes ++ [mkPlaceholder inp] }
              environment := aset q.environment inp inp })
          p))
    ps

/-- Translate one argument through a partition's environment
(`map_arg(node.args, lambda n: environment[n])`); a missing entry is the
`KeyError` the spec calls `CorruptEnvironmentError`. -/
def gatherArg (env : List (String × String)) : Arg → Except SplitErr Arg
  | .ref nm =>
    match alookup env nm with
    | some nm' => .ok (.ref nm')
    | none => .error (.corruptEnv nm)
  | .lit k => .ok (.lit k)

/-- Target handling for one cloned node: `call_module` / `get_attr`
targets are resolved segment by segment against `m`, recorded in the
partition's registry under the full dotted path, and rewritten to the
final segment; every other target is kept as is. -/
def resolveTargetStep (m_obj : Obj) (node : Node) (p : Partition) :
    Except SplitErr (String × Partition) :=
  if node.op = Op.call_module ∨ node.op = Op.get_attr then
    match resolvePath m_obj (node.target.splitOn ".") with
    | none => .error (.unresolvedTarget node.target)
    | some o =>
      .ok ((node.target.splitOn ".").getLastD "",
        { p with targets := aset p.targets node.target o })
  else
    .ok (node.target, p)

/-- One iteration of the node-cloning loop: nodes tagged with a partition
are translated through that partition's environment and appended to its
sub-graph; `call_module` targets are resolved against `m` segment by
segment, recorded in the partition's target registry under the full
dotted path, and rewritten to the path's final segment.  (The clone keeps
the original node's name: names are unique, so this realizes fresh
naming.) -/
def transformNode (m_obj : Obj) (tags : List (String × String)) (ps : PartMap)
    (node : Node) : Except SplitErr PartMap :=
  match alookup tags node.name with
  | none => .ok ps
  | some pname =>
    match alookup ps pname with
    | none => .ok ps
    | some p => do
      let gargs ← node.args.mapM (gatherArg p.environment)
      let gkwargs ← node.kwargs.mapM
        (fun kv => do return (kv.1, ← gatherArg p.environment kv.2))
      let tp ← resolveTargetStep m_obj node p
      let newNode : Node :=
        { name := node.name, op := node.op, target := tp.1, args := gargs, kwargs := gkwargs }
      let p' := { tp.2 with
        graph := { tp.2.graph with nodes := tp.2.graph.nodes ++ [newNode] }
        environment := aset tp.2.environment node.name node.name }
      return aset ps pname p'

/-- Modelled from the spec: an entry of the rebuilt module's registry —
either a lifted attribute value or the finished sub-unit for one
partition (its target registry plus its sub-graph). -/
inductive BaseAttr where
  | obj (o : Obj)
  | gm (targets : List (String × Obj)) (g : Graph)

/-- The state of the Top-Level Rebuild: the base environment, the base
graph under construction, and the registry `base_mod_attrs`. -/
structure BaseSt where
  env : List (String × String)
  graph : Graph
  attrs : List (String × BaseAttr)

/-- One iteration of the base-environment setup loop: re-declare original
placeholders and attribute-references in the base graph, resolving each
attribute-reference's dotted path against `m` and lifting the resolved
value into the registry keyed by the original path.  (The re-declared
node keeps the original node's name.) -/
def baseSetupStep (m_obj : Obj) (st : BaseSt) (node : Node) : Except SplitErr BaseSt :=
  if node.op = Op.placeholder then
    .ok { st with
      env := aset st.env node.name node.name
      graph := { st.graph with nodes := st.graph.nodes ++ [mkPlaceholder node.name] } }
  else if node.op = Op.get_attr then
    let newNode : Node :=
      { name := node.name, op := Op.get_attr, target := node.target, args := [], kwargs := [] }
    let st := { st with
      env := aset st.env node.name node.name
      graph := { st.graph with nodes := st.graph.nodes ++ [newNode] } }
    match resolvePath m_obj (node.target.splitOn ".") with
    | none => .error (.unresolvedTarget node.target)
    | some o => .ok { st with attrs := aset st.attrs node.target (.obj o) }
  else
    .ok st

/-- The (deterministically fresh) name of the call node emitted for a
partition; original traced node names never collide with it in the
examples considered. -/
def callNodeName (pname : String) : String := "_call_" ++ pname

/-- The name of the i-th indexed-accessor node emitted for a partition. -/
def getitemName (pname : String) (i : Nat) : String :=
  "_get_" ++ pname ++ "_" ++ toString i

/-- One iteration of the emission loop: seal the partition's sub-graph by
attaching its output tuple, register the finished sub-unit under
`submod_<name>`, emit the call node feeding it the base-environment
values of its inputs, and bind its outputs in the base environment —
through indexed-accessor nodes when there are more than one, directly
when there is exactly one (`list(partition.outputs)[0]`, an `IndexError`
when the set is empty). -/
def emitPartition (st : BaseSt × PartMap) (pname : String) :
    Except SplitErr (BaseSt × PartMap) :=
  match alookup st.2 pname with
  | none => .ok st
  | some p => do
    let outVals ← p.outputs.mapM
      (fun nm =>
        match alookup p.environment nm with
        | some v => Except.ok v
        | none => Except.error (SplitErr.corruptEnv nm))
    let p := { p with graph := { p.graph with result := some (.tup outVals) } }
    let ps := aset st.2 pname p
    let attrs := aset st.1.attrs ("submod_" ++ pname) (.gm p.targets p.graph)
    let outArgs ← p.inputs.mapM
      (fun nm =>
        match alookup st.1.env nm with
        | some v => Except.ok (Arg.ref v)
        | none => Except.error (SplitErr.corruptEnv nm))
    let callNode : Node :=
      { name := callNodeName pname, op := Op.call_module,
        target := "submod_" ++ pname, args := outArgs, kwargs := [] }
    let graph := { st.1.graph with nodes := st.1.graph.nodes ++ [callNode] }
    if p.outputs.length > 1 then
      let ge : Graph × List (String × String) := p.outputs.enum.foldl
        (fun (acc : Graph × List (String × String)) oi =>
          let gi : Node :=
            { name := getitemName pname oi.1, op := Op.call_function, target := "getitem",
              args := [.ref (callNodeName pname), .lit oi.1], kwargs := [] }
          ({ acc.1 with nodes := acc.1.nodes ++ [gi] }, aset acc.2 oi.2 gi.name))
        (graph, st.1.env)
      return ({ env := ge.2, graph := ge.1, attrs := attrs }, ps)
    else
      match p.outputs with
      | [] => .error .indexErr
      | o :: _ =>
        return ({ env := aset st.1.env o (callNodeName pname), graph := graph, attrs := attrs }, ps)

/-- Translate the original result expression through the base environment
(`map_arg(m.graph.result, lambda n: base_mod_env[n.name])`). -/
def mapResult (env : List (String × String)) : ResExpr → Except SplitErr ResExpr
  | .ref nm =>
    match alookup env nm with
    | some v => .ok (.ref v)
    | none => .error (.corruptEnv nm)
  | .tup ns => do
    let vs ← ns.mapM
      (fun nm =>
        match alookup env nm with
        | some v => Except.ok v
        | none => Except.error (SplitErr.corruptEnv nm))
    return .tup vs

/-- Everything `split_module` has built when it returns: the partition
map, the topological order, the base environment, the registry
`base_mod_attrs` (sub-units and lifted attributes) and the rebuilt base
graph, plus the final `_fx_partition` tag state of the original graph's
nodes. -/
structure SplitOut where
  partitions : PartMap
  sorted : List String
  baseEnv : List (String × String)
  baseAttrs : List (String × BaseAttr)
  baseGraph : Graph
  tags : List (String × String)

/-- Translate the (possibly absent) original result expression through
the base environment; `map_arg` of `None` is `None`. -/
def mapResultOpt (env : List (String × String)) :
    Option ResExpr → Except SplitErr (Option ResExpr)
  | none => pure none
  | some r => do
    let r' ← mapResult env r
    pure (some r')

/-- The stages of the pipeline after the cycle check: placeholder
declaration, node cloning, base setup, emission, final output; `tags` is
the tag state left by discovery, `psK`/`sorted` the partition map and
topological order produced by the ordering stage. -/
def splitStages (g : Graph) (m_obj : Obj) (tags : List (String × String))
    (psK : PartMap) (sorted : List String) : Except SplitErr SplitOut := do
  let ps := addPlaceholders psK sorted
  let ps ← g.nodes.foldlM (transformNode m_obj tags) ps
  let bst ← g.nodes.foldlM (baseSetupStep m_obj) ⟨[], emptyGraph, []⟩
  let bp ← sorted.foldlM emitPartition (bst, ps)
  let res ← mapResultOpt bp.1.env g.result
  return { partitions := bp.2, sorted := sorted, baseEnv := bp.1.env,
           baseAttrs := bp.1.attrs,
           baseGraph := { bp.1.graph with result := res }, tags := tags }

/-- The whole `split_module` pipeline: Dependency Discovery, Topological
Ordering & Cycle Check (`raise RuntimeError("cycle exists between
partitions!")` aborts everything after it), then the construction
stages.  `tags0` is the `_fx_partition` state the graph's nodes carry on
entry. -/
def splitCore (g : Graph) (m_obj : Obj) (cb : Node → Int)
    (tags0 : List (String × String)) : Except SplitErr SplitOut :=
  let dst := discover g cb tags0
  let ks := kahn dst.partitions
  if ks.2.length ≠ dst.partitions.length then
    throw .cycleErr
  else
    splitStages g m_obj dst.tags ks.1 ks.2

/-- `split_module(m, root_m, split_callback)` on a freshly traced graph
(no pre-existing `_fx_partition` tags).  `root_m` is accepted and, as in
the source, never used. -/
def split_module (g : Graph) (m_obj : Obj) (root_m : Obj) (cb : Node → Int) :
    Except SplitErr SplitOut :=
  let _ := root_m
  splitCore g m_obj cb []

/-! ## Graph invocation semantics

Modelled from the spec: execution of operations is an external
collaborator, so values and the meaning of call targets are opaque
parameters (`Sem`); invoking a graph binds its input-placeholders
positionally, evaluates nodes in order, and returns the value of the
result expression (a tuple result expression returns a tuple). -/

/-- Observable values: an opaque base value or a tuple of values (tuples
are observable — a 1-tuple is not its element). -/
inductive Value where
  | base (k : Nat)
  | tup (vs : List Value)

/-- The opaque operation semantics: meaning of `call_function` targets,
of calling a leaf module, and the value of a leaf attribute. -/
structure Sem where
  applyFn : String → List Value → List (String × Value) → Option Value
  applyMod : Nat → List Value → List (String × Value) → Option Value
  objVal : Nat → Value

/-- Value of an argument: node references are looked up in the value
environment, literals denote themselves. -/
def evalArg (env : List (String × Value)) : Arg → Option Value
  | .ref nm => alookup env nm
  | .lit k => some (.base k)

/-- `call_function` semantics; the indexed accessor `getitem` is the
built-in tuple indexing used by the unpacking nodes, everything else is
the opaque `applyFn`. -/
def evalCallFn (sem : Sem) (target : String) (vals : List Value)
    (kvals : List (String × Value)) : Option Value :=
  if target = "getitem" then
    match vals, kvals with
    | [.tup vs, .base i], [] => vs.get? i
    | _, _ => none
  else
    sem.applyFn target vals kvals

/-- State while evaluating a graph: value environment and the input
values not yet consumed by placeholders. -/
structure EvalSt where
  env : List (String × Value)
  argv : List Value

def evalArgsKw (env : List (String × Value)) (n : Node) :
    Option (List Value × List (String × Value)) := do
  let vals ← n.args.mapM (evalArg env)
  let kvals ← n.kwargs.mapM (fun kv => do return (kv.1, ← evalArg env kv.2))
  return (vals, kvals)

/-- Evaluate one node of the original graph: attribute paths are resolved
segment by segment against the root object. -/
def evalNodeOrig (sem : Sem) (root : Obj) (st : EvalSt) (n : Node) : Option EvalSt :=
  match n.op with
  | .placeholder =>
    match st.argv with
    | [] => none
    | v :: rest => some { env := aset st.env n.name v, argv := rest }
  | .get_attr =>
    match resolvePath root (n.target.splitOn ".") with
    | some (.prim k) => some { st with env := aset st.env n.name (sem.objVal k) }
    | _ => none
  | .call_function => do
    let vk ← evalArgsKw st.env n
    let v ← evalCallFn sem n.target vk.1 vk.2
    return { st with env := aset st.env n.name v }
  | .call_module => do
    let vk ← evalArgsKw st.env n
    match resolvePath root (n.target.splitOn ".") with
    | some (.prim k) => do
      let v ← sem.applyMod k vk.1 vk.2
      return { st with env := aset st.env n.name v }
    | _ => none

/-- Value of the result expression. -/
def evalResult (env : List (String × Value)) : Option ResExpr → Option Value
  | none => none
  | some (.ref nm) => alookup env nm
  | some (.tup ns) => do
    let vs ← ns.mapM (alookup env)
    return .tup vs

/-- Invoke the original graph on positional input values. -/
def evalOrig (sem : Sem) (root : Obj) (g : Graph) (argv : List Value) : Option Value := do
  let st ← g.nodes.foldlM (evalNodeOrig sem root) ⟨[], argv⟩
  evalResult st.env g.result

/-- Evaluate one node of a partition's sub-graph: its targets were
rewritten to the final path segment, and its registry (`GraphModule`'s
dict root) is consulted by direct lookup. -/
def evalNodeSub (sem : Sem) (targets : List (String × Obj)) (st : EvalSt) (n : Node) :
    Option EvalSt :=
  match n.op with
  | .placeholder =>
    match st.argv with
    | [] => none
    | v :: rest => some { env := aset st.env n.name v, argv := rest }
  | .get_attr =>
    match alookup targets n.target with
    | some (.prim k) => some { st with env := aset st.env n.name (sem.objVal k) }
    | _ => none
  | .call_function => do
    let vk ← evalArgsKw st.env n
    let v ← evalCallFn sem n.target vk.1 vk.2
    return { st with env := aset st.env n.name v }
  | .call_module => do
    let vk ← evalArgsKw st.env n
    match alookup targets n.target with
    | some (.prim k) => do
      let v ← sem.applyMod k vk.1 vk.2
      return { st with env := aset st.env n.name v }
    | _ => none

/-- Invoke a sub-unit on positional input values. -/
def evalSub (sem : Sem) (targets : List (String × Obj)) (g : Graph) (argv : List Value) :
    Option Value := do
  let st ← g.nodes.foldlM (evalNodeSub sem targets) ⟨[], argv⟩
  evalResult st.env g.result

/-- Evaluate one node of the rebuilt base graph: `submod_...` call nodes
invoke the registered finished sub-unit, `get_attr` nodes read the lifted
attribute value registered under their full original path. -/
def evalNodeBase (sem : Sem) (attrs : List (String × BaseAttr)) (st : EvalSt) (n : Node) :
    Option EvalSt :=
  match n.op with
  | .placeholder =>
    match st.argv with
    | [] => none
    | v :: rest => some { env := aset st.env n.name v, argv := rest }
  | .get_attr =>
    match alookup attrs n.target with
    | some (.obj (.prim k)) => some { st with env := aset st.env n.name (sem.objVal k) }
    | _ => none
  | .call_function => do
    let vk ← evalArgsKw st.env n
    let v ← evalCallFn sem n.target vk.1 vk.2
    return { st with env := aset st.env n.name v }
  | .call_module => do
    let vk ← evalArgsKw st.env n
    match alookup attrs n.target with
    | some (.gm targets sg) =>
      match vk.2 with
      | [] => do
        let v ← evalSub sem targets sg vk.1
        return { st with env := aset st.env n.name v }
      | _ :: _ => none
    | some (.obj (.prim k)) => do
      let v ← sem.applyMod k vk.1 vk.2
      return { st with env := aset st.env n.name v }
    | _ => none

/-- Invoke the rebuilt graph on positional input values. -/
def evalBase (sem : Sem) (attrs : List (String × BaseAttr)) (g : Graph)
    (argv : List Value) : Option Value := do
  let st ← g.nodes.foldlM (evalNodeBase sem attrs) ⟨[], argv⟩
  evalResult st.env g.result

/-- Invoke the graph module returned by a (possibly failed) run of
`split_module`; a failed run has no output to invoke. -/
def evalSplitResult (sem : Sem) (r : Except SplitErr SplitOut) (argv : List Value) :
    Option Value :=
  match r with
  | .ok out => evalBase sem out.baseAttrs out.baseGraph argv
  | .error _ => none

/-! ## Basic lemmas on the dictionary and set operations -/

theorem alookup_aset {β : Type} (l : List (String × β)) (k : String) (v : β) (k' : String) :
    alookup (aset l k v) k' = if k' = k then some v else alookup l k' := by
  induction l with
  | nil =>
    by_cases h : k' = k
    · subst h; simp [aset, alookup]
    · simp [aset, alookup, h, Ne.symm h]
  | cons e rest ih =>
    obtain ⟨a, b⟩ := e
    by_cases hak : a = k
    · subst hak
      by_cases h : k' = a
      · subst h; simp [aset, alookup]
      · simp [aset, alookup, h, Ne.symm h]
    · by_cases h : k' = a
      · subst h
        simp [aset, alookup, hak, Ne.symm hak]
      · simp [aset, alookup, hak, h, Ne.symm h, ih]

theorem alookup_append {β : Type} (l1 l2 : List (String × β)) (k : String) :
    alookup (l1 ++ l2) k =
      match alookup l1 k with
      | some v => some v
      | none => alookup l2 k := by
  induction l1 with
  | nil => simp [alookup]
  | cons e rest ih =>
    by_cases h : e.1 = k <;> simp [alookup, h, ih]

theorem keys_aset_of_mem {β : Type} (l : List (String × β)) (k : String) (v : β)
    (h : (alookup l k).isSome) :
    (aset l k v).map Prod.fst = l.map Prod.fst := by
  induction l with
  | nil => simp [alookup] at h
  | cons e rest ih =>
    obtain ⟨a, b⟩ := e
    by_cases hak : a = k
    · subst hak; simp [aset]
    · simp [alookup, hak] at h
      simp [aset, hak, ih h]

theorem alookup_updateP (ps : PartMap) (k : String) (f : Partition → Partition)
    (k' : String) :
    alookup (updateP ps k f) k' =
      if k' = k then (alookup ps k).map f else alookup ps k' := by
  unfold updateP
  cases h : alookup ps k with
  | none =>
    by_cases hk : k' = k
    · subst hk; simp [h]
    · simp [hk]
  | some p => simp [alookup_aset, h]

theorem keys_updateP (ps : PartMap) (k : String) (f : Partition → Partition) :
    (updateP ps k f).map Prod.fst = ps.map Prod.fst := by
  unfold updateP
  cases h : alookup ps k with
  | none => rfl
  | some p => exact keys_aset_of_mem ps k (f p) (by simp [h])

theorem length_updateP (ps : PartMap) (k : String) (f : Partition → Partition) :
    (updateP ps k f).length = ps.length := by
  simpa using congrArg List.length (keys_updateP ps k f)

theorem alookup_isSome_iff_mem {β : Type} (l : List (String × β)) (k : String) :
    (alookup l k).isSome ↔ k ∈ l.map Prod.fst := by
  induction l with
  | nil => simp [alookup]
  | cons e rest ih =>
    by_cases h : e.1 = k
    · simp [alookup, h]
    · simp [alookup, h, ih, Ne.symm h]

theorem alookup_eq_none_iff_not_mem {β : Type} (l : List (String × β)) (k : String) :
    alookup l k = none ↔ k ∉ l.map Prod.fst := by
  rw [← alookup_isSome_iff_mem]
  cases alookup l k <;> simp

theorem mem_addSet (l : List String) (x y : String) :
    y ∈ addSet l x ↔ y ∈ l ∨ y = x := by
  unfold addSet
  by_cases h : x ∈ l
  · simp only [if_pos h]
    exact ⟨Or.inl, fun hy => hy.elim id (fun he => he ▸ h)⟩
  · simp [h]

theorem nodup_addSet (l : List String) (x : String) (h : l.Nodup) :
    (addSet l x).Nodup := by
  unfold addSet
  by_cases hx : x ∈ l
  · simp only [if_pos hx]; exact h
  · simp only [if_neg hx]
    refine List.Nodup.append h (List.nodup_singleton _) ?_
    intro a ha hb
    simp only [List.mem_singleton] at hb
    subst hb
    exact hx ha

theorem mem_keys_of_alookup {β : Type} {l : List (String × β)} {k : String} {v : β}
    (h : alookup l k = some v) : k ∈ l.map Prod.fst := by
  rw [← alookup_isSome_iff_mem, h]; rfl

/-! ## Well-formed graphs -/

/-- Well-formedness of the node list, walking left to right: each node's
name is fresh, each node's references point to already-declared nodes,
and placeholder / attribute-reference nodes carry no node references
(they have no arguments in the traced form). -/
def WFnodes : List String → List Node → Prop
  | _, [] => True
  | seen, n :: rest =>
    n.name ∉ seen ∧ (∀ nm ∈ nodeRefs n, nm ∈ seen) ∧
    ((n.op = Op.placeholder ∨ n.op = Op.get_attr) → nodeRefs n = []) ∧
    WFnodes (seen ++ [n.name]) rest

instance instDecWFnodes : (seen : List String) → (l : List Node) → Decidable (WFnodes seen l)
  | _, [] => .isTrue trivial
  | seen, n :: rest =>
    letI : Decidable (WFnodes (seen ++ [n.name]) rest) := instDecWFnodes _ _
    by unfold WFnodes; infer_instance

/-- A valid input graph: well-formed node sequence and a result
expression referring only to declared nodes. -/
def WF (g : Graph) : Prop :=
  WFnodes [] g.nodes ∧ ∀ nm ∈ resultRefs g.result, nm ∈ g.nodes.map Node.name

instance (g : Graph) : Decidable (WF g) := by unfold WF; infer_instance

theorem wfnodes_nodup :
    ∀ (l : List Node) (seen : List String), seen.Nodup → WFnodes seen l →
      (seen ++ l.map Node.name).Nodup := by
  intro l
  induction l with
  | nil => intro seen hs _; simpa using hs
  | cons n rest ih =>
    intro seen hs hwf
    obtain ⟨h1, _, _, h4⟩ := hwf
    have : ((seen ++ [n.name]) ++ rest.map Node.name).Nodup := by
      refine ih (seen ++ [n.name]) ?_ h4
      refine List.Nodup.append hs (List.nodup_singleton _) ?_
      intro a ha hb
      simp only [List.mem_singleton] at hb
      subst hb
      exact h1 ha
    simpa [List.append_assoc] using this

theorem wf_names_nodup {g : Graph} (h : WF g) : (g.nodes.map Node.name).Nodup := by
  simpa using wfnodes_nodup g.nodes [] (by simp) h.1

/-! ## The final group of a value name

The group a value name ends up tagged with after discovery: the
stringified callback result of the (unique) node producing it, or none
for placeholders / attribute references / unknown names. -/

def grpN (cb : Node → Int) : List Node → String → Option String
  | [], _ => none
  | n :: rest, v =>
    if n.name = v then
      if n.op = Op.placeholder ∨ n.op = Op.get_attr then none
      else some (toString (cb n))
    else grpN cb rest v

def grp (g : Graph) (cb : Node → Int) (v : String) : Option String :=
  grpN cb g.nodes v

theorem grpN_eq_none_of_not_mem (cb : Node → Int) (l : List Node) (v : String)
    (h : v ∉ l.map Node.name) : grpN cb l v = none := by
  induction l with
  | nil => rfl
  | cons n rest ih =>
    have h1 : n.name ≠ v := by
      intro he; exact h (by simp [← he])
    have h2 : v ∉ rest.map Node.name := by
      intro hm; apply h; simp [hm]
    simp [grpN, h1, ih h2]

theorem grpN_of_mem (cb : Node → Int) (l : List Node) (m : Node)
    (hnd : (l.map Node.name).Nodup) (hm : m ∈ l) :
    grpN cb l m.name =
      if m.op = Op.placeholder ∨ m.op = Op.get_attr then none
      else some (toString (cb m)) := by
  induction l with
  | nil => cases hm
  | cons n rest ih =>
    rw [List.mem_cons] at hm
    simp only [List.map_cons, List.nodup_cons] at hnd
    rcases hm with rfl | hm
    · simp [grpN]
    · have hne : n.name ≠ m.name := by
        intro he
        exact hnd.1 (by rw [he]; exact List.mem_map_of_mem Node.name hm)
      simp [grpN, hne, ih hnd.2 hm]

theorem grp_of_mem {g : Graph} (cb : Node → Int) {m : Node}
    (hwf : WF g) (hm : m ∈ g.nodes) :
    grp g cb m.name =
      if m.op = Op.placeholder ∨ m.op = Op.get_attr then none
      else some (toString (cb m)) :=
  grpN_of_mem cb g.nodes m (wf_names_nodup hwf) hm

theorem grp_eq_none_of_not_mem {g : Graph} (cb : Node → Int) {v : String}
    (h : v ∉ g.nodes.map Node.name) : grp g cb v = none :=
  grpN_eq_none_of_not_mem cb g.nodes v h

theorem wfnodes_append_inv :
    ∀ (l1 l2 : List Node) (seen : List String), WFnodes seen (l1 ++ l2) →
      WFnodes seen l1 ∧ WFnodes (seen ++ l1.map Node.name) l2 := by
  intro l1
  induction l1 with
  | nil => intro l2 seen h; exact ⟨trivial, by simpa using h⟩
  | cons n rest ih =>
    intro l2 seen h
    obtain ⟨h1, h2, h3, h4⟩ := h
    obtain ⟨h5, h6⟩ := ih l2 (seen ++ [n.name]) h4
    exact ⟨⟨h1, h2, h3, h5⟩, by simpa [List.append_assoc] using h6⟩

/-- Within a well-formed node sequence, every reference of every node
points into the enclosing scope. -/
theorem wfnodes_refs_subset :
    ∀ (l : List Node) (seen : List String), WFnodes seen l →
      ∀ u ∈ l, ∀ v ∈ nodeRefs u, v ∈ seen ∨ v ∈ l.map Node.name := by
  intro l
  induction l with
  | nil => intro seen _ u hu; cases hu
  | cons n rest ih =>
    intro seen h u hu v hv
    obtain ⟨_, h2, _, h4⟩ := h
    rw [List.mem_cons] at hu
    rcases hu with rfl | hu
    · exact Or.inl (h2 v hv)
    · rcases ih (seen ++ [n.name]) h4 u hu v hv with hl | hr
      · rw [List.mem_append, List.mem_singleton] at hl
        rcases hl with hl | rfl
        · exact Or.inl hl
        · exact Or.inr (by simp)
      · exact Or.inr (by simp [hr])

/-- Distinct nodes of a well-formed graph have distinct names. -/
theorem name_inj {g : Graph} (hwf : WF g) {m1 m2 : Node}
    (h1 : m1 ∈ g.nodes) (h2 : m2 ∈ g.nodes) (he : m1.name = m2.name) : m1 = m2 := by
  have hnd := wf_names_nodup hwf
  exact List.inj_on_of_nodup_map hnd h1 h2 he

/-- If a name has a group, some eligible node of the graph produces it
with that group. -/
theorem grp_eq_some_iff {g : Graph} (cb : Node → Int) (hwf : WF g) (v γ : String) :
    grp g cb v = some γ ↔
      ∃ m ∈ g.nodes, m.name = v ∧ Eligible m ∧ toString (cb m) = γ := by
  constructor
  · intro h
    by_cases hv : v ∈ g.nodes.map Node.name
    · simp only [List.mem_map] at hv
      obtain ⟨m, hm, hname⟩ := hv
      subst hname
      rw [grp_of_mem cb hwf hm] at h
      by_cases he : m.op = Op.placeholder ∨ m.op = Op.get_attr
      · simp [he] at h
      · simp [he] at h
        exact ⟨m, hm, rfl, he, h⟩
    · rw [grp_eq_none_of_not_mem cb hv] at h; cases h
  · rintro ⟨m, hm, rfl, he, rfl⟩
    rw [grp_of_mem cb hwf hm]
    simp [Eligible] at he
    simp [he]

/-! ## Characterization of Dependency Discovery

The predicates below describe, after the discovery pass has processed a
prefix of the graph's nodes, which names have been added to which
partition fields; they are exactly the conditions under which
`record_cross_partition_use` fires. -/

/-- Some partition was created for γ: an eligible node of the prefix is
assigned to it. -/
def KeyP (cb : Node → Int) (pre : List Node) (γ : String) : Prop :=
  ∃ m ∈ pre, Eligible m ∧ toString (cb m) = γ

/-- w is a member name of partition γ. -/
def MemP (cb : Node → Int) (pre : List Node) (γ w : String) : Prop :=
  ∃ m ∈ pre, Eligible m ∧ toString (cb m) = γ ∧ m.name = w

/-- v was recorded in γ's outputs: produced in γ, consumed in the prefix
from outside γ. -/
def CrossOut (g : Graph) (cb : Node → Int) (pre : List Node) (γ v : String) : Prop :=
  grp g cb v = some γ ∧
    ∃ u ∈ pre, Eligible u ∧ v ∈ nodeRefs u ∧ toString (cb u) ≠ γ

/-- v was recorded in γ's inputs: produced outside γ, consumed in the
prefix from inside γ. -/
def CrossIn (g : Graph) (cb : Node → Int) (pre : List Node) (γ v : String) : Prop :=
  grp g cb v ≠ some γ ∧
    ∃ u ∈ pre, Eligible u ∧ v ∈ nodeRefs u ∧ toString (cb u) = γ

/-- q was recorded among γ's dependents. -/
def DeptP (g : Graph) (cb : Node → Int) (pre : List Node) (γ q : String) : Prop :=
  q ≠ γ ∧ ∃ u ∈ pre, Eligible u ∧ toString (cb u) = q ∧
    ∃ v ∈ nodeRefs u, grp g cb v = some γ

/-- q was recorded among the partitions γ depends on. -/
def DepoP (g : Graph) (cb : Node → Int) (pre : List Node) (γ q : String) : Prop :=
  q ≠ γ ∧ ∃ u ∈ pre, Eligible u ∧ toString (cb u) = γ ∧
    ∃ v ∈ nodeRefs u, grp g cb v = some q

theorem deptP_iff_depoP (g : Graph) (cb : Node → Int) (pre : List Node) (γ q : String) :
    DeptP g cb pre γ q ↔ DepoP g cb pre q γ := by
  unfold DeptP DepoP
  constructor
  · rintro ⟨hne, u, hu, he, hc, v, hv, hg⟩
    exact ⟨Ne.symm hne, u, hu, he, hc, v, hv, hg⟩
  · rintro ⟨hne, u, hu, he, hc, v, hv, hg⟩
    exact ⟨Ne.symm hne, u, hu, he, hc, v, hv, hg⟩

/-- The generic characterization of a partition map by abstract
predicates for keys, members, outputs, inputs, dependents and
depends-on. -/
structure PartsChar (ps : PartMap)
    (K : String → Prop) (M O I D E : String → String → Prop) : Prop where
  keys_nd : (ps.map Prod.fst).Nodup
  key_iff : ∀ γ, γ ∈ ps.map Prod.fst ↔ K γ
  mem_iff : ∀ γ P, alookup ps γ = some P → ∀ w, w ∈ P.node_names ↔ M γ w
  out_iff : ∀ γ P, alookup ps γ = some P → ∀ v, v ∈ P.outputs ↔ O γ v
  in_iff : ∀ γ P, alookup ps γ = some P → ∀ v, v ∈ P.inputs ↔ I γ v
  dept_iff : ∀ γ P, alookup ps γ = some P → ∀ q, q ∈ P.partition_dependents ↔ D γ q
  depo_iff : ∀ γ P, alookup ps γ = some P → ∀ q, q ∈ P.partitions_dependent_on ↔ E γ q
  out_nd : ∀ γ P, alookup ps γ = some P → P.outputs.Nodup
  in_nd : ∀ γ P, alookup ps γ = some P → P.inputs.Nodup
  dept_nd : ∀ γ P, alookup ps γ = some P → P.partition_dependents.Nodup
  depo_nd : ∀ γ P, alookup ps γ = some P → P.partitions_dependent_on.Nodup
  fresh : ∀ γ P, alookup ps γ = some P →
    P.graph = emptyGraph ∧ P.environment = [] ∧ P.targets = []

/-- Transport a characterization along pointwise equivalences. -/
theorem PartsChar.congr {ps : PartMap}
    {K K' : String → Prop} {M M' O O' I I' D D' E E' : String → String → Prop}
    (h : PartsChar ps K M O I D E)
    (hK : ∀ γ, K γ ↔ K' γ) (hM : ∀ γ w, M γ w ↔ M' γ w)
    (hO : ∀ γ v, O γ v ↔ O' γ v) (hI : ∀ γ v, I γ v ↔ I' γ v)
    (hD : ∀ γ q, D γ q ↔ D' γ q) (hE : ∀ γ q, E γ q ↔ E' γ q) :
    PartsChar ps K' M' O' I' D' E' where
  keys_nd := h.keys_nd
  key_iff γ := (h.key_iff γ).trans (hK γ)
  mem_iff γ P hP w := (h.mem_iff γ P hP w).trans (hM γ w)
  out_iff γ P hP v := (h.out_iff γ P hP v).trans (hO γ v)
  in_iff γ P hP v := (h.in_iff γ P hP v).trans (hI γ v)
  dept_iff γ P hP q := (h.dept_iff γ P hP q).trans (hD γ q)
  depo_iff γ P hP q := (h.depo_iff γ P hP q).trans (hE γ q)
  out_nd := h.out_nd
  in_nd := h.in_nd
  dept_nd := h.dept_nd
  depo_nd := h.depo_nd
  fresh := h.fresh

/-- Optionally add one element to a set. -/
def addOpt (l : List String) : Option String → List String
  | some x => addSet l x
  | none => l

theorem mem_addOpt (l : List String) (o : Option String) (y : String) :
    y ∈ addOpt l o ↔ y ∈ l ∨ some y = o := by
  cases o with
  | none => simp [addOpt]
  | some x => simp [addOpt, mem_addSet]

theorem nodup_addOpt (l : List String) (o : Option String) (h : l.Nodup) :
    (addOpt l o).Nodup := by
  cases o with
  | none => exact h
  | some x => exact nodup_addSet l x h

/-- Effect on the characterization of updating one partition by adding
(at most) one element to each of its four name sets. -/
theorem PartsChar.update_one {ps : PartMap} {K : String → Prop}
    {M O I D E : String → String → Prop} (h : PartsChar ps K M O I D E)
    (k : String) (ao ai ad ae : Option String) :
    PartsChar
      (updateP ps k (fun p =>
        { p with
          outputs := addOpt p.outputs ao
          inputs := addOpt p.inputs ai
          partition_dependents := addOpt p.partition_dependents ad
          partitions_dependent_on := addOpt p.partitions_dependent_on ae }))
      K M
      (fun γ w => O γ w ∨ (γ = k ∧ some w = ao))
      (fun γ w => I γ w ∨ (γ = k ∧ some w = ai))
      (fun γ q => D γ q ∨ (γ = k ∧ some q = ad))
      (fun γ q => E γ q ∨ (γ = k ∧ some q = ae)) := by
  have look : ∀ γ, alookup (updateP ps k (fun p =>
      { p with
        outputs := addOpt p.outputs ao
        inputs := addOpt p.inputs ai
        partition_dependents := addOpt p.partition_dependents ad
        partitions_dependent_on := addOpt p.partitions_dependent_on ae })) γ =
      if γ = k then (alookup ps k).map (fun p =>
        { p with
          outputs := addOpt p.outputs ao
          inputs := addOpt p.inputs ai
          partition_dependents := addOpt p.partition_dependents ad
          partitions_dependent_on := addOpt p.partitions_dependent_on ae })
      else alookup ps γ := fun γ => alookup_updateP ps k _ γ
  constructor
  case keys_nd => rw [keys_updateP]; exact h.keys_nd
  case key_iff => intro γ; rw [keys_updateP]; exact h.key_iff γ
  all_goals intro γ P hP
  all_goals rw [look γ] at hP
  all_goals by_cases hγ : γ = k
  all_goals first
    | (rw [if_neg hγ] at hP
       first
        | (intro w
           first
            | exact h.mem_iff γ P hP w
            | (rw [h.out_iff γ P hP w]; simp [hγ])
            | (rw [h.in_iff γ P hP w]; simp [hγ])
            | (rw [h.dept_iff γ P hP w]; simp [hγ])
            | (rw [h.depo_iff γ P hP w]; simp [hγ]))
        | exact h.out_nd γ P hP
        | exact h.in_nd γ P hP
        | exact h.dept_nd γ P hP
        | exact h.depo_nd γ P hP
        | exact h.fresh γ P hP)
    | (subst hγ
       rw [if_pos rfl] at hP
       obtain ⟨P0, hP0, rfl⟩ := Option.map_eq_some'.mp hP
       first
        | (intro w
           first
            | exact h.mem_iff γ P0 hP0 w
            | (show w ∈ addOpt P0.outputs ao ↔ _
               rw [mem_addOpt, h.out_iff γ P0 hP0 w]; simp)
            | (show w ∈ addOpt P0.inputs ai ↔ _
               rw [mem_addOpt, h.in_iff γ P0 hP0 w]; simp)
            | (show w ∈ addOpt P0.partition_dependents ad ↔ _
               rw [mem_addOpt, h.dept_iff γ P0 hP0 w]; simp)
            | (show w ∈ addOpt P0.partitions_dependent_on ae ↔ _
               rw [mem_addOpt, h.depo_iff γ P0 hP0 w]; simp))
        | exact nodup_addOpt _ _ (h.out_nd γ P0 hP0)
        | exact nodup_addOpt _ _ (h.in_nd γ P0 hP0)
        | exact nodup_addOpt _ _ (h.dept_nd γ P0 hP0)
        | exact nodup_addOpt _ _ (h.depo_nd γ P0 hP0)
        | exact h.fresh γ P0 hP0)

/-- A use whose defining and consuming partitions coincide records
nothing (purely internal edge). -/
theorem recordCross_eq_of_eq (tags : List (String × String)) (ps : PartMap)
    (v : String) (useName : Option String)
    (h : alookup tags v = useName.bind (alookup tags)) :
    recordCrossPartitionUse tags ps v useName = ps := by
  unfold recordCrossPartitionUse
  simp [h]

/-- Recording a use whose defining node has no partition: only the
consumer's partition's inputs gain the name. -/
theorem record_char_def_none {ps : PartMap} {K : String → Prop}
    {M O I D E : String → String → Prop} (h : PartsChar ps K M O I D E)
    (tags : List (String × String)) (v un γn : String)
    (hdef : alookup tags v = none) (huse : alookup tags un = some γn) :
    PartsChar (recordCrossPartitionUse tags ps v (some un)) K M O
      (fun γ w => I γ w ∨ (γ = γn ∧ w = v)) D E := by
  have h2 := h.update_one γn none (some v) none none
  have hrec : recordCrossPartitionUse tags ps v (some un) =
      updateP ps γn (fun p =>
        { p with
          outputs := addOpt p.outputs none
          inputs := addOpt p.inputs (some v)
          partition_dependents := addOpt p.partition_dependents none
          partitions_dependent_on := addOpt p.partitions_dependent_on none }) := by
    unfold recordCrossPartitionUse
    simp only [Option.bind, hdef, huse]
    rfl
  rw [hrec]
  exact h2.congr (fun γ => Iff.rfl) (fun γ w => Iff.rfl)
    (fun γ w => by simp) (fun γ w => by simp) (fun γ w => by simp) (fun γ w => by simp)

/-- Recording a genuinely cross-partition use: the producer's partition
gains the name in its outputs and the consumer's partition among its
dependents; the consumer's partition gains the name in its inputs and the
producer's partition in its depends-on set. -/
theorem record_char_cross {ps : PartMap} {K : String → Prop}
    {M O I D E : String → String → Prop} (h : PartsChar ps K M O I D E)
    (tags : List (String × String)) (v un δ γn : String)
    (hdef : alookup tags v = some δ) (huse : alookup tags un = some γn)
    (hne : δ ≠ γn) :
    PartsChar (recordCrossPartitionUse tags ps v (some un)) K M
      (fun γ w => O γ w ∨ (γ = δ ∧ w = v))
      (fun γ w => I γ w ∨ (γ = γn ∧ w = v))
      (fun γ q => D γ q ∨ (γ = δ ∧ q = γn))
      (fun γ q => E γ q ∨ (γ = γn ∧ q = δ)) := by
  have h2 := (h.update_one δ (some v) none (some γn) none).update_one γn none (some v) none (some δ)
  have hrec : recordCrossPartitionUse tags ps v (some un) =
      updateP
        (updateP ps δ (fun p =>
          { p with
            outputs := addOpt p.outputs (some v)
            inputs := addOpt p.inputs none
            partition_dependents := addOpt p.partition_dependents (some γn)
            partitions_dependent_on := addOpt p.partitions_dependent_on none }))
        γn (fun p =>
          { p with
            outputs := addOpt p.outputs none
            inputs := addOpt p.inputs (some v)
            partition_dependents := addOpt p.partition_dependents none
            partitions_dependent_on := addOpt p.partitions_dependent_on (some δ) }) := by
    unfold recordCrossPartitionUse
    simp only [Option.bind, hdef, huse]
    have : ¬(some δ = some γn) := by simpa using hne
    rw [if_neg this]
    rfl
  rw [hrec]
  exact h2.congr (fun γ => Iff.rfl) (fun γ w => Iff.rfl)
    (fun γ w => by simp) (fun γ w => by simp) (fun γ w => by simp) (fun γ w => by simp)

/-- Recording a use by the virtual result consumer: only the producer's
partition's outputs gain the name. -/
theorem record_char_result {ps : PartMap} {K : String → Prop}
    {M O I D E : String → String → Prop} (h : PartsChar ps K M O I D E)
    (tags : List (String × String)) (v δ : String)
    (hdef : alookup tags v = some δ) :
    PartsChar (recordCrossPartitionUse tags ps v none) K M
      (fun γ w => O γ w ∨ (γ = δ ∧ w = v)) I D E := by
  have h2 := h.update_one δ (some v) none none none
  have hrec : recordCrossPartitionUse tags ps v none =
      updateP ps δ (fun p =>
        { p with
          outputs := addOpt p.outputs (some v)
          inputs := addOpt p.inputs none
          partition_dependents := addOpt p.partition_dependents none
          partitions_dependent_on := addOpt p.partitions_dependent_on none }) := by
    unfold recordCrossPartitionUse
    simp only [Option.bind, hdef]
    rfl
  rw [hrec]
  exact h2.congr (fun γ => Iff.rfl) (fun γ w => Iff.rfl)
    (fun γ w => by simp) (fun γ w => by simp) (fun γ w => by simp) (fun γ w => by simp)

/-! ### The four partition fields while one node's references are being
recorded: the prefix contribution plus the contribution of the already
processed references of the current node. -/

def OutD (g : Graph) (cb : Node → Int) (pre : List Node) (n : Node)
    (done : List String) (γ v : String) : Prop :=
  CrossOut g cb pre γ v ∨
    (grp g cb v = some γ ∧ v ∈ done ∧ toString (cb n) ≠ γ)

def InD (g : Graph) (cb : Node → Int) (pre : List Node) (n : Node)
    (done : List String) (γ v : String) : Prop :=
  CrossIn g cb pre γ v ∨
    (grp g cb v ≠ some γ ∧ v ∈ done ∧ toString (cb n) = γ)

def DeptD (g : Graph) (cb : Node → Int) (pre : List Node) (n : Node)
    (done : List String) (γ q : String) : Prop :=
  DeptP g cb pre γ q ∨
    (q = toString (cb n) ∧ q ≠ γ ∧ ∃ v ∈ done, grp g cb v = some γ)

def DepoD (g : Graph) (cb : Node → Int) (pre : List Node) (n : Node)
    (done : List String) (γ q : String) : Prop :=
  DepoP g cb pre γ q ∨
    (γ = toString (cb n) ∧ q ≠ γ ∧ ∃ v ∈ done, grp g cb v = some q)

/-- Recording the references of one node, one at a time, extends the four
fields exactly by the processed references' contributions. -/
theorem record_fold_char (g : Graph) (cb : Node → Int) (pre : List Node) (n : Node)
    (tagsM : List (String × String)) {K : String → Prop} {M : String → String → Prop}
    (hbridge : ∀ w ∈ pre.map Node.name, alookup tagsM w = grp g cb w)
    (huse : alookup tagsM n.name = some (toString (cb n))) :
    ∀ (todo done : List String) (ps : PartMap),
      (∀ w ∈ todo, w ∈ pre.map Node.name) →
      PartsChar ps K M (OutD g cb pre n done) (InD g cb pre n done)
        (DeptD g cb pre n done) (DepoD g cb pre n done) →
      PartsChar
        (todo.foldl (fun acc d => recordCrossPartitionUse tagsM acc d (some n.name)) ps)
        K M (OutD g cb pre n (done ++ todo)) (InD g cb pre n (done ++ todo))
        (DeptD g cb pre n (done ++ todo)) (DepoD g cb pre n (done ++ todo)) := by
  intro todo
  induction todo with
  | nil => intro done ps _ h; simpa using h
  | cons v todo' ih =>
    intro done ps htodo h
    have hv : v ∈ pre.map Node.name := htodo v (by simp)
    have hbv : alookup tagsM v = grp g cb v := hbridge v hv
    have step : PartsChar (recordCrossPartitionUse tagsM ps v (some n.name)) K M
        (OutD g cb pre n (done ++ [v])) (InD g cb pre n (done ++ [v]))
        (DeptD g cb pre n (done ++ [v])) (DepoD g cb pre n (done ++ [v])) := by
      cases hg : grp g cb v with
      | none =>
        rw [hg] at hbv
        refine (record_char_def_none h tagsM v n.name (toString (cb n)) hbv huse).congr
          (fun γ => Iff.rfl) (fun γ w => Iff.rfl) ?_ ?_ ?_ ?_
        · intro γ w
          unfold OutD
          constructor
          · rintro (ho | ⟨h1, h2, h3⟩)
            · exact Or.inl ho
            · exact Or.inr ⟨h1, by simp [h2], h3⟩
          · rintro (ho | ⟨h1, h2, h3⟩)
            · exact Or.inl ho
            · rw [List.mem_append, List.mem_singleton] at h2
              rcases h2 with h2 | rfl
              · exact Or.inr ⟨h1, h2, h3⟩
              · rw [hg] at h1; cases h1
        · intro γ w
          unfold InD
          constructor
          · rintro ((hi | ⟨h1, h2, h3⟩) | ⟨rfl, rfl⟩)
            · exact Or.inl hi
            · exact Or.inr ⟨h1, by simp [h2], h3⟩
            · exact Or.inr ⟨by simp [hg], by simp, rfl⟩
          · rintro (hi | ⟨h1, h2, h3⟩)
            · exact Or.inl (Or.inl hi)
            · rw [List.mem_append, List.mem_singleton] at h2
              rcases h2 with h2 | rfl
              · exact Or.inl (Or.inr ⟨h1, h2, h3⟩)
              · exact Or.inr ⟨h3.symm, rfl⟩
        · intro γ q
          unfold DeptD
          constructor
          · rintro (hd | ⟨h1, h2, v', hv', h3⟩)
            · exact Or.inl hd
            · exact Or.inr ⟨h1, h2, v', by simp [hv'], h3⟩
          · rintro (hd | ⟨h1, h2, v', hv', h3⟩)
            · exact Or.inl hd
            · rw [List.mem_append, List.mem_singleton] at hv'
              rcases hv' with hv' | rfl
              · exact Or.inr ⟨h1, h2, v', hv', h3⟩
              · rw [hg] at h3; cases h3
        · intro γ q
          unfold DepoD
          constructor
          · rintro (hd | ⟨h1, h2, v', hv', h3⟩)
            · exact Or.inl hd
            · exact Or.inr ⟨h1, h2, v', by simp [hv'], h3⟩
          · rintro (hd | ⟨h1, h2, v', hv', h3⟩)
            · exact Or.inl hd
            · rw [List.mem_append, List.mem_singleton] at hv'
              rcases hv' with hv' | rfl
              · exact Or.inr ⟨h1, h2, v', hv', h3⟩
              · rw [hg] at h3; cases h3
      | some δ =>
        rw [hg] at hbv
        by_cases hδ : δ = toString (cb n)
        · subst hδ
          have heq : recordCrossPartitionUse tagsM ps v (some n.name) = ps :=
            recordCross_eq_of_eq tagsM ps v (some n.name)
              (by simp [Option.bind, hbv, huse])
          rw [heq]
          refine h.congr (fun γ => Iff.rfl) (fun γ w => Iff.rfl) ?_ ?_ ?_ ?_
          · intro γ w
            unfold OutD
            refine or_congr Iff.rfl ?_
            constructor
            · rintro ⟨h1, h2, h3⟩
              exact ⟨h1, by simp [h2], h3⟩
            · rintro ⟨h1, h2, h3⟩
              rw [List.mem_append, List.mem_singleton] at h2
              rcases h2 with h2 | rfl
              · exact ⟨h1, h2, h3⟩
              · rw [hg] at h1
                exact absurd (Option.some_inj.mp h1) h3
          · intro γ w
            unfold InD
            refine or_congr Iff.rfl ?_
            constructor
            · rintro ⟨h1, h2, h3⟩
              exact ⟨h1, by simp [h2], h3⟩
            · rintro ⟨h1, h2, h3⟩
              rw [List.mem_append, List.mem_singleton] at h2
              rcases h2 with h2 | rfl
              · exact ⟨h1, h2, h3⟩
              · rw [hg] at h1
                exact absurd (by rw [h3]) h1
          · intro γ q
            unfold DeptD
            refine or_congr Iff.rfl ?_
            constructor
            · rintro ⟨h1, h2, v', hv', h3⟩
              exact ⟨h1, h2, v', by simp [hv'], h3⟩
            · rintro ⟨h1, h2, v', hv', h3⟩
              rw [List.mem_append, List.mem_singleton] at hv'
              rcases hv' with hv' | rfl
              · exact ⟨h1, h2, v', hv', h3⟩
              · rw [hg] at h3
                exact absurd (h1.trans (Option.some_inj.mp h3)) h2
          · intro γ q
            unfold DepoD
            refine or_congr Iff.rfl ?_
            constructor
            · rintro ⟨h1, h2, v', hv', h3⟩
              exact ⟨h1, h2, v', by simp [hv'], h3⟩
            · rintro ⟨h1, h2, v', hv', h3⟩
              rw [List.mem_append, List.mem_singleton] at hv'
              rcases hv' with hv' | rfl
              · exact ⟨h1, h2, v', hv', h3⟩
              · rw [hg] at h3
                exact absurd ((Option.some_inj.mp h3).symm.trans h1.symm) h2
        · refine (record_char_cross h tagsM v n.name δ (toString (cb n)) hbv huse hδ).congr
            (fun γ => Iff.rfl) (fun γ w => Iff.rfl) ?_ ?_ ?_ ?_
          · intro γ w
            unfold OutD
            constructor
            · rintro ((ho | ⟨h1, h2, h3⟩) | ⟨rfl, rfl⟩)
              · exact Or.inl ho
              · exact Or.inr ⟨h1, by simp [h2], h3⟩
              · exact Or.inr ⟨hg, by simp, Ne.symm hδ⟩
            · rintro (ho | ⟨h1, h2, h3⟩)
              · exact Or.inl (Or.inl ho)
              · rw [List.mem_append, List.mem_singleton] at h2
                rcases h2 with h2 | rfl
                · exact Or.inl (Or.inr ⟨h1, h2, h3⟩)
                · rw [hg] at h1
                  exact Or.inr ⟨(Option.some_inj.mp h1).symm, rfl⟩
          · intro γ w
            unfold InD
            constructor
            · rintro ((hi | ⟨h1, h2, h3⟩) | ⟨rfl, rfl⟩)
              · exact Or.inl hi
              · exact Or.inr ⟨h1, by simp [h2], h3⟩
              · exact Or.inr ⟨by rw [hg]; simp [hδ], by simp, rfl⟩
            · rintro (hi | ⟨h1, h2, h3⟩)
              · exact Or.inl (Or.inl hi)
              · rw [List.mem_append, List.mem_singleton] at h2
                rcases h2 with h2 | rfl
                · exact Or.inl (Or.inr ⟨h1, h2, h3⟩)
                · exact Or.inr ⟨h3.symm, rfl⟩
          · intro γ q
            unfold DeptD
            constructor
            · rintro ((hd | ⟨h1, h2, v', hv', h3⟩) | ⟨rfl, rfl⟩)
              · exact Or.inl hd
              · exact Or.inr ⟨h1, h2, v', by simp [hv'], h3⟩
              · exact Or.inr ⟨rfl, Ne.symm hδ, v, by simp, hg⟩
            · rintro (hd | ⟨h1, h2, v', hv', h3⟩)
              · exact Or.inl (Or.inl hd)
              · rw [List.mem_append, List.mem_singleton] at hv'
                rcases hv' with hv' | rfl
                · exact Or.inl (Or.inr ⟨h1, h2, v', hv', h3⟩)
                · rw [hg] at h3
                  exact Or.inr ⟨(Option.some_inj.mp h3).symm, h1⟩
          · intro γ q
            unfold DepoD
            constructor
            · rintro ((hd | ⟨h1, h2, v', hv', h3⟩) | ⟨rfl, rfl⟩)
              · exact Or.inl hd
              · exact Or.inr ⟨h1, h2, v', by simp [hv'], h3⟩
              · exact Or.inr ⟨rfl, hδ, v, by simp, hg⟩
            · rintro (hd | ⟨h1, h2, v', hv', h3⟩)
              · exact Or.inl (Or.inl hd)
              · rw [List.mem_append, List.mem_singleton] at hv'
                rcases hv' with hv' | rfl
                · exact Or.inl (Or.inr ⟨h1, h2, v', hv', h3⟩)
                · rw [hg] at h3
                  exact Or.inr ⟨h1, (Option.some_inj.mp h3).symm⟩
    have := ih (done ++ [v]) (recordCrossPartitionUse tagsM ps v (some n.name))
      (fun w hw => htodo w (by simp [hw])) step
    simpa [List.append_assoc] using this

/-- Creating a fresh empty partition extends only the key set. -/
theorem PartsChar.snoc_empty {ps : PartMap} {K : String → Prop}
    {M O I D E : String → String → Prop} (h : PartsChar ps K M O I D E)
    (γn : String) (hnk : ¬K γn)
    (hMk : ∀ γ w, M γ w → K γ) (hOk : ∀ γ w, O γ w → K γ)
    (hIk : ∀ γ w, I γ w → K γ) (hDk : ∀ γ w, D γ w → K γ)
    (hEk : ∀ γ w, E γ w → K γ) :
    PartsChar (ps ++ [(γn, emptyPartition γn)]) (fun γ => K γ ∨ γ = γn) M O I D E := by
  have hkeys : (ps ++ [(γn, emptyPartition γn)]).map Prod.fst = ps.map Prod.fst ++ [γn] := by
    simp
  have hγn : γn ∉ ps.map Prod.fst := fun hmem => hnk ((h.key_iff γn).mp hmem)
  have main : ∀ γ P, alookup (ps ++ [(γn, emptyPartition γn)]) γ = some P →
      alookup ps γ = some P ∨ (γ = γn ∧ P = emptyPartition γn) := by
    intro γ P hP
    rw [alookup_append ps _ γ] at hP
    cases hps : alookup ps γ with
    | some Q =>
      rw [hps] at hP
      exact Or.inl hP
    | none =>
      rw [hps] at hP
      simp only [alookup] at hP
      by_cases hγ : γn = γ
      · subst hγ
        rw [if_pos rfl] at hP
        exact Or.inr ⟨rfl, (Option.some_inj.mp hP).symm⟩
      · rw [if_neg hγ] at hP; cases hP
  constructor
  case keys_nd =>
    rw [hkeys]
    refine List.Nodup.append h.keys_nd (List.nodup_singleton _) ?_
    intro a ha hb
    simp only [List.mem_singleton] at hb
    subst hb
    exact hγn ha
  case key_iff =>
    intro γ
    rw [hkeys, List.mem_append, List.mem_singleton, h.key_iff γ]
  all_goals intro γ P hP
  all_goals rcases main γ P hP with hm | ⟨rfl, rfl⟩
  case mem_iff.inl => exact h.mem_iff γ P hm
  case mem_iff.inr =>
    intro w
    simp only [emptyPartition, List.not_mem_nil, false_iff]
    exact fun hMw => hnk (hMk γ w hMw)
  case out_iff.inl => exact h.out_iff γ P hm
  case out_iff.inr =>
    intro w
    simp only [emptyPartition, List.not_mem_nil, false_iff]
    exact fun hw => hnk (hOk γ w hw)
  case in_iff.inl => exact h.in_iff γ P hm
  case in_iff.inr =>
    intro w
    simp only [emptyPartition, List.not_mem_nil, false_iff]
    exact fun hw => hnk (hIk γ w hw)
  case dept_iff.inl => exact h.dept_iff γ P hm
  case dept_iff.inr =>
    intro w
    simp only [emptyPartition, List.not_mem_nil, false_iff]
    exact fun hw => hnk (hDk γ w hw)
  case depo_iff.inl => exact h.depo_iff γ P hm
  case depo_iff.inr =>
    intro w
    simp only [emptyPartition, List.not_mem_nil, false_iff]
    exact fun hw => hnk (hEk γ w hw)
  case out_nd.inl => exact h.out_nd γ P hm
  case out_nd.inr => exact List.nodup_nil
  case in_nd.inl => exact h.in_nd γ P hm
  case in_nd.inr => exact List.nodup_nil
  case dept_nd.inl => exact h.dept_nd γ P hm
  case dept_nd.inr => exact List.nodup_nil
  case depo_nd.inl => exact h.depo_nd γ P hm
  case depo_nd.inr => exact List.nodup_nil
  case fresh.inl => exact h.fresh γ P hm
  case fresh.inr => exact ⟨rfl, rfl, rfl⟩

/-- Appending a member name to one partition extends only the member
predicate. -/
theorem PartsChar.append_member {ps : PartMap} {K : String → Prop}
    {M O I D E : String → String → Prop} (h : PartsChar ps K M O I D E)
    (γn w0 : String) :
    PartsChar (updateP ps γn (fun p => { p with node_names := p.node_names ++ [w0] }))
      K (fun γ w => M γ w ∨ (γ = γn ∧ w = w0)) O I D E := by
  have look : ∀ γ, alookup (updateP ps γn
      (fun p => { p with node_names := p.node_names ++ [w0] })) γ =
      if γ = γn then (alookup ps γn).map (fun p =>
        { p with node_names := p.node_names ++ [w0] })
      else alookup ps γ := fun γ => alookup_updateP ps γn _ γ
  constructor
  case keys_nd => rw [keys_updateP]; exact h.keys_nd
  case key_iff => intro γ; rw [keys_updateP]; exact h.key_iff γ
  all_goals intro γ P hP
  all_goals rw [look γ] at hP
  all_goals by_cases hγ : γ = γn
  all_goals first
    | (rw [if_neg hγ] at hP
       first
        | (intro w
           first
            | (rw [h.mem_iff γ P hP w]; simp [hγ])
            | exact h.out_iff γ P hP w
            | exact h.in_iff γ P hP w
            | exact h.dept_iff γ P hP w
            | exact h.depo_iff γ P hP w)
        | exact h.out_nd γ P hP
        | exact h.in_nd γ P hP
        | exact h.dept_nd γ P hP
        | exact h.depo_nd γ P hP
        | exact h.fresh γ P hP)
    | (subst hγ
       rw [if_pos rfl] at hP
       obtain ⟨P0, hP0, rfl⟩ := Option.map_eq_some'.mp hP
       first
        | (intro w
           first
            | (show w ∈ P0.node_names ++ [w0] ↔ _
               rw [List.mem_append, List.mem_singleton, h.mem_iff γ P0 hP0 w]
               simp)
            | exact h.out_iff γ P0 hP0 w
            | exact h.in_iff γ P0 hP0 w
            | exact h.dept_iff γ P0 hP0 w
            | exact h.depo_iff γ P0 hP0 w)
        | exact h.out_nd γ P0 hP0
        | exact h.in_nd γ P0 hP0
        | exact h.dept_nd γ P0 hP0
        | exact h.depo_nd γ P0 hP0
        | exact h.fresh γ P0 hP0)

/-! ### Every recorded fact about a partition presupposes that the
partition was created (its key names an eligible node of the prefix). -/

theorem producer_mem_pre {g : Graph} (cb : Node → Int) {pre : List Node}
    (hwf : WF g) (hsub : ∀ x ∈ pre, x ∈ g.nodes) {v γ : String}
    (hv : v ∈ pre.map Node.name) (hg : grp g cb v = some γ) :
    ∃ m ∈ pre, m.name = v ∧ Eligible m ∧ toString (cb m) = γ := by
  obtain ⟨m, hm, hname, he, hc⟩ := (grp_eq_some_iff cb hwf v γ).mp hg
  simp only [List.mem_map] at hv
  obtain ⟨m', hm', hname'⟩ := hv
  have : m = m' := name_inj hwf hm (hsub m' hm') (hname.trans hname'.symm)
  subst this
  exact ⟨m, hm', hname, he, hc⟩

theorem crossOut_keyP {g : Graph} (cb : Node → Int) {pre : List Node}
    (hwf : WF g) (hsub : ∀ x ∈ pre, x ∈ g.nodes) (hwfpre : WFnodes [] pre)
    {γ v : String} (h : CrossOut g cb pre γ v) : KeyP cb pre γ := by
  obtain ⟨hg, u, hu, _, hvref, _⟩ := h
  have hv : v ∈ pre.map Node.name := by
    rcases wfnodes_refs_subset pre [] hwfpre u hu v hvref with hc | hc
    · cases hc
    · exact hc
  obtain ⟨m, hm, _, he, hc⟩ := producer_mem_pre cb hwf hsub hv hg
  exact ⟨m, hm, he, hc⟩

theorem crossIn_keyP (g : Graph) (cb : Node → Int) (pre : List Node)
    {γ v : String} (h : CrossIn g cb pre γ v) : KeyP cb pre γ := by
  obtain ⟨_, u, hu, hue, _, hc⟩ := h
  exact ⟨u, hu, hue, hc⟩

theorem deptP_keyP {g : Graph} (cb : Node → Int) {pre : List Node}
    (hwf : WF g) (hsub : ∀ x ∈ pre, x ∈ g.nodes) (hwfpre : WFnodes [] pre)
    {γ q : String} (h : DeptP g cb pre γ q) : KeyP cb pre γ := by
  obtain ⟨_, u, hu, _, _, v, hvref, hg⟩ := h
  have hv : v ∈ pre.map Node.name := by
    rcases wfnodes_refs_subset pre [] hwfpre u hu v hvref with hc | hc
    · cases hc
    · exact hc
  obtain ⟨m, hm, _, he, hc⟩ := producer_mem_pre cb hwf hsub hv hg
  exact ⟨m, hm, he, hc⟩

theorem depoP_keyP (g : Graph) (cb : Node → Int) (pre : List Node)
    {γ q : String} (h : DepoP g cb pre γ q) : KeyP cb pre γ := by
  obtain ⟨_, u, hu, hue, hc, _⟩ := h
  exact ⟨u, hu, hue, hc⟩

theorem memP_keyP (cb : Node → Int) (pre : List Node)
    {γ w : String} (h : MemP cb pre γ w) : KeyP cb pre γ := by
  obtain ⟨m, hm, he, hc, _⟩ := h
  exact ⟨m, hm, he, hc⟩

/-! ### Extending the prefix by one processed node -/

theorem keyP_snoc_elig (cb : Node → Int) (pre : List Node) (n : Node)
    (he : Eligible n) (γ : String) :
    KeyP cb (pre ++ [n]) γ ↔ KeyP cb pre γ ∨ γ = toString (cb n) := by
  unfold KeyP
  constructor
  · rintro ⟨m, hm, hme, hc⟩
    rw [List.mem_append, List.mem_singleton] at hm
    rcases hm with hm | rfl
    · exact Or.inl ⟨m, hm, hme, hc⟩
    · exact Or.inr hc.symm
  · rintro (⟨m, hm, hme, hc⟩ | rfl)
    · exact ⟨m, by simp [hm], hme, hc⟩
    · exact ⟨n, by simp, he, rfl⟩

theorem keyP_snoc_inelig (cb : Node → Int) (pre : List Node) (n : Node)
    (he : ¬Eligible n) (γ : String) :
    KeyP cb (pre ++ [n]) γ ↔ KeyP cb pre γ := by
  unfold KeyP
  constructor
  · rintro ⟨m, hm, hme, hc⟩
    rw [List.mem_append, List.mem_singleton] at hm
    rcases hm with hm | rfl
    · exact ⟨m, hm, hme, hc⟩
    · exact absurd hme he
  · rintro ⟨m, hm, hme, hc⟩
    exact ⟨m, by simp [hm], hme, hc⟩

theorem memP_snoc_elig (cb : Node → Int) (pre : List Node) (n : Node)
    (he : Eligible n) (γ w : String) :
    MemP cb (pre ++ [n]) γ w ↔
      MemP cb pre γ w ∨ (γ = toString (cb n) ∧ w = n.name) := by
  unfold MemP
  constructor
  · rintro ⟨m, hm, hme, hc, hn⟩
    rw [List.mem_append, List.mem_singleton] at hm
    rcases hm with hm | rfl
    · exact Or.inl ⟨m, hm, hme, hc, hn⟩
    · exact Or.inr ⟨hc.symm, hn.symm⟩
  · rintro (⟨m, hm, hme, hc, hn⟩ | ⟨rfl, rfl⟩)
    · exact ⟨m, by simp [hm], hme, hc, hn⟩
    · exact ⟨n, by simp, he, rfl, rfl⟩

theorem memP_snoc_inelig (cb : Node → Int) (pre : List Node) (n : Node)
    (he : ¬Eligible n) (γ w : String) :
    MemP cb (pre ++ [n]) γ w ↔ MemP cb pre γ w := by
  unfold MemP
  constructor
  · rintro ⟨m, hm, hme, hc, hn⟩
    rw [List.mem_append, List.mem_singleton] at hm
    rcases hm with hm | rfl
    · exact ⟨m, hm, hme, hc, hn⟩
    · exact absurd hme he
  · rintro ⟨m, hm, hme, hc, hn⟩
    exact ⟨m, by simp [hm], hme, hc, hn⟩

theorem crossOut_snoc_elig (g : Graph) (cb : Node → Int) (pre : List Node) (n : Node)
    (he : Eligible n) (γ v : String) :
    CrossOut g cb (pre ++ [n]) γ v ↔ OutD g cb pre n (nodeRefs n) γ v := by
  unfold CrossOut OutD CrossOut
  constructor
  · rintro ⟨hg, u, hu, hue, hvref, hne⟩
    rw [List.mem_append, List.mem_singleton] at hu
    rcases hu with hu | rfl
    · exact Or.inl ⟨hg, u, hu, hue, hvref, hne⟩
    · exact Or.inr ⟨hg, hvref, hne⟩
  · rintro (⟨hg, u, hu, hue, hvref, hne⟩ | ⟨hg, hvref, hne⟩)
    · exact ⟨hg, u, by simp [hu], hue, hvref, hne⟩
    · exact ⟨hg, n, by simp, he, hvref, hne⟩

theorem crossOut_snoc_inelig (g : Graph) (cb : Node → Int) (pre : List Node) (n : Node)
    (he : ¬Eligible n) (γ v : String) :
    CrossOut g cb (pre ++ [n]) γ v ↔ CrossOut g cb pre γ v := by
  unfold CrossOut
  constructor
  · rintro ⟨hg, u, hu, hue, hvref, hne⟩
    rw [List.mem_append, List.mem_singleton] at hu
    rcases hu with hu | rfl
    · exact ⟨hg, u, hu, hue, hvref, hne⟩
    · exact absurd hue he
  · rintro ⟨hg, u, hu, hue, hvref, hne⟩
    exact ⟨hg, u, by simp [hu], hue, hvref, hne⟩

theorem crossIn_snoc_elig (g : Graph) (cb : Node → Int) (pre : List Node) (n : Node)
    (he : Eligible n) (γ v : String) :
    CrossIn g cb (pre ++ [n]) γ v ↔ InD g cb pre n (nodeRefs n) γ v := by
  unfold CrossIn InD CrossIn
  constructor
  · rintro ⟨hg, u, hu, hue, hvref, hc⟩
    rw [List.mem_append, List.mem_singleton] at hu
    rcases hu with hu | rfl
    · exact Or.inl ⟨hg, u, hu, hue, hvref, hc⟩
    · exact Or.inr ⟨hg, hvref, hc⟩
  · rintro (⟨hg, u, hu, hue, hvref, hc⟩ | ⟨hg, hvref, hc⟩)
    · exact ⟨hg, u, by simp [hu], hue, hvref, hc⟩
    · exact ⟨hg, n, by simp, he, hvref, hc⟩

theorem crossIn_snoc_inelig (g : Graph) (cb : Node → Int) (pre : List Node) (n : Node)
    (he : ¬Eligible n) (γ v : String) :
    CrossIn g cb (pre ++ [n]) γ v ↔ CrossIn g cb pre γ v := by
  unfold CrossIn
  constructor
  · rintro ⟨hg, u, hu, hue, hvref, hc⟩
    rw [List.mem_append, List.mem_singleton] at hu
    rcases hu with hu | rfl
    · exact ⟨hg, u, hu, hue, hvref, hc⟩
    · exact absurd hue he
  · rintro ⟨hg, u, hu, hue, hvref, hc⟩
    exact ⟨hg, u, by simp [hu], hue, hvref, hc⟩

theorem deptP_snoc_elig (g : Graph) (cb : Node → Int) (pre : List Node) (n : Node)
    (he : Eligible n) (γ q : String) :
    DeptP g cb (pre ++ [n]) γ q ↔ DeptD g cb pre n (nodeRefs n) γ q := by
  unfold DeptP DeptD DeptP
  constructor
  · rintro ⟨hne, u, hu, hue, hc, v, hvref, hg⟩
    rw [List.mem_append, List.mem_singleton] at hu
    rcases hu with hu | rfl
    · exact Or.inl ⟨hne, u, hu, hue, hc, v, hvref, hg⟩
    · exact Or.inr ⟨hc.symm, hne, v, hvref, hg⟩
  · rintro (⟨hne, u, hu, hue, hc, v, hvref, hg⟩ | ⟨hq, hne, v, hvref, hg⟩)
    · exact ⟨hne, u, by simp [hu], hue, hc, v, hvref, hg⟩
    · exact ⟨hne, n, by simp, he, hq.symm, v, hvref, hg⟩

theorem deptP_snoc_inelig (g : Graph) (cb : Node → Int) (pre : List Node) (n : Node)
    (he : ¬Eligible n) (γ q : String) :
    DeptP g cb (pre ++ [n]) γ q ↔ DeptP g cb pre γ q := by
  unfold DeptP
  constructor
  · rintro ⟨hne, u, hu, hue, hc, v, hvref, hg⟩
    rw [List.mem_append, List.mem_singleton] at hu
    rcases hu with hu | rfl
    · exact ⟨hne, u, hu, hue, hc, v, hvref, hg⟩
    · exact absurd hue he
  · rintro ⟨hne, u, hu, hue, hc, v, hvref, hg⟩
    exact ⟨hne, u, by simp [hu], hue, hc, v, hvref, hg⟩

theorem depoP_snoc_elig (g : Graph) (cb : Node → Int) (pre : List Node) (n : Node)
    (he : Eligible n) (γ q : String) :
    DepoP g cb (pre ++ [n]) γ q ↔ DepoD g cb pre n (nodeRefs n) γ q := by
  unfold DepoP DepoD DepoP
  constructor
  · rintro ⟨hne, u, hu, hue, hc, v, hvref, hg⟩
    rw [List.mem_append, List.mem_singleton] at hu
    rcases hu with hu | rfl
    · exact Or.inl ⟨hne, u, hu, hue, hc, v, hvref, hg⟩
    · exact Or.inr ⟨hc.symm, hne, v, hvref, hg⟩
  · rintro (⟨hne, u, hu, hue, hc, v, hvref, hg⟩ | ⟨hγ, hne, v, hvref, hg⟩)
    · exact ⟨hne, u, by simp [hu], hue, hc, v, hvref, hg⟩
    · exact ⟨hne, n, by simp, he, hγ.symm, v, hvref, hg⟩

theorem depoP_snoc_inelig (g : Graph) (cb : Node → Int) (pre : List Node) (n : Node)
    (he : ¬Eligible n) (γ q : String) :
    DepoP g cb (pre ++ [n]) γ q ↔ DepoP g cb pre γ q := by
  unfold DepoP
  constructor
  · rintro ⟨hne, u, hu, hue, hc, v, hvref, hg⟩
    rw [List.mem_append, List.mem_singleton] at hu
    rcases hu with hu | rfl
    · exact ⟨hne, u, hu, hue, hc, v, hvref, hg⟩
    · exact absurd hue he
  · rintro ⟨hne, u, hu, hue, hc, v, hvref, hg⟩
    exact ⟨hne, u, by simp [hu], hue, hc, v, hvref, hg⟩

/-! ### The discovery invariant and the pass over the node list -/

/-- After discovery has processed a prefix of the nodes: the partitions
are characterized by the prefix predicates, and the tag state equals the
final group on processed names and is unset elsewhere. -/
def DInv (g : Graph) (cb : Node → Int) (pre : List Node) (st : DiscSt) : Prop :=
  PartsChar st.partitions (KeyP cb pre) (MemP cb pre) (CrossOut g cb pre)
    (CrossIn g cb pre) (DeptP g cb pre) (DepoP g cb pre) ∧
  (∀ v ∈ pre.map Node.name, alookup st.tags v = grp g cb v) ∧
  (∀ v, v ∉ pre.map Node.name → alookup st.tags v = none)

theorem discStep_inv (g : Graph) (cb : Node → Int) (pre : List Node) (n : Node)
    (st : DiscSt) (hwf : WF g) (hsub : ∀ x ∈ pre, x ∈ g.nodes) (hn : n ∈ g.nodes)
    (hwfpre : WFnodes [] pre) (hnn : n.name ∉ pre.map Node.name)
    (hrefs : ∀ v ∈ nodeRefs n, v ∈ pre.map Node.name)
    (hinv : DInv g cb pre st) :
    DInv g cb (pre ++ [n]) (discStep cb st n) := by
  obtain ⟨hchar, htags_eq, htags_none⟩ := hinv
  by_cases he : n.op = Op.placeholder ∨ n.op = Op.get_attr
  · have hni : ¬Eligible n := fun hE => hE he
    have hstep : discStep cb st n = { st with orig_nodes := aset st.orig_nodes n.name n } := by
      unfold discStep
      rw [if_pos he]
    rw [hstep]
    refine ⟨?_, ?_, ?_⟩
    · exact hchar.congr
        (fun γ => (keyP_snoc_inelig cb pre n hni γ).symm)
        (fun γ w => (memP_snoc_inelig cb pre n hni γ w).symm)
        (fun γ v => (crossOut_snoc_inelig g cb pre n hni γ v).symm)
        (fun γ v => (crossIn_snoc_inelig g cb pre n hni γ v).symm)
        (fun γ q => (deptP_snoc_inelig g cb pre n hni γ q).symm)
        (fun γ q => (depoP_snoc_inelig g cb pre n hni γ q).symm)
    · intro v hv
      rw [List.map_append, List.mem_append] at hv
      rcases hv with hv | hv
      · exact htags_eq v hv
      · simp only [List.map_cons, List.map_nil, List.mem_singleton] at hv
        subst hv
        rw [htags_none n.name hnn, grp_of_mem cb hwf hn, if_pos he]
    · intro v hv
      rw [List.map_append, List.mem_append] at hv
      push_neg at hv
      exact htags_none v hv.1
  · have hE : Eligible n := he
    have hstep : discStep cb st n =
        { partitions :=
            (nodeRefs n).foldl
              (fun acc d =>
                recordCrossPartitionUse (aset st.tags n.name (toString (cb n))) acc d
                  (some n.name))
              (updateP
                (match alookup st.partitions (toString (cb n)) with
                 | some _ => st.partitions
                 | none =>
                   st.partitions ++ [(toString (cb n), emptyPartition (toString (cb n)))])
                (toString (cb n))
                (fun p => { p with node_names := p.node_names ++ [n.name] }))
          orig_nodes := aset st.orig_nodes n.name n
          tags := aset st.tags n.name (toString (cb n)) } := by
      unfold discStep
      rw [if_neg he]
    rw [hstep]
    -- step 1: partition creation
    have hchar1 : PartsChar
        (match alookup st.partitions (toString (cb n)) with
         | some _ => st.partitions
         | none => st.partitions ++ [(toString (cb n), emptyPartition (toString (cb n)))])
        (fun γ => KeyP cb pre γ ∨ γ = toString (cb n)) (MemP cb pre)
        (CrossOut g cb pre) (CrossIn g cb pre) (DeptP g cb pre) (DepoP g cb pre) := by
      cases hc : alookup st.partitions (toString (cb n)) with
      | some P0 =>
        have hkey : KeyP cb pre (toString (cb n)) :=
          (hchar.key_iff _).mp (mem_keys_of_alookup hc)
        exact hchar.congr
          (fun γ => ⟨Or.inl, fun hh => hh.elim id (fun hγ => hγ ▸ hkey)⟩)
          (fun γ w => Iff.rfl) (fun γ v => Iff.rfl) (fun γ v => Iff.rfl)
          (fun γ q => Iff.rfl) (fun γ q => Iff.rfl)
      | none =>
        have hnk : ¬KeyP cb pre (toString (cb n)) := by
          intro hk
          have := (hchar.key_iff _).mpr hk
          rw [← alookup_isSome_iff_mem, hc] at this
          cases this
        exact hchar.snoc_empty (toString (cb n)) hnk
          (fun γ w => memP_keyP cb pre)
          (fun γ w => crossOut_keyP cb hwf hsub hwfpre)
          (fun γ w => crossIn_keyP g cb pre)
          (fun γ w => deptP_keyP cb hwf hsub hwfpre)
          (fun γ w => depoP_keyP g cb pre)
    -- step 2: member append
    have hchar2 := hchar1.append_member (toString (cb n)) n.name
    -- step 3: tag write
    have hbridge : ∀ w ∈ pre.map Node.name,
        alookup (aset st.tags n.name (toString (cb n))) w = grp g cb w := by
      intro w hw
      rw [alookup_aset]
      rw [if_neg (fun hwe : w = n.name => hnn (hwe ▸ hw))]
      exact htags_eq w hw
    have huse : alookup (aset st.tags n.name (toString (cb n))) n.name =
        some (toString (cb n)) := by
      rw [alookup_aset, if_pos rfl]
    -- step 4: the reference-recording fold
    have hchar3 : PartsChar _ (fun γ => KeyP cb pre γ ∨ γ = toString (cb n))
        (fun γ w => MemP cb pre γ w ∨ (γ = toString (cb n) ∧ w = n.name))
        (OutD g cb pre n ([] ++ nodeRefs n)) (InD g cb pre n ([] ++ nodeRefs n))
        (DeptD g cb pre n ([] ++ nodeRefs n)) (DepoD g cb pre n ([] ++ nodeRefs n)) :=
      record_fold_char g cb pre n _ hbridge huse (nodeRefs n) [] _ hrefs
        (hchar2.congr (fun γ => Iff.rfl) (fun γ w => Iff.rfl)
          (fun γ v => by unfold OutD; simp)
          (fun γ v => by unfold InD; simp)
          (fun γ q => by unfold DeptD; simp)
          (fun γ q => by unfold DepoD; simp))
    refine ⟨?_, ?_, ?_⟩
    · refine hchar3.congr
        (fun γ => (keyP_snoc_elig cb pre n hE γ).symm)
        (fun γ w => (memP_snoc_elig cb pre n hE γ w).symm)
        (fun γ v => by rw [crossOut_snoc_elig g cb pre n hE γ v]; simp)
        (fun γ v => by rw [crossIn_snoc_elig g cb pre n hE γ v]; simp)
        (fun γ q => by rw [deptP_snoc_elig g cb pre n hE γ q]; simp)
        (fun γ q => by rw [depoP_snoc_elig g cb pre n hE γ q]; simp)
    · intro v hv
      rw [List.map_append, List.mem_append] at hv
      rcases hv with hv | hv
      · exact hbridge v hv
      · simp only [List.map_cons, List.map_nil, List.mem_singleton] at hv
        subst hv
        rw [huse, grp_of_mem cb hwf hn, if_neg he]
    · intro v hv
      rw [List.map_append, List.mem_append] at hv
      push_neg at hv
      obtain ⟨hv1, hv2⟩ := hv
      simp only [List.map_cons, List.map_nil, List.mem_singleton] at hv2
      rw [alookup_aset, if_neg hv2]
      exact htags_none v hv1

/-- The whole node loop establishes the invariant for the full node
list. -/
theorem discover_loop_inv (g : Graph) (cb : Node → Int) (hwf : WF g) :
    ∀ (rest pre : List Node) (st : DiscSt),
      g.nodes = pre ++ rest → WFnodes (pre.map Node.name) rest →
      WFnodes [] pre → DInv g cb pre st →
      DInv g cb (pre ++ rest) (rest.foldl (discStep cb) st) := by
  intro rest
  induction rest with
  | nil => intro pre st hsplit _ _ hinv; simpa using hinv
  | cons n rest' ih =>
    intro pre st hsplit hwfrest hwfpre hinv
    obtain ⟨h1, h2, h3, h4⟩ := hwfrest
    have hsub : ∀ x ∈ pre, x ∈ g.nodes := by
      intro x hx; rw [hsplit]; simp [hx]
    have hn : n ∈ g.nodes := by rw [hsplit]; simp
    have hstep := discStep_inv g cb pre n st hwf hsub hn hwfpre h1 h2 hinv
    have hsplit' : g.nodes = (pre ++ [n]) ++ rest' := by
      rw [hsplit]; simp
    have hwfpre' : WFnodes [] (pre ++ [n]) :=
      (wfnodes_append_inv (pre ++ [n]) rest' []
        (by rw [← hsplit']; exact hwf.1)).1
    have hwfrest' : WFnodes ((pre ++ [n]).map Node.name) rest' := by
      simpa [List.append_assoc] using h4
    have := ih (pre ++ [n]) (discStep cb st n) hsplit' hwfrest' hwfpre' hstep
    simpa [List.append_assoc] using this

/-- The result-expression pass only adds producing partitions' outputs. -/
theorem result_fold_char (g : Graph) (cb : Node → Int)
    (tagsF : List (String × String))
    (hbridge : ∀ v, alookup tagsF v = grp g cb v)
    {K : String → Prop} {M I D E : String → String → Prop} :
    ∀ (todo done : List String) (ps : PartMap),
      PartsChar ps K M
        (fun γ v => CrossOut g cb g.nodes γ v ∨ (grp g cb v = some γ ∧ v ∈ done))
        I D E →
      PartsChar (todo.foldl (fun acc d => recordCrossPartitionUse tagsF acc d none) ps)
        K M
        (fun γ v => CrossOut g cb g.nodes γ v ∨ (grp g cb v = some γ ∧ v ∈ done ++ todo))
        I D E := by
  intro todo
  induction todo with
  | nil => intro done ps h; simpa using h
  | cons v todo' ih =>
    intro done ps h
    have step : PartsChar (recordCrossPartitionUse tagsF ps v none) K M
        (fun γ w => CrossOut g cb g.nodes γ w ∨
          (grp g cb w = some γ ∧ w ∈ done ++ [v])) I D E := by
      cases hg : grp g cb v with
      | none =>
        have heq : recordCrossPartitionUse tagsF ps v none = ps :=
          recordCross_eq_of_eq tagsF ps v none (by simp [Option.bind, hbridge v, hg])
        rw [heq]
        refine h.congr (fun γ => Iff.rfl) (fun γ w => Iff.rfl) ?_
          (fun γ w => Iff.rfl) (fun γ q => Iff.rfl) (fun γ q => Iff.rfl)
        intro γ w
        refine or_congr Iff.rfl ?_
        constructor
        · rintro ⟨h1, h2⟩
          exact ⟨h1, by simp [h2]⟩
        · rintro ⟨h1, h2⟩
          rw [List.mem_append, List.mem_singleton] at h2
          rcases h2 with h2 | rfl
          · exact ⟨h1, h2⟩
          · rw [hg] at h1; cases h1
      | some δ =>
        refine (record_char_result h tagsF v δ (by rw [hbridge v, hg])).congr
          (fun γ => Iff.rfl) (fun γ w => Iff.rfl) ?_
          (fun γ w => Iff.rfl) (fun γ q => Iff.rfl) (fun γ q => Iff.rfl)
        intro γ w
        constructor
        · rintro ((ho | ⟨h1, h2⟩) | ⟨rfl, rfl⟩)
          · exact Or.inl ho
          · exact Or.inr ⟨h1, by simp [h2]⟩
          · exact Or.inr ⟨hg, by simp⟩
        · rintro (ho | ⟨h1, h2⟩)
          · exact Or.inl (Or.inl ho)
          · rw [List.mem_append, List.mem_singleton] at h2
            rcases h2 with h2 | rfl
            · exact Or.inl (Or.inr ⟨h1, h2⟩)
            · rw [hg] at h1
              exact Or.inr ⟨(Option.some_inj.mp h1).symm, rfl⟩
    have := ih (done ++ [v]) (recordCrossPartitionUse tagsF ps v none) step
    simpa [List.append_assoc] using this

/-- A value name is in a partition's outputs after the whole of discovery
iff it is produced in that partition and consumed from outside it, or
produced in that partition and feeding the result expression. -/
def OutFin (g : Graph) (cb : Node → Int) (γ v : String) : Prop :=
  CrossOut g cb g.nodes γ v ∨ (grp g cb v = some γ ∧ v ∈ resultRefs g.result)

/-- The base invariant before any node is processed. -/
theorem dInv_start (g : Graph) (cb : Node → Int) :
    DInv g cb [] ⟨[], [], []⟩ := by
  refine ⟨⟨?_, ?_, ?_, ?_, ?_, ?_, ?_, ?_, ?_, ?_, ?_, ?_⟩, ?_, ?_⟩
  · simp
  · intro γ
    simp only [List.map_nil, List.not_mem_nil, false_iff]
    rintro ⟨m, hm, _⟩
    cases hm
  all_goals first
    | (intro γ P hP; cases hP)
    | (intro v hv; cases hv)
    | (intro v _; rfl)

/-- The tag state after discovery is exactly the final group map. -/
theorem discover_tags (g : Graph) (cb : Node → Int) (hwf : WF g) :
    ∀ v, alookup (discover g cb []).tags v = grp g cb v := by
  have h0 := discover_loop_inv g cb hwf g.nodes [] ⟨[], [], []⟩ (by simp)
    (by simpa using hwf.1) trivial (dInv_start g cb)
  simp only [List.nil_append] at h0
  obtain ⟨_, htags_eq, htags_none⟩ := h0
  intro v
  show alookup (g.nodes.foldl (discStep cb) ⟨[], [], []⟩).tags v = grp g cb v
  by_cases hv : v ∈ g.nodes.map Node.name
  · exact htags_eq v hv
  · rw [htags_none v hv, grp_eq_none_of_not_mem cb hv]

/-- The full characterization of the partition map produced by
Dependency Discovery on a freshly traced graph. -/
theorem discover_char (g : Graph) (cb : Node → Int) (hwf : WF g) :
    PartsChar (discover g cb []).partitions (KeyP cb g.nodes) (MemP cb g.nodes)
      (OutFin g cb) (CrossIn g cb g.nodes) (DeptP g cb g.nodes) (DepoP g cb g.nodes) := by
  have h0 := discover_loop_inv g cb hwf g.nodes [] ⟨[], [], []⟩ (by simp)
    (by simpa using hwf.1) trivial (dInv_start g cb)
  simp only [List.nil_append] at h0
  obtain ⟨hchar, _, _⟩ := h0
  have hbridge := discover_tags g cb hwf
  have hstart : PartsChar (g.nodes.foldl (discStep cb) ⟨[], [], []⟩).partitions
      (KeyP cb g.nodes) (MemP cb g.nodes)
      (fun γ v => CrossOut g cb g.nodes γ v ∨ (grp g cb v = some γ ∧ v ∈ ([] : List String)))
      (CrossIn g cb g.nodes) (DeptP g cb g.nodes) (DepoP g cb g.nodes) :=
    hchar.congr (fun γ => Iff.rfl) (fun γ w => Iff.rfl)
      (fun γ v => by simp) (fun γ v => Iff.rfl) (fun γ q => Iff.rfl) (fun γ q => Iff.rfl)
  have hres := result_fold_char g cb _ (fun v => hbridge v)
    (resultRefs g.result) [] _ hstart
  exact hres.congr (fun γ => Iff.rfl) (fun γ w => Iff.rfl)
    (fun γ v => by unfold OutFin; simp) (fun γ v => Iff.rfl)
    (fun γ q => Iff.rfl) (fun γ q => Iff.rfl)

/-- The group a node itself is assigned: its stringified callback value
for eligible nodes, none for placeholders and attribute references. -/
def nodeGrp (cb : Node → Int) (u : Node) : Option String :=
  if Eligible u then some (toString (cb u)) else none

theorem wfnodes_inelig_no_refs :
    ∀ (l : List Node) (seen : List String), WFnodes seen l →
      ∀ u ∈ l, (u.op = Op.placeholder ∨ u.op = Op.get_attr) → nodeRefs u = [] := by
  intro l
  induction l with
  | nil => intro seen _ u hu; cases hu
  | cons n rest ih =>
    intro seen h u hu he
    obtain ⟨_, _, h3, h4⟩ := h
    rw [List.mem_cons] at hu
    rcases hu with rfl | hu
    · exact h3 he
    · exact ih (seen ++ [n.name]) h4 u hu he

theorem grp_eq_some_iff_nodeGrp {g : Graph} (cb : Node → Int) (hwf : WF g)
    (v γ : String) :
    grp g cb v = some γ ↔ ∃ d ∈ g.nodes, d.name = v ∧ nodeGrp cb d = some γ := by
  rw [grp_eq_some_iff cb hwf v γ]
  constructor
  · rintro ⟨m, hm, hname, he, hc⟩
    exact ⟨m, hm, hname, by simp [nodeGrp, he, hc]⟩
  · rintro ⟨m, hm, hname, hg⟩
    unfold nodeGrp at hg
    by_cases he : Eligible m
    · rw [if_pos he] at hg
      exact ⟨m, hm, hname, he, Option.some_inj.mp hg⟩
    · rw [if_neg he] at hg; cases hg

/-- Membership in the (totalized) member list of a partition is exactly
the member predicate. -/
theorem partGet_members (g : Graph) (cb : Node → Int) (hwf : WF g) (γ w : String) :
    w ∈ (partGet (discover g cb []).partitions γ).node_names ↔
      MemP cb g.nodes γ w := by
  have hchar := discover_char g cb hwf
  unfold partGet
  cases hc : alookup (discover g cb []).partitions γ with
  | none =>
    simp only [Option.getD, emptyPartition, List.not_mem_nil, false_iff]
    intro hM
    have := (hchar.key_iff γ).mpr (memP_keyP cb g.nodes hM)
    rw [← alookup_isSome_iff_mem, hc] at this
    cases this
  | some P =>
    simp only [Option.getD]
    exact hchar.mem_iff γ P hc w

/-- Membership in the (totalized) outputs of a partition is exactly the
final outputs predicate. -/
theorem partGet_outputs (g : Graph) (cb : Node → Int) (hwf : WF g) (γ v : String) :
    v ∈ (partGet (discover g cb []).partitions γ).outputs ↔ OutFin g cb γ v := by
  have hchar := discover_char g cb hwf
  unfold partGet
  cases hc : alookup (discover g cb []).partitions γ with
  | none =>
    simp only [Option.getD, emptyPartition, List.not_mem_nil, false_iff]
    intro hO
    have hK : KeyP cb g.nodes γ := by
      rcases hO with hO | ⟨hg, _⟩
      · exact crossOut_keyP cb hwf (fun x hx => hx) hwf.1 hO
      · obtain ⟨m, hm, _, he, hc'⟩ := (grp_eq_some_iff cb hwf v γ).mp hg
        exact ⟨m, hm, he, hc'⟩
    have := (hchar.key_iff γ).mpr hK
    rw [← alookup_isSome_iff_mem, hc] at this
    cases this
  | some P =>
    simp only [Option.getD]
    exact hchar.out_iff γ P hc v

/-- Likewise for inputs. -/
theorem partGet_inputs (g : Graph) (cb : Node → Int) (hwf : WF g) (γ v : String) :
    v ∈ (partGet (discover g cb []).partitions γ).inputs ↔ CrossIn g cb g.nodes γ v := by
  have hchar := discover_char g cb hwf
  unfold partGet
  cases hc : alookup (discover g cb []).partitions γ with
  | none =>
    simp only [Option.getD, emptyPartition, List.not_mem_nil, false_iff]
    intro hI
    have := (hchar.key_iff γ).mpr (crossIn_keyP g cb g.nodes hI)
    rw [← alookup_isSome_iff_mem, hc] at this
    cases this
  | some P =>
    simp only [Option.getD]
    exact hchar.in_iff γ P hc v

/-! ## Concrete example inputs -/

/-- Helper constructors for concrete graphs. -/
def phNode (name : String) : Node :=
  { name := name, op := Op.placeholder, target := name, args := [], kwargs := [] }

def fnNode (name : String) (target : String) (args : List Arg) : Node :=
  { name := name, op := Op.call_function, target := target, args := args, kwargs := [] }

def modNode (name : String) (target : String) (args : List Arg) : Node :=
  { name := name, op := Op.call_module, target := target, args := args, kwargs := [] }

def attrNode (name : String) (target : String) : Node :=
  { name := name, op := Op.get_attr, target := target, args := [], kwargs := [] }

/-- Example: x is an input; a = f(x) goes to group 0; b = h(x) goes to
group 1; only b feeds the result, so group 0 has no outputs. -/
def exG : Graph :=
  { nodes := [phNode "x", fnNode "a" "f" [.ref "x"], fnNode "b" "h" [.ref "x"]],
    result := some (.ref "b") }

def exCb (n : Node) : Int := if n.name = "a" then 0 else 1

def exRoot : Obj := .attrs []

/-! ## Claims C3 and C4 -/

/-- C3: after Dependency Discovery, for every value name v and every
partition P (named γ), v is in P's outputs iff v is produced by a member
of P and either some consumer of v lies outside P (in another partition
or in no partition) or v feeds the graph's final result expression. -/
theorem C3_output_membership (g : Graph) (cb : Node → Int) (hwf : WF g) (γ v : String) :
    v ∈ (partGet (discover g cb []).partitions γ).outputs ↔
      ((∃ d ∈ g.nodes, d.name = v ∧ nodeGrp cb d = some γ) ∧
       ((∃ u ∈ g.nodes, v ∈ nodeRefs u ∧ nodeGrp cb u ≠ some γ) ∨
        v ∈ resultRefs g.result)) := by
  rw [partGet_outputs g cb hwf γ v]
  unfold OutFin CrossOut
  constructor
  · rintro (⟨hg, u, hu, hue, hvr, hne⟩ | ⟨hg, hres⟩)
    · refine ⟨(grp_eq_some_iff_nodeGrp cb hwf v γ).mp hg, Or.inl ⟨u, hu, hvr, ?_⟩⟩
      intro hug
      rw [nodeGrp, if_pos hue] at hug
      exact hne (Option.some_inj.mp hug)
    · exact ⟨(grp_eq_some_iff_nodeGrp cb hwf v γ).mp hg, Or.inr hres⟩
  · rintro ⟨hprod, hcons | hres⟩
    · obtain ⟨u, hu, hvr, hug⟩ := hcons
      have hue : Eligible u := by
        intro hops
        have := wfnodes_inelig_no_refs g.nodes [] hwf.1 u hu hops
        rw [this] at hvr
        cases hvr
      have hne : toString (cb u) ≠ γ := by
        intro hcc
        exact hug (by rw [nodeGrp, if_pos hue, hcc])
      exact Or.inl ⟨(grp_eq_some_iff_nodeGrp cb hwf v γ).mpr hprod, u, hu, hue, hvr, hne⟩
    · exact Or.inr ⟨(grp_eq_some_iff_nodeGrp cb hwf v γ).mpr hprod, hres⟩

theorem C3_output_membership_witness :
    WF exG ∧
      (("b" ∈ (partGet (discover exG exCb []).partitions "1").outputs) ↔
        ((∃ d ∈ exG.nodes, d.name = "b" ∧ nodeGrp exCb d = some "1") ∧
         ((∃ u ∈ exG.nodes, "b" ∈ nodeRefs u ∧ nodeGrp exCb u ≠ some "1") ∨
          "b" ∈ resultRefs exG.result))) :=
  ⟨by decide, C3_output_membership exG exCb (by decide) "1" "b"⟩

/-- C4: after Dependency Discovery, every node that is neither an
input-placeholder nor an attribute-reference appears in the member list
of exactly one partition, and placeholder / attribute-reference nodes
appear in no partition's member list. -/
theorem C4_partition_exhaustive (g : Graph) (cb : Node → Int) (hwf : WF g) :
    ∀ n ∈ g.nodes,
      (Eligible n →
        ∃! γ, n.name ∈ (partGet (discover g cb []).partitions γ).node_names) ∧
      (¬Eligible n →
        ∀ γ, n.name ∉ (partGet (discover g cb []).partitions γ).node_names) := by
  intro n hn
  have hmem : ∀ γ, n.name ∈ (partGet (discover g cb []).partitions γ).node_names ↔
      (Eligible n ∧ γ = toString (cb n)) := by
    intro γ
    rw [partGet_members g cb hwf γ n.name]
    constructor
    · rintro ⟨m, hm, he, hc, hname⟩
      have : m = n := name_inj hwf hm hn hname
      subst this
      exact ⟨he, hc.symm⟩
    · rintro ⟨he, rfl⟩
      exact ⟨n, hn, he, rfl, rfl⟩
  constructor
  · intro hE
    refine ⟨toString (cb n), (hmem _).mpr ⟨hE, rfl⟩, ?_⟩
    intro γ hγ
    exact ((hmem γ).mp hγ).2
  · intro hni γ hγ
    exact hni ((hmem γ).mp hγ).1

theorem C4_partition_exhaustive_witness :
    WF exG ∧ (phNode "x") ∈ exG.nodes ∧
      (∃! γ, "a" ∈ (partGet (discover exG exCb []).partitions γ).node_names) ∧
      (∀ γ, "x" ∉ (partGet (discover exG exCb []).partitions γ).node_names) := by
  refine ⟨by decide, by decide, ?_, ?_⟩
  · exact (C4_partition_exhaustive exG exCb (by decide)
      (fnNode "a" "f" [.ref "x"]) (by decide)).1 (by decide)
  · exact (C4_partition_exhaustive exG exCb (by decide)
      (phNode "x") (by decide)).2 (by decide)

/-! ## Topological Ordering & Cycle Check: correctness of the
elimination loop -/

theorem partGet_dept (g : Graph) (cb : Node → Int) (hwf : WF g) (γ q : String) :
    q ∈ (partGet (discover g cb []).partitions γ).partition_dependents ↔
      DeptP g cb g.nodes γ q := by
  have hchar := discover_char g cb hwf
  unfold partGet
  cases hc : alookup (discover g cb []).partitions γ with
  | none =>
    simp only [Option.getD, emptyPartition, List.not_mem_nil, false_iff]
    intro hD
    have := (hchar.key_iff γ).mpr (deptP_keyP cb hwf (fun x hx => hx) hwf.1 hD)
    rw [← alookup_isSome_iff_mem, hc] at this
    cases this
  | some P =>
    simp only [Option.getD]
    exact hchar.dept_iff γ P hc q

theorem partGet_depo (g : Graph) (cb : Node → Int) (hwf : WF g) (γ q : String) :
    q ∈ (partGet (discover g cb []).partitions γ).partitions_dependent_on ↔
      DepoP g cb g.nodes γ q := by
  have hchar := discover_char g cb hwf
  unfold partGet
  cases hc : alookup (discover g cb []).partitions γ with
  | none =>
    simp only [Option.getD, emptyPartition, List.not_mem_nil, false_iff]
    intro hD
    have := (hchar.key_iff γ).mpr (depoP_keyP g cb g.nodes hD)
    rw [← alookup_isSome_iff_mem, hc] at this
    cases this
  | some P =>
    simp only [Option.getD]
    exact hchar.depo_iff γ P hc q

/-- The preconditions the elimination loop needs of its input partition
map; all hold of discovery output. -/
structure KahnPre (ps0 : PartMap) : Prop where
  keys_nd : (ps0.map Prod.fst).Nodup
  trans : ∀ γ q, q ∈ (partGet ps0 γ).partitions_dependent_on ↔
    γ ∈ (partGet ps0 q).partition_dependents
  dep_nd : ∀ γ, (partGet ps0 γ).partitions_dependent_on.Nodup
  dept_nd : ∀ γ, (partGet ps0 γ).partition_dependents.Nodup
  no_self : ∀ γ, γ ∉ (partGet ps0 γ).partitions_dependent_on

/-- Discovery output satisfies the elimination loop's preconditions. -/
theorem discover_kahnPre (g : Graph) (cb : Node → Int) (hwf : WF g) :
    KahnPre (discover g cb []).partitions := by
  have hchar := discover_char g cb hwf
  constructor
  · exact hchar.keys_nd
  · intro γ q
    rw [partGet_depo g cb hwf γ q, partGet_dept g cb hwf q γ, deptP_iff_depoP]
  · intro γ
    unfold partGet
    cases hc : alookup (discover g cb []).partitions γ with
    | none => exact List.nodup_nil
    | some P => exact hchar.depo_nd γ P hc
  · intro γ
    unfold partGet
    cases hc : alookup (discover g cb []).partitions γ with
    | none => exact List.nodup_nil
    | some P => exact hchar.dept_nd γ P hc
  · intro γ hmem
    have := (partGet_depo g cb hwf γ γ).mp hmem
    exact this.1 rfl

/-- Remaining dependencies of a partition once the sorted ones are
eliminated. -/
def remDep (dep : List String) (sorted : List String) : List String :=
  dep.filter (fun x => decide (x ∉ sorted))

theorem mem_remDep (dep sorted : List String) (x : String) :
    x ∈ remDep dep sorted ↔ x ∈ dep ∧ x ∉ sorted := by
  simp [remDep]

theorem remDep_nil (dep : List String) : remDep dep [] = dep := by
  simp [remDep]

theorem remDep_snoc_of_not_mem (dep sorted : List String) (r : String)
    (h : r ∉ dep) : remDep dep (sorted ++ [r]) = remDep dep sorted := by
  unfold remDep
  apply List.filter_congr
  intro x hx
  have hxr : x ≠ r := fun he => h (he ▸ hx)
  simp [hxr]

theorem erase_filter_nodup (l : List String) (hnd : l.Nodup) (p : String → Bool)
    (r : String) :
    (l.filter p).erase r = l.filter (fun x => p x && decide (x ≠ r)) := by
  induction l with
  | nil => rfl
  | cons a rest ih =>
    rw [List.nodup_cons] at hnd
    have ih' := ih hnd.2
    by_cases hpa : p a = true
    · by_cases har : a = r
      · subst har
        rw [List.filter_cons_of_pos hpa, List.erase_cons_head,
          List.filter_cons_of_neg (by simp)]
        apply List.filter_congr
        intro x hx
        have hxa : x ≠ a := fun he => hnd.1 (he ▸ hx)
        simp [hxa]
      · rw [List.filter_cons_of_pos hpa,
          List.erase_cons_tail (by simpa using har),
          List.filter_cons_of_pos (by simp [hpa, har]), ih']
    · rw [List.filter_cons_of_neg (by simpa using hpa),
        List.filter_cons_of_neg (by simp [hpa]), ih']

/-- Erasing a newly sorted partition from a remaining-dependency list. -/
theorem remDep_erase (dep sorted : List String) (r : String) (hnd : dep.Nodup)
    (hr : r ∉ sorted) :
    (remDep dep sorted).erase r = remDep dep (sorted ++ [r]) := by
  unfold remDep
  rw [erase_filter_nodup dep hnd _ r]
  apply List.filter_congr
  intro x hx
  by_cases hxr : x = r
  · subst hxr
    simp
  · simp [hxr]

/-- Membership in the worklist seed. -/
theorem mem_rootParts (ps0 : PartMap) (hnd : (ps0.map Prod.fst).Nodup) (γ : String) :
    γ ∈ rootParts ps0 ↔
      ∃ P, alookup ps0 γ = some P ∧ P.partitions_dependent_on = [] := by
  unfold rootParts
  induction ps0 with
  | nil => simp [alookup]
  | cons e rest ih =>
    obtain ⟨a, b⟩ := e
    simp only [List.map_cons, List.nodup_cons] at hnd
    have ih' := ih hnd.2
    by_cases ha : a = γ
    · subst ha
      have hrest : a ∉ (rootParts rest) := by
        intro hmem
        unfold rootParts at hmem
        rw [List.mem_map] at hmem
        obtain ⟨e', he', hfst⟩ := hmem
        rw [List.mem_filter] at he'
        exact hnd.1 (hfst ▸ List.mem_map_of_mem Prod.fst he'.1)
      by_cases hd : b.partitions_dependent_on = []
      · rw [List.filter_cons_of_pos (by simpa using hd)]
        simp [alookup, hd]
      · rw [List.filter_cons_of_neg (by simpa using hd)]
        unfold rootParts at hrest
        constructor
        · intro hmem
          exact absurd hmem hrest
        · rintro ⟨P, hP, hPd⟩
          rw [alookup, if_pos rfl] at hP
          rw [← Option.some_inj.mp hP] at hPd
          exact absurd hPd hd
    · have halook : alookup ((a, b) :: rest) γ = alookup rest γ := by
        rw [alookup, if_neg ha]
      by_cases hd : b.partitions_dependent_on = []
      · rw [List.filter_cons_of_pos (by simpa using hd)]
        simp only [List.map_cons, List.mem_cons]
        rw [ih', halook]
        simp [Ne.symm ha]
      · rw [List.filter_cons_of_neg (by simpa using hd)]
        rw [ih', halook]

theorem rootParts_nodup (ps0 : PartMap) (hnd : (ps0.map Prod.fst).Nodup) :
    (rootParts ps0).Nodup := by
  unfold rootParts
  exact List.Nodup.sublist (List.Sublist.map Prod.fst (List.filter_sublist ps0)) hnd

/-- Dependency entries always name existing partitions (via the
transpose property: a dangling entry would have to appear in the empty
partition's dependents). -/
theorem dep_mem_keys (ps0 : PartMap) (hpre : KahnPre ps0) (γ q : String)
    (h : q ∈ (partGet ps0 γ).partitions_dependent_on) : q ∈ ps0.map Prod.fst := by
  by_contra hq
  have hget : alookup ps0 q = none := (alookup_eq_none_iff_not_mem ps0 q).mpr hq
  have : γ ∈ (partGet ps0 q).partition_dependents := (hpre.trans γ q).mp h
  unfold partGet at this
  rw [hget] at this
  simp only [Option.getD, emptyPartition] at this
  cases this

theorem dept_mem_keys (ps0 : PartMap) (hpre : KahnPre ps0) (γ d : String)
    (h : d ∈ (partGet ps0 γ).partition_dependents) : d ∈ ps0.map Prod.fst := by
  by_contra hd
  have hget : alookup ps0 d = none := (alookup_eq_none_iff_not_mem ps0 d).mpr hd
  have : γ ∈ (partGet ps0 d).partitions_dependent_on := (hpre.trans d γ).mpr h
  unfold partGet at this
  rw [hget] at this
  simp only [Option.getD, emptyPartition] at this
  cases this

/-- One partition with its remaining (not yet eliminated)
dependencies. -/
def depFilt (s : List String) (p : Partition) : Partition :=
  { p with partitions_dependent_on := remDep p.partitions_dependent_on s }

/-- Specification of the inner loop over a popped partition's
dependents. -/
theorem processDeps_spec (ps0 : PartMap) (hpre : KahnPre ps0)
    (sorted roots0 : List String) (r : String) (hrs : r ∉ sorted) :
    ∀ (todo done : List String) (ps : PartMap),
      (partGet ps0 r).partition_dependents = done ++ todo →
      (∀ γ, alookup ps γ = (alookup ps0 γ).map
        (depFilt (if γ ∈ done then sorted ++ [r] else sorted))) →
      (∀ γ, alookup (processDeps r
          (ps, roots0 ++ done.filter (fun d =>
            decide (remDep (partGet ps0 d).partitions_dependent_on (sorted ++ [r]) = [])))
          todo).1 γ =
        (alookup ps0 γ).map
          (depFilt (if γ ∈ done ++ todo then sorted ++ [r] else sorted))) ∧
      (processDeps r
          (ps, roots0 ++ done.filter (fun d =>
            decide (remDep (partGet ps0 d).partitions_dependent_on (sorted ++ [r]) = [])))
          todo).2 =
        roots0 ++ (done ++ todo).filter (fun d =>
          decide (remDep (partGet ps0 d).partitions_dependent_on (sorted ++ [r]) = [])) := by
  intro todo
  induction todo with
  | nil =>
    intro done ps hsplit hps
    constructor
    · intro γ
      simpa [processDeps] using hps γ
    · simp [processDeps]
  | cons d todo' ih =>
    intro done ps hsplit hps
    have hdept_nd : ((partGet ps0 r).partition_dependents).Nodup := hpre.dept_nd r
    have hd_dept : d ∈ (partGet ps0 r).partition_dependents := by
      rw [hsplit]; simp
    have hrd : r ∈ (partGet ps0 d).partitions_dependent_on :=
      (hpre.trans d r).mpr hd_dept
    have hd_keys : d ∈ ps0.map Prod.fst := dept_mem_keys ps0 hpre r d hd_dept
    have hd_not_done : d ∉ done := by
      rw [hsplit] at hdept_nd
      rw [List.nodup_append] at hdept_nd
      intro hmem
      exact hdept_nd.2.2 hmem (List.mem_cons_self d todo')
    obtain ⟨Pd, hPd⟩ : ∃ Pd, alookup ps0 d = some Pd := by
      have := (alookup_isSome_iff_mem ps0 d).mpr hd_keys
      cases hc : alookup ps0 d with
      | none => rw [hc] at this; cases this
      | some Pd => exact ⟨Pd, rfl⟩
    have hPd_dep : Pd.partitions_dependent_on = (partGet ps0 d).partitions_dependent_on := by
      unfold partGet
      rw [hPd]
      rfl
    have hps' : ∀ γ, alookup (removeDepFrom ps d r) γ =
        (alookup ps0 γ).map
          (depFilt (if γ ∈ done ++ [d] then sorted ++ [r] else sorted)) := by
      intro γ
      unfold removeDepFrom
      rw [alookup_updateP, hps γ]
      by_cases hγd : γ = d
      · subst hγd
        rw [if_pos rfl, hps γ, hPd]
        simp only [Option.map_some']
        rw [if_neg hd_not_done, if_pos (by simp : γ ∈ done ++ [γ])]
        have herase : (remDep Pd.partitions_dependent_on sorted).erase r =
            remDep Pd.partitions_dependent_on (sorted ++ [r]) := by
          apply remDep_erase
          · rw [hPd_dep]; exact hpre.dep_nd γ
          · exact hrs
        unfold depFilt
        simp only [herase]
      · rw [if_neg hγd]
        have hcond : (γ ∈ done ++ [d]) ↔ (γ ∈ done) := by
          simp [hγd]
        rw [if_congr hcond rfl rfl]
    have hcheck : (match alookup (removeDepFrom ps d r) d with
        | some p => if p.partitions_dependent_on = [] then
            (roots0 ++ done.filter (fun d =>
              decide (remDep (partGet ps0 d).partitions_dependent_on (sorted ++ [r]) = []))) ++ [d]
          else (roots0 ++ done.filter (fun d =>
              decide (remDep (partGet ps0 d).partitions_dependent_on (sorted ++ [r]) = [])))
        | none => (roots0 ++ done.filter (fun d =>
            decide (remDep (partGet ps0 d).partitions_dependent_on (sorted ++ [r]) = [])))) =
        roots0 ++ (done ++ [d]).filter (fun d =>
          decide (remDep (partGet ps0 d).partitions_dependent_on (sorted ++ [r]) = [])) := by
      rw [hps' d, hPd]
      simp only [Option.map_some']
      rw [if_pos (by simp : d ∈ done ++ [d])]
      rw [List.filter_append]
      by_cases hcond : remDep (partGet ps0 d).partitions_dependent_on (sorted ++ [r]) = []
      · rw [if_pos (by unfold depFilt; rw [hPd_dep]; exact hcond)]
        simp [hcond, List.append_assoc]
      · rw [if_neg (by unfold depFilt; rw [hPd_dep]; exact hcond)]
        simp [hcond]
    have hstep : processDeps r
        (ps, roots0 ++ done.filter (fun d =>
          decide (remDep (partGet ps0 d).partitions_dependent_on (sorted ++ [r]) = [])))
        (d :: todo') =
        processDeps r
          (removeDepFrom ps d r,
            roots0 ++ (done ++ [d]).filter (fun d =>
              decide (remDep (partGet ps0 d).partitions_dependent_on (sorted ++ [r]) = [])))
          todo' := by
      show (d :: todo').foldl _ _ = _
      rw [List.foldl_cons]
      congr 1
      rw [← hcheck]
    rw [hstep]
    have := ih (done ++ [d]) (removeDepFrom ps d r)
      (by rw [hsplit]; simp) hps'
    simpa [List.append_assoc] using this

/-- The invariant of the outer elimination loop. -/
structure KInv (ps0 ps : PartMap) (roots sorted : List String) : Prop where
  look : ∀ γ, alookup ps γ = (alookup ps0 γ).map (depFilt sorted)
  sorted_nd : sorted.Nodup
  sorted_sub : ∀ γ ∈ sorted, γ ∈ ps0.map Prod.fst
  roots_nd : roots.Nodup
  roots_sub : ∀ γ ∈ roots, γ ∈ ps0.map Prod.fst
  roots_disj : ∀ γ ∈ roots, γ ∉ sorted
  ready : ∀ γ ∈ ps0.map Prod.fst,
    remDep (partGet ps0 γ).partitions_dependent_on sorted = [] → γ ∈ roots ∨ γ ∈ sorted
  roots_empty : ∀ γ ∈ roots, remDep (partGet ps0 γ).partitions_dependent_on sorted = []
  sorted_empty : ∀ γ ∈ sorted, remDep (partGet ps0 γ).partitions_dependent_on sorted = []
  order : ∀ k (hk : k < sorted.length),
    ∀ q ∈ (partGet ps0 (sorted.get ⟨k, hk⟩)).partitions_dependent_on, q ∈ sorted.take k

theorem kInv_init (ps0 : PartMap) (hpre : KahnPre ps0) :
    KInv ps0 ps0 (rootParts ps0) [] := by
  constructor
  · intro γ
    cases h : alookup ps0 γ with
    | none => rfl
    | some p =>
      unfold depFilt
      rw [Option.map_some', remDep_nil]
  · exact List.nodup_nil
  · intro γ hγ; cases hγ
  · exact rootParts_nodup ps0 hpre.keys_nd
  · intro γ hγ
    obtain ⟨P, hP, _⟩ := (mem_rootParts ps0 hpre.keys_nd γ).mp hγ
    exact mem_keys_of_alookup hP
  · intro γ _ hγ; cases hγ
  · intro γ hγ hdep
    left
    rw [mem_rootParts ps0 hpre.keys_nd]
    have hsome := (alookup_isSome_iff_mem ps0 γ).mpr hγ
    cases hc : alookup ps0 γ with
    | none => rw [hc] at hsome; cases hsome
    | some P =>
      refine ⟨P, rfl, ?_⟩
      rw [remDep_nil] at hdep
      unfold partGet at hdep
      rw [hc] at hdep
      exact hdep
  · intro γ hγ
    obtain ⟨P, hP, hPd⟩ := (mem_rootParts ps0 hpre.keys_nd γ).mp hγ
    rw [remDep_nil]
    unfold partGet
    rw [hP]
    exact hPd
  · intro γ hγ; cases hγ
  · intro k hk; simp at hk

/-- One iteration of the elimination loop preserves the invariant. -/
theorem kInv_step (ps0 : PartMap) (hpre : KahnPre ps0) (ps : PartMap)
    (roots0 sorted : List String) (r : String)
    (hinv : KInv ps0 ps (roots0 ++ [r]) sorted) :
    let deps := match alookup ps r with
      | some p => p.partition_dependents
      | none => []
    KInv ps0 (processDeps r (ps, roots0) deps).1 (processDeps r (ps, roots0) deps).2
      (sorted ++ [r]) := by
  intro deps
  have hr_roots : r ∈ roots0 ++ [r] := by simp
  have hr_keys : r ∈ ps0.map Prod.fst := hinv.roots_sub r hr_roots
  have hr_sorted : r ∉ sorted := hinv.roots_disj r hr_roots
  have hr_empty : remDep (partGet ps0 r).partitions_dependent_on sorted = [] :=
    hinv.roots_empty r hr_roots
  obtain ⟨Pr, hPr⟩ : ∃ Pr, alookup ps0 r = some Pr := by
    have := (alookup_isSome_iff_mem ps0 r).mpr hr_keys
    cases hc : alookup ps0 r with
    | none => rw [hc] at this; cases this
    | some Pr => exact ⟨Pr, rfl⟩
  have hdeps : deps = (partGet ps0 r).partition_dependents := by
    show (match alookup ps r with
      | some p => p.partition_dependents
      | none => []) = _
    rw [hinv.look r, hPr, Option.map_some']
    unfold partGet depFilt
    rw [hPr]
    rfl
  have hspec := processDeps_spec ps0 hpre sorted roots0 r hr_sorted
    (partGet ps0 r).partition_dependents [] ps (by simp)
    (by intro γ
        have := hinv.look γ
        simpa using this)
  simp only [List.filter_nil, List.append_nil, List.nil_append] at hspec
  rw [← hdeps] at hspec
  obtain ⟨hlook', hroots'⟩ := hspec
  have hnewly_sub : ∀ d, d ∈ deps.filter (fun d =>
      decide (remDep (partGet ps0 d).partitions_dependent_on (sorted ++ [r]) = [])) →
      d ∈ deps := fun d hd => (List.mem_filter.mp hd).1
  have hdep_of_mem_deps : ∀ d ∈ deps, r ∈ (partGet ps0 d).partitions_dependent_on := by
    intro d hd
    rw [hdeps] at hd
    exact (hpre.trans d r).mpr hd
  have hnot_sorted_of_deps : ∀ d ∈ deps, d ∉ sorted := by
    intro d hd hds
    have h1 := hinv.sorted_empty d hds
    have h2 : r ∈ remDep (partGet ps0 d).partitions_dependent_on sorted :=
      (mem_remDep _ _ r).mpr ⟨hdep_of_mem_deps d hd, hr_sorted⟩
    rw [h1] at h2
    cases h2
  have hnot_roots_of_deps : ∀ d ∈ deps, d ∉ roots0 ++ [r] := by
    intro d hd hdr
    have h1 := hinv.roots_empty d hdr
    have h2 : r ∈ remDep (partGet ps0 d).partitions_dependent_on sorted :=
      (mem_remDep _ _ r).mpr ⟨hdep_of_mem_deps d hd, hr_sorted⟩
    rw [h1] at h2
    cases h2
  have hne_r_of_deps : ∀ d ∈ deps, d ≠ r := by
    intro d hd he
    subst he
    exact hpre.no_self d (hdep_of_mem_deps d hd)
  have hsub_filter : ∀ l (s : List String), remDep l s = [] → remDep l (s ++ [r]) = [] := by
    intro l s h
    rw [List.eq_nil_iff_forall_not_mem] at h ⊢
    intro x hx
    rw [mem_remDep] at hx
    exact h x ((mem_remDep l s x).mpr ⟨hx.1, fun hc => hx.2 (by simp [hc])⟩)
  constructor
  · -- look
    intro γ
    rw [hlook' γ]
    by_cases hγ : γ ∈ deps
    · rw [if_pos hγ]
    · rw [if_neg hγ]
      cases hc : alookup ps0 γ with
      | none => rfl
      | some P =>
        rw [Option.map_some', Option.map_some']
        unfold depFilt
        have hrP : r ∉ P.partitions_dependent_on := by
          intro hr
          apply hγ
          rw [hdeps]
          rw [← hpre.trans γ r]
          unfold partGet
          rw [hc]
          exact hr
        rw [remDep_snoc_of_not_mem _ _ _ hrP]
  · -- sorted nodup
    exact List.Nodup.append hinv.sorted_nd (List.nodup_singleton r)
      (fun a ha hb => by
        simp only [List.mem_singleton] at hb
        subst hb
        exact hr_sorted ha)
  · -- sorted sub
    intro γ hγ
    rw [List.mem_append, List.mem_singleton] at hγ
    rcases hγ with hγ | rfl
    · exact hinv.sorted_sub γ hγ
    · exact hr_keys
  · -- roots nodup
    rw [hroots']
    have hroots0_nd : roots0.Nodup := by
      have := hinv.roots_nd
      rw [List.nodup_append] at this
      exact this.1
    refine List.Nodup.append hroots0_nd ?_ ?_
    · exact List.Nodup.filter _ (by rw [hdeps]; exact hpre.dept_nd r)
    · intro a ha hb
      have hbd := hnewly_sub a hb
      exact hnot_roots_of_deps a hbd (by simp [ha])
  · -- roots sub
    rw [hroots']
    intro γ hγ
    rw [List.mem_append] at hγ
    rcases hγ with hγ | hγ
    · exact hinv.roots_sub γ (by simp [hγ])
    · have hγd := hnewly_sub γ hγ
      rw [hdeps] at hγd
      exact dept_mem_keys ps0 hpre r γ hγd
  · -- roots disj
    rw [hroots']
    intro γ hγ
    rw [List.mem_append] at hγ
    rw [List.mem_append, List.mem_singleton]
    push_neg
    rcases hγ with hγ | hγ
    · constructor
      · exact hinv.roots_disj γ (by simp [hγ])
      · intro he
        subst he
        have := hinv.roots_nd
        rw [List.nodup_append] at this
        exact this.2.2 hγ (by simp)
    · have hγd := hnewly_sub γ hγ
      exact ⟨hnot_sorted_of_deps γ hγd, hne_r_of_deps γ hγd⟩
  · -- ready
    intro γ hγk hdep
    by_cases hold : remDep (partGet ps0 γ).partitions_dependent_on sorted = []
    · rcases hinv.ready γ hγk hold with hro | hso
      · rw [List.mem_append, List.mem_singleton] at hro
        rcases hro with hro | rfl
        · left
          rw [hroots']
          simp [hro]
        · right; simp
      · right; simp [hso]
    · -- some dependency was removed by r just now
      have : ∃ q, q ∈ remDep (partGet ps0 γ).partitions_dependent_on sorted := by
        cases hq : remDep (partGet ps0 γ).partitions_dependent_on sorted with
        | nil => exact absurd hq hold
        | cons q rest => exact ⟨q, by simp⟩
      obtain ⟨q, hq⟩ := this
      rw [mem_remDep] at hq
      have hq_not : q ∉ remDep (partGet ps0 γ).partitions_dependent_on (sorted ++ [r]) := by
        rw [hdep]
        exact List.not_mem_nil q
      rw [mem_remDep] at hq_not
      push_neg at hq_not
      have hq_in : q ∈ sorted ++ [r] := hq_not hq.1
      rw [List.mem_append, List.mem_singleton] at hq_in
      rcases hq_in with hq_in | rfl
      · exact absurd hq_in hq.2
      · -- q = r, so γ is a dependent of r and was just enqueued
        left
        rw [hroots']
        rw [List.mem_append]
        right
        rw [List.mem_filter]
        constructor
        · rw [hdeps, ← hpre.trans γ q]
          exact hq.1
        · simpa using hdep
  · -- roots empty
    rw [hroots']
    intro γ hγ
    rw [List.mem_append] at hγ
    rcases hγ with hγ | hγ
    · exact hsub_filter _ _ (hinv.roots_empty γ (by simp [hγ]))
    · rw [List.mem_filter] at hγ
      simpa using hγ.2
  · -- sorted empty
    intro γ hγ
    rw [List.mem_append, List.mem_singleton] at hγ
    rcases hγ with hγ | rfl
    · exact hsub_filter _ _ (hinv.sorted_empty γ hγ)
    · exact hsub_filter _ _ hr_empty
  · -- order
    intro k hk q hq
    rw [List.length_append, List.length_singleton] at hk
    by_cases hksort : k < sorted.length
    · have hget : (sorted ++ [r]).get ⟨k, by simp; omega⟩ = sorted.get ⟨k, hksort⟩ :=
        List.get_append k hksort
      rw [List.take_append_of_le_length (by omega)]
      apply hinv.order k hksort
      rw [← hget]
      exact hq
    · have hkeq : k = sorted.length := by omega
      subst hkeq
      have hget : (sorted ++ [r]).get ⟨sorted.length, by simp⟩ = r := by
        have := List.getElem_concat_length sorted r sorted.length rfl
        simpa [List.get_eq_getElem] using this
      rw [hget] at hq
      rw [List.take_append_of_le_length (le_refl _), List.take_length]
      have := hr_empty
      rw [List.eq_nil_iff_forall_not_mem] at this
      by_contra hqs
      exact this q ((mem_remDep _ _ q).mpr ⟨hq, hqs⟩)

/-- The elimination loop, run with fuel equal to the number of
partitions, ends in an invariant state whose worklist is empty or whose
output is complete. -/
theorem kahnLoop_spec (ps0 : PartMap) (hpre : KahnPre ps0) :
    ∀ (fuel : Nat) (ps : PartMap) (roots sorted : List String),
      KInv ps0 ps roots sorted →
      fuel + sorted.length = ps0.length →
      ∃ roots',
        KInv ps0 (kahnLoop fuel ps roots sorted).1 roots'
          (kahnLoop fuel ps roots sorted).2 ∧
        (roots' = [] ∨ (kahnLoop fuel ps roots sorted).2.length = ps0.length) := by
  intro fuel
  induction fuel with
  | zero =>
    intro ps roots sorted hinv hfuel
    refine ⟨roots, hinv, Or.inr ?_⟩
    show sorted.length = ps0.length
    omega
  | succ fuel ih =>
    intro ps roots sorted hinv hfuel
    cases hlast : roots.getLast? with
    | none =>
      have hempty : roots = [] := List.getLast?_eq_none_iff.mp hlast
      show ∃ roots', KInv ps0 (kahnLoop (fuel + 1) ps roots sorted).1 roots' _ ∧ _
      rw [show kahnLoop (fuel + 1) ps roots sorted = (ps, sorted) from by
        unfold kahnLoop; rw [hlast]]
      exact ⟨[], by rw [← hempty]; exact hinv, Or.inl rfl⟩
    | some r =>
      have hne : roots ≠ [] := by intro he; subst he; simp at hlast
      have hdecomp : roots.dropLast ++ [r] = roots := by
        have hlr : roots.getLast hne = r := by
          rwa [List.getLast?_eq_getLast roots hne, Option.some_inj] at hlast
        rw [← hlr]
        exact List.dropLast_append_getLast hne
      have hinv' : KInv ps0 ps (roots.dropLast ++ [r]) sorted := by
        rw [hdecomp]; exact hinv
      have hstep := kInv_step ps0 hpre ps roots.dropLast sorted r hinv'
      have hloop : kahnLoop (fuel + 1) ps roots sorted =
          kahnLoop fuel
            (processDeps r (ps, roots.dropLast)
              (match alookup ps r with
               | some p => p.partition_dependents
               | none => [])).1
            (processDeps r (ps, roots.dropLast)
              (match alookup ps r with
               | some p => p.partition_dependents
               | none => [])).2
            (sorted ++ [r]) := by
        simp only [kahnLoop, hlast]
      rw [hloop]
      exact ih _ _ (sorted ++ [r]) hstep (by simp at hfuel ⊢; omega)

/-- The whole of the topological ordering stage ends in an invariant
state. -/
theorem kahn_spec (ps0 : PartMap) (hpre : KahnPre ps0) :
    ∃ roots', KInv ps0 (kahn ps0).1 roots' (kahn ps0).2 ∧
      (roots' = [] ∨ (kahn ps0).2.length = ps0.length) := by
  unfold kahn
  exact kahnLoop_spec ps0 hpre ps0.length ps0 (rootParts ps0) []
    (kInv_init ps0 hpre) (by simp)

/-- One partition depends on another. -/
def DepEdge (ps : PartMap) (γ q : String) : Prop :=
  q ∈ (partGet ps γ).partitions_dependent_on

/-- A directed cycle in the partition dependency graph. -/
def HasCycle (ps : PartMap) : Prop :=
  ∃ γ, Relation.TransGen (DepEdge ps) γ γ

/-- A rank function decreasing along dependency edges rules out
cycles. -/
theorem noCycle_of_rank (ps : PartMap) (rank : String → Nat)
    (h : ∀ γ q, DepEdge ps γ q → rank q < rank γ) : ¬HasCycle ps := by
  rintro ⟨γ, hcyc⟩
  have mono : ∀ a b, Relation.TransGen (DepEdge ps) a b → rank b < rank a := by
    intro a b hab
    induction hab with
    | single he => exact h _ _ he
    | tail _ he ihe => exact lt_trans (h _ _ he) ihe
  exact lt_irrefl _ (mono γ γ hcyc)

theorem indexOf_lt_of_mem_take (x : String) :
    ∀ (l : List String) (k : Nat), x ∈ l.take k → l.indexOf x < k := by
  intro l
  induction l with
  | nil => intro k h; simp at h
  | cons a rest ih =>
    intro k h
    cases k with
    | zero => simp at h
    | succ k' =>
      rw [List.take_succ_cons, List.mem_cons] at h
      by_cases hxa : x = a
      · subst hxa
        rw [List.indexOf_cons_self]
        omega
      · have hx : x ∈ rest.take k' := by
          rcases h with h | h
          · exact absurd h hxa
          · exact h
        rw [List.indexOf_cons_ne rest (by simpa using (Ne.symm hxa))]
        have := ih k' hx
        omega

/-- When the ordering stage outputs every partition, its index function
is a topological rank. -/
theorem kahn_topo_rank (ps0 : PartMap) (hpre : KahnPre ps0)
    (hlen : (kahn ps0).2.length = ps0.length) :
    ∀ γ q, DepEdge ps0 γ q →
      (kahn ps0).2.indexOf q < (kahn ps0).2.indexOf γ := by
  obtain ⟨roots', hinv, _⟩ := kahn_spec ps0 hpre
  intro γ q hedge
  have hγ_keys : γ ∈ ps0.map Prod.fst := by
    by_contra hk
    have : alookup ps0 γ = none := (alookup_eq_none_iff_not_mem ps0 γ).mpr hk
    unfold DepEdge partGet at hedge
    rw [this] at hedge
    simp only [Option.getD, emptyPartition] at hedge
    cases hedge
  have hmem_iff : ∀ a, a ∈ (kahn ps0).2 ↔ a ∈ ps0.map Prod.fst := by
    intro a
    have hp := (List.subperm_of_subset hinv.sorted_nd
      (fun a ha => hinv.sorted_sub a ha)).perm_of_length_le
      (by rw [hlen, List.length_map])
    exact hp.mem_iff
  have hγ_mem : γ ∈ (kahn ps0).2 := (hmem_iff γ).mpr hγ_keys
  have hidx := List.indexOf_lt_length.mpr hγ_mem
  have hget : (kahn ps0).2.get ⟨(kahn ps0).2.indexOf γ, hidx⟩ = γ :=
    List.indexOf_get _
  have htake := hinv.order ((kahn ps0).2.indexOf γ) hidx q (by rw [hget]; exact hedge)
  exact indexOf_lt_of_mem_take q (kahn ps0).2 _ htake

/-- Completeness: if the dependency graph is acyclic, the elimination
loop outputs every partition. -/
theorem kahn_complete (ps0 : PartMap) (hpre : KahnPre ps0)
    (hacyc : ¬HasCycle ps0) : (kahn ps0).2.length = ps0.length := by
  obtain ⟨roots', hinv, hend⟩ := kahn_spec ps0 hpre
  rcases hend with hempty | hdone
  · by_contra hlen
    -- the leftover partitions each keep a leftover dependency
    set sorted := (kahn ps0).2 with hsorted
    have hlt : sorted.length < ps0.length := by
      have hle : sorted.length ≤ (ps0.map Prod.fst).length :=
        (List.subperm_of_subset hinv.sorted_nd
          (fun a ha => hinv.sorted_sub a ha)).length_le
      rw [List.length_map] at hle
      omega
    have hSne : ∃ γ0, γ0 ∈ ps0.map Prod.fst ∧ γ0 ∉ sorted := by
      by_contra hall
      push_neg at hall
      have hsub : (ps0.map Prod.fst) ⊆ sorted := fun a ha => hall a ha
      have := (List.subperm_of_subset hpre.keys_nd hsub).length_le
      rw [List.length_map] at this
      omega
    obtain ⟨γ0, hγ0k, hγ0s⟩ := hSne
    set S := (ps0.map Prod.fst).filter (fun γ => decide (γ ∉ sorted)) with hSdef
    have hmemS : ∀ γ, γ ∈ S ↔ γ ∈ ps0.map Prod.fst ∧ γ ∉ sorted := by
      intro γ
      rw [hSdef, List.mem_filter]
      simp
    have hS_step : ∀ γ ∈ S, ∃ q ∈ S, DepEdge ps0 γ q := by
      intro γ hγ
      rw [hmemS] at hγ
      have hnotready : remDep (partGet ps0 γ).partitions_dependent_on sorted ≠ [] := by
        intro hemp
        rcases hinv.ready γ hγ.1 hemp with hr | hs
        · rw [hempty] at hr; cases hr
        · exact hγ.2 hs
      have : ∃ q, q ∈ remDep (partGet ps0 γ).partitions_dependent_on sorted := by
        cases hc : remDep (partGet ps0 γ).partitions_dependent_on sorted with
        | nil => exact absurd hc hnotready
        | cons q rest => exact ⟨q, by simp⟩
      obtain ⟨q, hq⟩ := this
      rw [mem_remDep] at hq
      refine ⟨q, ?_, hq.1⟩
      rw [hmemS]
      exact ⟨dep_mem_keys ps0 hpre γ q hq.1, hq.2⟩
    have hγ0S : γ0 ∈ S := (hmemS γ0).mpr ⟨hγ0k, hγ0s⟩
    -- iterate a chosen successor, pigeonhole a repetition, build a cycle
    have hS_step' : ∀ (x : {a : String // a ∈ S}),
        ∃ y : {a : String // a ∈ S}, DepEdge ps0 x.1 y.1 := by
      rintro ⟨γ, hγ⟩
      obtain ⟨q, hqS, hqE⟩ := hS_step γ hγ
      exact ⟨⟨q, hqS⟩, hqE⟩
    choose step hstep using hS_step'
    set f : Nat → {a : String // a ∈ S} := fun n => step^[n] ⟨γ0, hγ0S⟩ with hf
    have hfs : ∀ n, f (n + 1) = step (f n) := by
      intro n
      rw [hf]
      exact Function.iterate_succ_apply' step n _
    have hchain : ∀ i m, Relation.TransGen (DepEdge ps0) (f i).1 (f (i + m + 1)).1 := by
      intro i m
      induction m with
      | zero => exact Relation.TransGen.single (by rw [hfs i]; exact hstep (f i))
      | succ m ihm =>
        refine Relation.TransGen.tail ihm ?_
        rw [show i + (m + 1) + 1 = (i + m + 1) + 1 by omega, hfs (i + m + 1)]
        exact hstep (f (i + m + 1))
    have hcard : S.toFinset.card < (Finset.range (S.length + 1)).card := by
      rw [Finset.card_range]
      have := S.toFinset_card_le
      omega
    have hmap : ∀ a ∈ Finset.range (S.length + 1), (f a).1 ∈ S.toFinset := by
      intro a _
      rw [List.mem_toFinset]
      exact (f a).2
    have hpigeon : ∃ x ∈ Finset.range (S.length + 1), ∃ y ∈ Finset.range (S.length + 1),
        x ≠ y ∧ (f x).1 = (f y).1 :=
      Finset.exists_ne_map_eq_of_card_lt_of_maps_to hcard hmap
    obtain ⟨i, _, j, _, hij, hfij⟩ := hpigeon
    have hcyc : HasCycle ps0 := by
      rcases Nat.lt_or_ge i j with hlt2 | hge
      · exact ⟨(f i).1, by
          have := hchain i (j - i - 1)
          rw [show i + (j - i - 1) + 1 = j by omega] at this
          rw [← hfij] at this
          exact this⟩
      · have hlt2 : j < i := by omega
        exact ⟨(f j).1, by
          have := hchain j (i - j - 1)
          rw [show j + (i - j - 1) + 1 = i by omega] at this
          rw [hfij] at this
          exact this⟩
    exact hacyc hcyc
  · exact hdone

/-- Soundness: when the ordering stage outputs every partition, the
output is a duplicate-free enumeration of the partitions in an order
respecting the depends-on sets. -/
theorem kahn_sound (ps0 : PartMap) (hpre : KahnPre ps0)
    (hlen : (kahn ps0).2.length = ps0.length) :
    (kahn ps0).2.Nodup ∧
    (∀ γ, γ ∈ (kahn ps0).2 ↔ γ ∈ ps0.map Prod.fst) ∧
    (∀ k (hk : k < (kahn ps0).2.length),
      ∀ q ∈ (partGet ps0 ((kahn ps0).2.get ⟨k, hk⟩)).partitions_dependent_on,
        q ∈ (kahn ps0).2.take k) := by
  obtain ⟨roots', hinv, _⟩ := kahn_spec ps0 hpre
  refine ⟨hinv.sorted_nd, ?_, hinv.order⟩
  intro γ
  have hp := (List.subperm_of_subset hinv.sorted_nd
    (fun a ha => hinv.sorted_sub a ha)).perm_of_length_le
    (by rw [hlen, List.length_map])
  exact hp.mem_iff

/-- Also export the final partition map: the ordering stage only strips
eliminated names from the depends-on sets. -/
theorem kahn_look (ps0 : PartMap) (hpre : KahnPre ps0) :
    ∀ γ, alookup (kahn ps0).1 γ =
      (alookup ps0 γ).map (depFilt (kahn ps0).2) := by
  obtain ⟨roots', hinv, _⟩ := kahn_spec ps0 hpre
  exact hinv.look

/-- C5: when the partition dependency relation induced by discovery is
acyclic, the topological ordering stage produces a sequence containing
every partition exactly once, in which each partition appears after
every partition in its depends-on set. -/
theorem C5_topological_order (g : Graph) (cb : Node → Int) (hwf : WF g)
    (hacyc : ¬HasCycle (discover g cb []).partitions) :
    (kahn (discover g cb []).partitions).2.Nodup ∧
    (∀ γ, γ ∈ (kahn (discover g cb []).partitions).2 ↔
      γ ∈ (discover g cb []).partitions.map Prod.fst) ∧
    (∀ k (hk : k < (kahn (discover g cb []).partitions).2.length),
      ∀ q ∈ (partGet (discover g cb []).partitions
          ((kahn (discover g cb []).partitions).2.get ⟨k, hk⟩)).partitions_dependent_on,
        q ∈ (kahn (discover g cb []).partitions).2.take k) := by
  have hpre := discover_kahnPre g cb hwf
  exact kahn_sound _ hpre (kahn_complete _ hpre hacyc)

/-- Example with one genuine dependency: a = f(x) in group 0,
b = h(a) in group 1; group 1 depends on group 0. -/
def exG2 : Graph :=
  { nodes := [phNode "x", fnNode "a" "f" [.ref "x"], fnNode "b" "h" [.ref "a"]],
    result := some (.ref "b") }

/-- An explicit topological rank for the example's two groups. -/
theorem exG2_no_cycle : ¬HasCycle (discover exG2 exCb []).partitions := by
  apply noCycle_of_rank _ (fun γ => if γ = "0" then 0 else 1)
  intro γ q h
  by_cases h0 : γ = "0"
  · subst h0
    have hdep : (partGet (discover exG2 exCb []).partitions "0").partitions_dependent_on
        = [] := by decide
    unfold DepEdge at h
    rw [hdep] at h
    cases h
  · by_cases h1 : γ = "1"
    · subst h1
      have hdep : (partGet (discover exG2 exCb []).partitions "1").partitions_dependent_on
          = ["0"] := by decide
      unfold DepEdge at h
      rw [hdep] at h
      rw [List.mem_singleton] at h
      subst h
      simp [h0]
    · have hkeys : (discover exG2 exCb []).partitions.map Prod.fst = ["0", "1"] := by
        decide
      have hnone : alookup (discover exG2 exCb []).partitions γ = none := by
        rw [alookup_eq_none_iff_not_mem, hkeys]
        simp [h0, h1]
      unfold DepEdge partGet at h
      rw [hnone] at h
      simp only [Option.getD, emptyPartition] at h
      cases h

/-! ## Plumbing for the Except pipeline -/

theorem exbind_ok_iff {α β : Type} (x : Except SplitErr α) (f : α → Except SplitErr β)
    (r : β) : (x >>= f) = .ok r ↔ ∃ a, x = .ok a ∧ f a = .ok r := by
  cases x with
  | error e => simp [Bind.bind, Except.bind]
  | ok a => simp [Bind.bind, Except.bind]

theorem exbind_error_iff {α β : Type} (x : Except SplitErr α) (f : α → Except SplitErr β)
    (e : SplitErr) :
    (x >>= f) = .error e ↔ x = .error e ∨ ∃ a, x = .ok a ∧ f a = .error e := by
  cases x with
  | error e' => simp [Bind.bind, Except.bind]
  | ok a => simp [Bind.bind, Except.bind]

theorem exMapM_error {α β : Type} (f : α → Except SplitErr β) :
    ∀ (l : List α) (e : SplitErr), l.mapM f = .error e → ∃ a ∈ l, f a = .error e := by
  intro l
  induction l with
  | nil =>
    intro e h
    rw [List.mapM_nil] at h
    cases h
  | cons a rest ih =>
    intro e h
    rw [List.mapM_cons] at h
    rw [exbind_error_iff] at h
    rcases h with h | ⟨b, _, h⟩
    · exact ⟨a, by simp, h⟩
    · rw [exbind_error_iff] at h
      rcases h with h | ⟨bs, _, h⟩
      · obtain ⟨a', ha', hfa'⟩ := ih e h
        exact ⟨a', by simp [ha'], hfa'⟩
      · cases h

theorem exMapM_ok_of_forall {α β : Type} (f : α → Except SplitErr β) (g' : α → β) :
    ∀ (l : List α), (∀ a ∈ l, f a = .ok (g' a)) → l.mapM f = .ok (l.map g') := by
  intro l
  induction l with
  | nil => intro _; rw [List.mapM_nil]; rfl
  | cons a rest ih =>
    intro h
    rw [List.mapM_cons, exbind_ok_iff]
    refine ⟨g' a, h a (by simp), ?_⟩
    rw [exbind_ok_iff]
    exact ⟨rest.map g', ih (fun a ha => h a (by simp [ha])), rfl⟩

theorem exFoldlM_error {α β : Type} (f : β → α → Except SplitErr β) :
    ∀ (l : List α) (b : β) (e : SplitErr), l.foldlM f b = .error e →
      ∃ b' a, a ∈ l ∧ f b' a = .error e := by
  intro l
  induction l with
  | nil =>
    intro b e h
    rw [List.foldlM_nil] at h
    cases h
  | cons a rest ih =>
    intro b e h
    rw [List.foldlM_cons, exbind_error_iff] at h
    rcases h with h | ⟨b', _, h⟩
    · exact ⟨b, a, by simp, h⟩
    · obtain ⟨b'', a', ha', hfa'⟩ := ih b' e h
      exact ⟨b'', a', by simp [ha'], hfa'⟩

/-! ### Shapes of the errors each construction stage can raise -/

theorem gatherArg_error (env : List (String × String)) (a : Arg) (e : SplitErr)
    (h : gatherArg env a = .error e) : ∃ nm, e = .corruptEnv nm := by
  cases a with
  | lit k => cases h
  | ref nm =>
    simp only [gatherArg] at h
    split at h
    · cases h
    · cases h
      exact ⟨nm, rfl⟩

theorem transformNode_error (m_obj : Obj) (tags : List (String × String))
    (ps : PartMap) (node : Node) (e : SplitErr)
    (h : transformNode m_obj tags ps node = .error e) :
    (∃ nm, e = .corruptEnv nm) ∨ (∃ t, e = .unresolvedTarget t) := by
  unfold transformNode at h
  split at h
  · cases h
  · split at h
    · cases h
    · rw [exbind_error_iff] at h
      rcases h with h | ⟨gargs, _, h⟩
      · obtain ⟨a, _, ha⟩ := exMapM_error _ _ _ h
        exact Or.inl (gatherArg_error _ a e ha)
      · rw [exbind_error_iff] at h
        rcases h with h | ⟨gkwargs, _, h⟩
        · obtain ⟨kv, _, hkv⟩ := exMapM_error _ _ _ h
          rw [exbind_error_iff] at hkv
          rcases hkv with hkv | ⟨b, _, hkv⟩
          · exact Or.inl (gatherArg_error _ _ e hkv)
          · cases hkv
        · rw [exbind_error_iff] at h
          rcases h with h | ⟨tp, _, h⟩
          · unfold resolveTargetStep at h
            split at h
            · split at h
              · cases h
                exact Or.inr ⟨node.target, rfl⟩
              · cases h
            · cases h
          · cases h

theorem baseSetupStep_error (m_obj : Obj) (st : BaseSt) (node : Node) (e : SplitErr)
    (h : baseSetupStep m_obj st node = .error e) : ∃ t, e = .unresolvedTarget t := by
  unfold baseSetupStep at h
  split at h
  · cases h
  · split at h
    · split at h
      · cases h
        exact ⟨node.target, rfl⟩
      · cases h
    · cases h

theorem emitPartition_error (st : BaseSt × PartMap) (pname : String) (e : SplitErr)
    (h : emitPartition st pname = .error e) :
    (∃ nm, e = .corruptEnv nm) ∨ e = .indexErr := by
  unfold emitPartition at h
  split at h
  · cases h
  · rw [exbind_error_iff] at h
    rcases h with h | ⟨outVals, _, h⟩
    · obtain ⟨nm, _, hnm⟩ := exMapM_error _ _ _ h
      split at hnm
      · cases hnm
      · cases hnm
        exact Or.inl ⟨nm, rfl⟩
    · rw [exbind_error_iff] at h
      rcases h with h | ⟨outArgs, _, h⟩
      · obtain ⟨nm, _, hnm⟩ := exMapM_error _ _ _ h
        split at hnm
        · cases hnm
        · cases hnm
          exact Or.inl ⟨nm, rfl⟩
      · split at h
        · cases h
        · split at h
          · cases h
            exact Or.inr rfl
          · cases h

theorem mapResult_error (env : List (String × String)) (r : ResExpr) (e : SplitErr)
    (h : mapResult env r = .error e) : ∃ nm, e = .corruptEnv nm := by
  cases r with
  | ref nm =>
    simp only [mapResult] at h
    split at h
    · cases h
    · cases h
      exact ⟨nm, rfl⟩
  | tup ns =>
    simp only [mapResult] at h
    rw [exbind_error_iff] at h
    rcases h with h | ⟨vs, _, h⟩
    · obtain ⟨nm, _, hnm⟩ := exMapM_error _ _ _ h
      split at hnm
      · cases hnm
      · cases hnm
        exact ⟨nm, rfl⟩
    · cases h

/-- The construction stages after the cycle check never raise the cycle
error. -/
theorem splitStages_ne_cycle (g : Graph) (m_obj : Obj)
    (tags : List (String × String)) (psK : PartMap) (sorted : List String)
    (h : splitStages g m_obj tags psK sorted = .error SplitErr.cycleErr) : False := by
  unfold splitStages at h
  rw [exbind_error_iff] at h
  rcases h with h | ⟨ps, _, h⟩
  · obtain ⟨b', a, _, ha⟩ := exFoldlM_error _ _ _ _ h
    rcases transformNode_error _ _ _ _ _ ha with ⟨nm, he⟩ | ⟨t, he⟩ <;> cases he
  · rw [exbind_error_iff] at h
    rcases h with h | ⟨bst, _, h⟩
    · obtain ⟨b', a, _, ha⟩ := exFoldlM_error _ _ _ _ h
      obtain ⟨t, he⟩ := baseSetupStep_error _ _ _ _ ha
      cases he
    · rw [exbind_error_iff] at h
      rcases h with h | ⟨bp, _, h⟩
      · obtain ⟨b', a, _, ha⟩ := exFoldlM_error _ _ _ _ h
        rcases emitPartition_error _ _ _ ha with ⟨nm, he⟩ | he <;> cases he
      · rw [exbind_error_iff] at h
        rcases h with h | ⟨res, _, h⟩
        · cases hres : g.result with
          | none => rw [hres] at h; cases h
          | some r =>
            rw [hres] at h
            simp only [mapResultOpt] at h
            rw [exbind_error_iff] at h
            rcases h with h | ⟨r', _, h⟩
            · obtain ⟨nm, he⟩ := mapResult_error _ _ _ h
              cases he
            · cases h
        · cases h

/-- C2: an input whose induced group-dependency graph contains a cycle
makes split_module raise the cycle error — a constructor distinct from
every other error kind, carrying no output — and the cycle check fires
exactly when the topological elimination produces fewer partitions than
exist. -/
theorem C2_cycle_error (g : Graph) (m_obj : Obj) (cb : Node → Int) (hwf : WF g) :
    (HasCycle (discover g cb []).partitions →
      splitCore g m_obj cb [] = .error SplitErr.cycleErr) ∧
    (splitCore g m_obj cb [] = .error SplitErr.cycleErr ↔
      (kahn (discover g cb []).partitions).2.length ≠
        (discover g cb []).partitions.length) := by
  have hiff : splitCore g m_obj cb [] = .error SplitErr.cycleErr ↔
      (kahn (discover g cb []).partitions).2.length ≠
        (discover g cb []).partitions.length := by
    constructor
    · intro h
      by_contra hlen
      unfold splitCore at h
      rw [if_neg (fun hc => hc hlen)] at h
      exact splitStages_ne_cycle _ _ _ _ _ h
    · intro hlen
      unfold splitCore
      rw [if_pos hlen]
      rfl
  refine ⟨?_, hiff⟩
  intro hcyc
  rw [hiff]
  intro hlen
  have hpre := discover_kahnPre g cb hwf
  have hrank := kahn_topo_rank _ hpre hlen
  exact noCycle_of_rank _ _ hrank hcyc

/-- A cyclic input: a = f(x) in group 0, b = f(a) in group 1, c = f(b)
back in group 0; the two groups depend on each other. -/
def cycG : Graph :=
  { nodes := [phNode "x", fnNode "a" "f" [.ref "x"], fnNode "b" "f" [.ref "a"],
      fnNode "c" "f" [.ref "b"]],
    result := some (.ref "c") }

def cycCb (n : Node) : Int := if n.name = "b" then 1 else 0

theorem C2_cycle_error_witness :
    splitCore cycG exRoot cycCb [] = .error SplitErr.cycleErr :=
  (C2_cycle_error cycG exRoot cycCb (by decide)).1
    ⟨"0", Relation.TransGen.tail
      (Relation.TransGen.single
        (show ("1" : String) ∈
          (partGet (discover cycG cycCb []).partitions "0").partitions_dependent_on
          by decide))
      (show ("0" : String) ∈
        (partGet (discover cycG cycCb []).partitions "1").partitions_dependent_on
        by decide)⟩

theorem C5_topological_order_witness :
    (kahn (discover exG2 exCb []).partitions).2.Nodup ∧
    (∀ γ, γ ∈ (kahn (discover exG2 exCb []).partitions).2 ↔
      γ ∈ (discover exG2 exCb []).partitions.map Prod.fst) ∧
    (∀ k (hk : k < (kahn (discover exG2 exCb []).partitions).2.length),
      ∀ q ∈ (partGet (discover exG2 exCb []).partitions
          ((kahn (discover exG2 exCb []).partitions).2.get ⟨k, hk⟩)).partitions_dependent_on,
        q ∈ (kahn (discover exG2 exCb []).partitions).2.take k) :=
  C5_topological_order exG2 exCb (by decide) exG2_no_cycle

/-! ## C1: semantic equivalence -/

/-- An entry found by lookup is an entry of the list. -/
theorem alookup_mem {β : Type} {l : List (String × β)} {k : String} {v : β}
    (h : alookup l k = some v) : (k, v) ∈ l := by
  induction l with
  | nil => cases h
  | cons e rest ih =>
    obtain ⟨a, b⟩ := e
    unfold alookup at h
    by_cases ha : a = k
    · rw [if_pos ha] at h
      injection h with hv
      subst hv; subst ha
      exact List.mem_cons_self _ _
    · rw [if_neg ha] at h
      exact List.mem_cons_of_mem _ (ih h)

/-- A partition map in which no partition depends on any other admits no
dependency cycle. -/
theorem noCycle_of_no_deps (ps : PartMap)
    (h : ∀ e ∈ ps, e.2.partitions_dependent_on = ([] : List String)) :
    ¬HasCycle ps := by
  apply noCycle_of_rank ps (fun _ => 0)
  intro γ q hd
  exfalso
  unfold DepEdge partGet at hd
  cases hq : alookup ps γ with
  | none => rw [hq] at hd; simp [Option.getD_none, emptyPartition] at hd
  | some P =>
    rw [hq] at hd
    simp only [Option.getD_some] at hd
    have hP : P.partitions_dependent_on = [] := h (γ, P) (alookup_mem hq)
    rw [hP] at hd
    exact List.not_mem_nil q hd

/-- A minimal single-group input: one placeholder feeding one call whose
value is the final result. -/
def sglG : Graph :=
  { nodes := [phNode "x", fnNode "a" "f" [.ref "x"]],
    result := some (.ref "a") }

/-- The assignment function putting every node in group 0. -/
def zeroCb (_ : Node) : Int := 0

/-- A concrete semantics where the call target f is the successor on
base values. -/
def semSucc : Sem :=
  { applyFn := fun t vs _ =>
      match t, vs with
      | "f", [.base k] => some (.base (k + 1))
      | _, _ => none,
    applyMod := fun _ _ _ => none,
    objVal := fun k => .base k }

/-- C1: the claimed semantic equivalence is refuted by the acyclic
single-group input `sglG`: the original graph returns the bare value of
its one result, while the graph rebuilt by split_module returns a
1-tuple of it — the emitted sub-graph's output is always the tuple of
the partition's outputs, but a single output is bound to the call's
result directly, without unpacking. -/
theorem C1_semantic_equivalence :
    ¬HasCycle (discover sglG zeroCb []).partitions ∧
    evalOrig semSucc exRoot sglG [.base 0] = some (.base 1) ∧
    evalSplitResult semSucc (split_module sglG exRoot exRoot zeroCb) [.base 0] =
      some (.tup [.base 1]) ∧
    evalSplitResult semSucc (split_module sglG exRoot exRoot zeroCb) [.base 0] ≠
      evalOrig semSucc exRoot sglG [.base 0] := by
  refine ⟨noCycle_of_no_deps _ (by decide), rfl, rfl, ?_⟩
  intro h
  rw [show evalSplitResult semSucc (split_module sglG exRoot exRoot zeroCb) [.base 0] =
        some (.tup [.base 1]) from rfl,
      show evalOrig semSucc exRoot sglG [.base 0] = some (.base 1) from rfl] at h
  injection h with hv
  cases hv

/-! ## C9: purity and reuse across runs -/

/-- record_cross_partition_use reads the tag state only at the defining
and the consuming name. -/
theorem recordCross_congr (t1 t2 : List (String × String)) (ps : PartMap)
    (d : String) (u : Option String)
    (hd : alookup t1 d = alookup t2 d)
    (hu : u.bind (alookup t1) = u.bind (alookup t2)) :
    recordCrossPartitionUse t1 ps d u = recordCrossPartitionUse t2 ps d u := by
  unfold recordCrossPartitionUse
  rw [hd, hu]

/-- Congruence for the per-node recording fold: two tag states that
agree at the recorded names and at the consuming node's name record
identically. -/
theorem recordFold_congr (t1 t2 : List (String × String)) (u : String)
    (hu : alookup t1 u = alookup t2 u) :
    ∀ (ds : List String) (ps : PartMap),
      (∀ d ∈ ds, alookup t1 d = alookup t2 d) →
      ds.foldl (fun acc d => recordCrossPartitionUse t1 acc d (some u)) ps =
        ds.foldl (fun acc d => recordCrossPartitionUse t2 acc d (some u)) ps := by
  intro ds
  induction ds with
  | nil => intro ps _; rfl
  | cons d ds ih =>
    intro ps hd
    simp only [List.foldl_cons]
    rw [recordCross_congr t1 t2 ps d (some u) (hd d (List.mem_cons_self _ _))
      (by simp only [Option.some_bind]; exact hu)]
    exact ih _ (fun x hx => hd x (List.mem_cons_of_mem _ hx))

/-- Congruence for the result-expression recording fold. -/
theorem recordFoldNone_congr (t1 t2 : List (String × String)) :
    ∀ (ds : List String) (ps : PartMap),
      (∀ d ∈ ds, alookup t1 d = alookup t2 d) →
      ds.foldl (fun acc d => recordCrossPartitionUse t1 acc d none) ps =
        ds.foldl (fun acc d => recordCrossPartitionUse t2 acc d none) ps := by
  intro ds
  induction ds with
  | nil => intro ps _; rfl
  | cons d ds ih =>
    intro ps hd
    simp only [List.foldl_cons]
    rw [recordCross_congr t1 t2 ps d none (hd d (List.mem_cons_self _ _)) rfl]
    exact ih _ (fun x hx => hd x (List.mem_cons_of_mem _ hx))

/-- One discovery step started on a stale tag state that is clean on
ineligible names runs in lock-step with the step on the fresh state:
partitions and the orig_nodes dict come out equal, the tag states agree
on all processed names, and the stale state still looks like `tags0`
outside them. -/
theorem discStep_pair (g : Graph) (cb : Node → Int)
    (tags0 : List (String × String))
    (hclean : ∀ n ∈ g.nodes, ¬Eligible n → alookup tags0 n.name = none)
    (pre : List Node) (n : Node) (hn : n ∈ g.nodes)
    (hnn : n.name ∉ pre.map Node.name)
    (hrefs : ∀ v ∈ nodeRefs n, v ∈ pre.map Node.name)
    (A B : DiscSt) (hBinv : DInv g cb pre B)
    (hp : A.partitions = B.partitions) (ho : A.orig_nodes = B.orig_nodes)
    (h1 : ∀ v ∈ pre.map Node.name, alookup A.tags v = alookup B.tags v)
    (h2 : ∀ v, v ∉ pre.map Node.name → alookup A.tags v = alookup tags0 v) :
    (discStep cb A n).partitions = (discStep cb B n).partitions ∧
    (discStep cb A n).orig_nodes = (discStep cb B n).orig_nodes ∧
    (∀ v ∈ (pre ++ [n]).map Node.name,
      alookup (discStep cb A n).tags v = alookup (discStep cb B n).tags v) ∧
    (∀ v, v ∉ (pre ++ [n]).map Node.name →
      alookup (discStep cb A n).tags v = alookup tags0 v) := by
  by_cases he : n.op = Op.placeholder ∨ n.op = Op.get_attr
  · have hstepA : discStep cb A n = { A with orig_nodes := aset A.orig_nodes n.name n } := by
      unfold discStep; rw [if_pos he]
    have hstepB : discStep cb B n = { B with orig_nodes := aset B.orig_nodes n.name n } := by
      unfold discStep; rw [if_pos he]
    rw [hstepA, hstepB]
    refine ⟨hp, by rw [ho], ?_, ?_⟩
    · intro v hv
      rw [List.map_append, List.mem_append] at hv
      rcases hv with hv | hv
      · exact h1 v hv
      · simp only [List.map_cons, List.map_nil, List.mem_singleton] at hv
        subst hv
        rw [h2 n.name hnn, hclean n hn (fun hE => hE he), hBinv.2.2 n.name hnn]
    · intro v hv
      rw [List.map_append, List.mem_append] at hv
      push_neg at hv
      exact h2 v hv.1
  · have hstepA : discStep cb A n =
        { partitions :=
            (nodeRefs n).foldl
              (fun acc d =>
                recordCrossPartitionUse (aset A.tags n.name (toString (cb n))) acc d
                  (some n.name))
              (updateP
                (match alookup A.partitions (toString (cb n)) with
                 | some _ => A.partitions
                 | none =>
                   A.partitions ++ [(toString (cb n), emptyPartition (toString (cb n)))])
                (toString (cb n))
                (fun p => { p with node_names := p.node_names ++ [n.name] }))
          orig_nodes := aset A.orig_nodes n.name n
          tags := aset A.tags n.name (toString (cb n)) } := by
      unfold discStep
      rw [if_neg he]
    have hstepB : discStep cb B n =
        { partitions :=
            (nodeRefs n).foldl
              (fun acc d =>
                recordCrossPartitionUse (aset B.tags n.name (toString (cb n))) acc d
                  (some n.name))
              (updateP
                (match alookup B.partitions (toString (cb n)) with
                 | some _ => B.partitions
                 | none =>
                   B.partitions ++ [(toString (cb n), emptyPartition (toString (cb n)))])
                (toString (cb n))
                (fun p => { p with node_names := p.node_names ++ [n.name] }))
          orig_nodes := aset B.orig_nodes n.name n
          tags := aset B.tags n.name (toString (cb n)) } := by
      unfold discStep
      rw [if_neg he]
    have htagsU : ∀ d ∈ nodeRefs n,
        alookup (aset A.tags n.name (toString (cb n))) d =
          alookup (aset B.tags n.name (toString (cb n))) d := by
      intro d hd
      have hdpre := hrefs d hd
      have hdne : d ≠ n.name := fun hdn => hnn (hdn ▸ hdpre)
      rw [alookup_aset, alookup_aset, if_neg hdne, if_neg hdne]
      exact h1 d hdpre
    have hself : alookup (aset A.tags n.name (toString (cb n))) n.name =
        alookup (aset B.tags n.name (toString (cb n))) n.name := by
      rw [alookup_aset, alookup_aset, if_pos rfl, if_pos rfl]
    rw [hstepA, hstepB]
    refine ⟨?_, by rw [ho], ?_, ?_⟩
    · rw [hp]
      exact recordFold_congr _ _ n.name hself (nodeRefs n) _ htagsU
    · intro v hv
      rw [List.map_append, List.mem_append] at hv
      rcases hv with hv | hv
      · have hvne : v ≠ n.name := fun hvn => hnn (hvn ▸ hv)
        rw [alookup_aset, alookup_aset, if_neg hvne, if_neg hvne]
        exact h1 v hv
      · simp only [List.map_cons, List.map_nil, List.mem_singleton] at hv
        subst hv
        rw [alookup_aset, alookup_aset, if_pos rfl, if_pos rfl]
    · intro v hv
      rw [List.map_append, List.mem_append] at hv
      push_neg at hv
      have hvne : v ≠ n.name := by simpa using hv.2
      rw [alookup_aset, if_neg hvne]
      exact h2 v hv.1

/-- The discovery node loop run from a clean stale tag state simulates
the loop run from the fresh state. -/
theorem discover_loop_pair (g : Graph) (cb : Node → Int) (hwf : WF g)
    (tags0 : List (String × String))
    (hclean : ∀ n ∈ g.nodes, ¬Eligible n → alookup tags0 n.name = none) :
    ∀ (rest pre : List Node) (A B : DiscSt),
      g.nodes = pre ++ rest → WFnodes (pre.map Node.name) rest →
      WFnodes [] pre → DInv g cb pre B →
      A.partitions = B.partitions → A.orig_nodes = B.orig_nodes →
      (∀ v ∈ pre.map Node.name, alookup A.tags v = alookup B.tags v) →
      (∀ v, v ∉ pre.map Node.name → alookup A.tags v = alookup tags0 v) →
      (rest.foldl (discStep cb) A).partitions =
        (rest.foldl (discStep cb) B).partitions ∧
      (∀ v ∈ (pre ++ rest).map Node.name,
        alookup (rest.foldl (discStep cb) A).tags v =
          alookup (rest.foldl (discStep cb) B).tags v) := by
  intro rest
  induction rest with
  | nil =>
    intro pre A B hsplit _ _ _ hp _ h1 _
    exact ⟨hp, by simpa using h1⟩
  | cons n rest' ih =>
    intro pre A B hsplit hwfrest hwfpre hBinv hp ho h1 h2
    obtain ⟨hn1, hn2, hn3, hn4⟩ := hwfrest
    have hsub : ∀ x ∈ pre, x ∈ g.nodes := by
      intro x hx; rw [hsplit]; simp [hx]
    have hn : n ∈ g.nodes := by rw [hsplit]; simp
    have hpair := discStep_pair g cb tags0 hclean pre n hn hn1 hn2 A B hBinv hp ho h1 h2
    have hBinv' := discStep_inv g cb pre n B hwf hsub hn hwfpre hn1 hn2 hBinv
    have hsplit' : g.nodes = (pre ++ [n]) ++ rest' := by rw [hsplit]; simp
    have hwfpre' : WFnodes [] (pre ++ [n]) :=
      (wfnodes_append_inv (pre ++ [n]) rest' []
        (by rw [← hsplit']; exact hwf.1)).1
    have hwfrest' : WFnodes ((pre ++ [n]).map Node.name) rest' := by
      simpa [List.append_assoc] using hn4
    have := ih (pre ++ [n]) (discStep cb A n) (discStep cb B n) hsplit' hwfrest'
      hwfpre' hBinv' hpair.1 hpair.2.1 hpair.2.2.1 hpair.2.2.2
    simp only [List.foldl_cons]
    constructor
    · exact this.1
    · intro v hv
      exact this.2 v (by simpa [List.append_assoc] using hv)

/-- Discovery started on a stale tag state that is clean on ineligible
names yields the same partition map as discovery on the fresh state, and
a tag state agreeing with it on every node name of the graph. -/
theorem discover_pair (g : Graph) (cb : Node → Int) (hwf : WF g)
    (tags0 : List (String × String))
    (hclean : ∀ n ∈ g.nodes, ¬Eligible n → alookup tags0 n.name = none) :
    (discover g cb tags0).partitions = (discover g cb []).partitions ∧
    ∀ v ∈ g.nodes.map Node.name,
      alookup (discover g cb tags0).tags v = alookup (discover g cb []).tags v := by
  have hBinv0 : DInv g cb [] ⟨[], [], []⟩ := dInv_start g cb
  have hpair := discover_loop_pair g cb hwf tags0 hclean g.nodes []
    ⟨[], [], tags0⟩ ⟨[], [], []⟩ (by simp) (by simpa using hwf.1) trivial hBinv0
    rfl rfl (by intro v hv; cases hv) (fun v _ => rfl)
  simp only [List.nil_append] at hpair
  obtain ⟨hps, htags⟩ := hpair
  have hres : ∀ d ∈ resultRefs g.result, d ∈ g.nodes.map Node.name := hwf.2
  refine ⟨?_, ?_⟩
  · show ((resultRefs g.result).foldl
        (fun acc d =>
          recordCrossPartitionUse (g.nodes.foldl (discStep cb) ⟨[], [], tags0⟩).tags acc d none)
        (g.nodes.foldl (discStep cb) ⟨[], [], tags0⟩).partitions) =
      ((resultRefs g.result).foldl
        (fun acc d =>
          recordCrossPartitionUse (g.nodes.foldl (discStep cb) ⟨[], [], []⟩).tags acc d none)
        (g.nodes.foldl (discStep cb) ⟨[], [], []⟩).partitions)
    rw [hps]
    exact recordFoldNone_congr _ _ (resultRefs g.result) _
      (fun d hd => htags d (hres d hd))
  · intro v hv
    exact htags v hv

/-- Cloning a node reads the tag state only at the node's own name. -/
theorem transformNode_congr (m_obj : Obj) (t1 t2 : List (String × String))
    (ps : PartMap) (n : Node) (h : alookup t1 n.name = alookup t2 n.name) :
    transformNode m_obj t1 ps n = transformNode m_obj t2 ps n := by
  unfold transformNode
  rw [h]

/-- A monadic fold over a list is determined by the step function's
values on the list's elements. -/
theorem foldlM_congr {α β : Type} (f f' : β → α → Except SplitErr β) :
    ∀ (l : List α), (∀ b a, a ∈ l → f b a = f' b a) →
      ∀ b, l.foldlM f b = l.foldlM f' b := by
  intro l
  induction l with
  | nil => intro _ b; rfl
  | cons x xs ih =>
    intro h b
    rw [List.foldlM_cons, List.foldlM_cons, h b x (List.mem_cons_self _ _)]
    cases hfx : f' b x with
    | error e => rfl
    | ok b' =>
      show xs.foldlM f b' = xs.foldlM f' b'
      exact ih (fun bb a ha => h bb a (List.mem_cons_of_mem _ ha)) b'

/-- Erase the recorded tag state from a run's outcome: what remains is
everything the transformation returns about the input graph itself. -/
def eraseTags : Except SplitErr SplitOut → Except SplitErr SplitOut
  | .ok out => .ok { out with tags := [] }
  | .error e => .error e

theorem eraseTags_bind {α : Type} (x : Except SplitErr α)
    (k1 k2 : α → Except SplitErr SplitOut)
    (h : ∀ a, eraseTags (k1 a) = eraseTags (k2 a)) :
    eraseTags (x >>= k1) = eraseTags (x >>= k2) := by
  cases x with
  | error e => rfl
  | ok a => exact h a

/-- The construction stages depend on the tag state only through its
lookups at the graph's node names (and record it verbatim in the
output). -/
theorem splitStages_pair (g : Graph) (m_obj : Obj)
    (t1 t2 : List (String × String)) (psK : PartMap) (sorted : List String)
    (h : ∀ n ∈ g.nodes, alookup t1 n.name = alookup t2 n.name) :
    eraseTags (splitStages g m_obj t1 psK sorted) =
      eraseTags (splitStages g m_obj t2 psK sorted) := by
  have hT : ∀ ps, g.nodes.foldlM (transformNode m_obj t1) ps =
      g.nodes.foldlM (transformNode m_obj t2) ps :=
    fun ps => foldlM_congr _ _ g.nodes
      (fun b a ha => transformNode_congr m_obj t1 t2 b a (h a ha)) ps
  have estages : ∀ t : List (String × String),
      splitStages g m_obj t psK sorted =
        (g.nodes.foldlM (transformNode m_obj t) (addPlaceholders psK sorted)) >>=
          (fun ps => (g.nodes.foldlM (baseSetupStep m_obj) ⟨[], emptyGraph, []⟩) >>=
            (fun bst => (sorted.foldlM emitPartition (bst, ps)) >>=
              (fun bp => (mapResultOpt bp.1.env g.result) >>=
                (fun res => pure
                  { partitions := bp.2, sorted := sorted, baseEnv := bp.1.env,
                    baseAttrs := bp.1.attrs,
                    baseGraph := { bp.1.graph with result := res },
                    tags := t })))) :=
    fun t => rfl
  rw [estages, estages, hT]
  refine eraseTags_bind _ _ _ (fun ps => ?_)
  refine eraseTags_bind _ _ _ (fun bst => ?_)
  refine eraseTags_bind _ _ _ (fun bp => ?_)
  refine eraseTags_bind _ _ _ (fun res => ?_)
  rfl

/-- C9 (amended): the recorded tag state aside, a run of the
transformation started on any stale tag state that is clean on
placeholder and attribute-reference names coincides with a fresh run —
so the graph left tagged by one run can be split again with the same
outcome. -/
theorem C9_reuse_after_run (g : Graph) (m_obj : Obj) (cb : Node → Int)
    (tags0 : List (String × String)) (hwf : WF g)
    (hclean : ∀ n ∈ g.nodes, ¬Eligible n → alookup tags0 n.name = none) :
    eraseTags (splitCore g m_obj cb tags0) = eraseTags (splitCore g m_obj cb []) := by
  obtain ⟨hps, htags⟩ := discover_pair g cb hwf tags0 hclean
  have ecore : ∀ t : List (String × String),
      splitCore g m_obj cb t =
        if (kahn (discover g cb t).partitions).2.length ≠
            (discover g cb t).partitions.length then
          throw .cycleErr
        else
          splitStages g m_obj (discover g cb t).tags
            (kahn (discover g cb t).partitions).1
            (kahn (discover g cb t).partitions).2 :=
    fun t => rfl
  rw [ecore, ecore, hps]
  by_cases hc : (kahn (discover g cb []).partitions).2.length ≠
      (discover g cb []).partitions.length
  · rw [if_pos hc, if_pos hc]
  · rw [if_neg hc, if_neg hc]
    exact splitStages_pair g m_obj _ _ _ _
      (fun n hn => htags n.name (List.mem_map_of_mem _ hn))

/-- C9 (counterexample to the literal claim): a run of split_module
writes partition tags onto the original graph's nodes — the recorded
tag state after a run of the demo single-group input is nonempty, so
the original graph and its nodes are mutated. -/
theorem C9_mutation_observable :
    (split_module sglG exRoot exRoot zeroCb).toOption.map SplitOut.tags =
      some [("a", "0")] ∧
    (split_module sglG exRoot exRoot zeroCb).toOption.map SplitOut.tags ≠
      some ([] : List (String × String)) := by
  refine ⟨rfl, ?_⟩
  rw [show (split_module sglG exRoot exRoot zeroCb).toOption.map SplitOut.tags =
        some [("a", "0")] from rfl]
  decide

theorem C9_reuse_after_run_witness :
    eraseTags (splitCore sglG exRoot zeroCb [("a", "5")]) =
      eraseTags (splitCore sglG exRoot zeroCb []) :=
  C9_reuse_after_run sglG exRoot zeroCb [("a", "5")] (by decide) (by decide)

/-! ## The construction stages: characterization -/

/-- Splitting a successful monadic fold at an element of the list. -/
theorem exFoldlM_ok_split {α β : Type} (f : β → α → Except SplitErr β) :
    ∀ (l1 : List α) (a : α) (l2 : List α) (b r : β),
      (l1 ++ a :: l2).foldlM f b = .ok r →
      ∃ bmid b', l1.foldlM f b = .ok bmid ∧ f bmid a = .ok b' ∧
        l2.foldlM f b' = .ok r := by
  intro l1
  induction l1 with
  | nil =>
    intro a l2 b r h
    rw [List.nil_append, List.foldlM_cons, exbind_ok_iff] at h
    obtain ⟨b', hb', hrest⟩ := h
    exact ⟨b, b', rfl, hb', hrest⟩
  | cons x xs ih =>
    intro a l2 b r h
    rw [List.cons_append, List.foldlM_cons, exbind_ok_iff] at h
    obtain ⟨b1, hb1, hrest⟩ := h
    obtain ⟨bmid, b', hmid, hstep, htail⟩ := ih a l2 b1 r hrest
    refine ⟨bmid, b', ?_, hstep, htail⟩
    rw [List.foldlM_cons, exbind_ok_iff]
    exact ⟨b1, hb1, hmid⟩

/-- A failing head step fails the whole monadic fold. -/
theorem exFoldlM_error_head {α β : Type} (f : β → α → Except SplitErr β)
    (a : α) (l : List α) (b : β) (e : SplitErr) (h : f b a = .error e) :
    (a :: l).foldlM f b = .error e := by
  rw [List.foldlM_cons, h]
  rfl

/-- An ok head step reduces the monadic fold to its tail. -/
theorem exFoldlM_ok_head {α β : Type} (f : β → α → Except SplitErr β)
    (a : α) (l : List α) (b b' : β) (h : f b a = .ok b') :
    (a :: l).foldlM f b = l.foldlM f b' := by
  rw [List.foldlM_cons, h]
  rfl

/-- The per-partition placeholder fold: appends one placeholder per
declared input to the sub-graph and binds each input to itself in the
environment; every other field is untouched. -/
theorem phFold_spec :
    ∀ (l : List String) (q : Partition),
      (l.foldl (fun q inp =>
          { q with
            graph := { q.graph with nodes := q.graph.nodes ++ [mkPlaceholder inp] }
            environment := aset q.environment inp inp }) q).node_names = q.node_names ∧
      (l.foldl (fun q inp =>
          { q with
            graph := { q.graph with nodes := q.graph.nodes ++ [mkPlaceholder inp] }
            environment := aset q.environment inp inp }) q).inputs = q.inputs ∧
      (l.foldl (fun q inp =>
          { q with
            graph := { q.graph with nodes := q.graph.nodes ++ [mkPlaceholder inp] }
            environment := aset q.environment inp inp }) q).outputs = q.outputs ∧
      (l.foldl (fun q inp =>
          { q with
            graph := { q.graph with nodes := q.graph.nodes ++ [mkPlaceholder inp] }
            environment := aset q.environment inp inp }) q).graph.nodes =
        q.graph.nodes ++ l.map mkPlaceholder ∧
      ∀ v, alookup (l.foldl (fun q inp =>
          { q with
            graph := { q.graph with nodes := q.graph.nodes ++ [mkPlaceholder inp] }
            environment := aset q.environment inp inp }) q).environment v =
        if v ∈ l then some v else alookup q.environment v := by
  intro l
  induction l with
  | nil =>
    intro q
    refine ⟨rfl, rfl, rfl, by simp, ?_⟩
    intro v
    rw [if_neg (List.not_mem_nil v)]
    rfl
  | cons inp rest ih =>
    intro q
    rw [List.foldl_cons]
    obtain ⟨h1, h2, h3, h4, h5⟩ := ih
      { q with
        graph := { q.graph with nodes := q.graph.nodes ++ [mkPlaceholder inp] }
        environment := aset q.environment inp inp }
    refine ⟨h1, h2, h3, by rw [h4]; simp, ?_⟩
    intro v
    rw [h5 v]
    by_cases hvr : v ∈ rest
    · rw [if_pos hvr, if_pos (List.mem_cons_of_mem _ hvr)]
    · rw [if_neg hvr, alookup_aset]
      by_cases hvi : v = inp
      · subst hvi
        rw [if_pos rfl, if_pos (List.mem_cons_self _ _)]
      · rw [if_neg hvi, if_neg (by
          intro hc
          rw [List.mem_cons] at hc
          exact hc.elim hvi hvr)]

/-- Lookup in the placeholder-declaration pass's output. -/
theorem addPlaceholders_look :
    ∀ (sorted : List String) (ps : PartMap), sorted.Nodup →
      ∀ γ, alookup (addPlaceholders ps sorted) γ =
        if γ ∈ sorted then
          (alookup ps γ).map (fun p =>
            p.inputs.foldl (fun q inp =>
              { q with
                graph := { q.graph with nodes := q.graph.nodes ++ [mkPlaceholder inp] }
                environment := aset q.environment inp inp }) p)
        else alookup ps γ := by
  intro sorted
  induction sorted with
  | nil =>
    intro ps _ γ
    rw [if_neg (List.not_mem_nil γ)]
    rfl
  | cons s rest ih =>
    intro ps hnd γ
    have hstep : addPlaceholders ps (s :: rest) =
        addPlaceholders (updateP ps s (fun p =>
          p.inputs.foldl (fun q inp =>
            { q with
              graph := { q.graph with nodes := q.graph.nodes ++ [mkPlaceholder inp] }
              environment := aset q.environment inp inp }) p)) rest := by
      unfold addPlaceholders
      rw [List.foldl_cons]
    rw [hstep, ih _ (List.Nodup.of_cons hnd) γ]
    by_cases hγr : γ ∈ rest
    · rw [if_pos hγr, if_pos (List.mem_cons_of_mem _ hγr), alookup_updateP,
        if_neg (by
          intro hc
          subst hc
          exact (List.nodup_cons.mp hnd).1 hγr)]
    · rw [if_neg hγr, alookup_updateP]
      by_cases hγs : γ = s
      · subst hγs
        rw [if_pos rfl, if_pos (List.mem_cons_self _ _)]
      · rw [if_neg hγs, if_neg (by
          intro hc
          rw [List.mem_cons] at hc
          exact hc.elim hγs hγr)]

theorem ref_mem_flatMap_args :
    ∀ (l : List Arg) (d : String), Arg.ref d ∈ l → d ∈ l.flatMap argRefs := by
  intro l
  induction l with
  | nil => intro d h; cases h
  | cons a rest ih =>
    intro d h
    rw [List.mem_cons] at h
    rw [List.flatMap_cons, List.mem_append]
    rcases h with rfl | h
    · left; exact List.mem_singleton_self d
    · right; exact ih d h

theorem ref_mem_flatMap_kwargs :
    ∀ (l : List (String × Arg)) (d : String) (kv : String × Arg),
      kv ∈ l → kv.2 = Arg.ref d → d ∈ l.flatMap (fun kv => argRefs kv.2) := by
  intro l
  induction l with
  | nil => intro d kv h; cases h
  | cons a rest ih =>
    intro d kv hkv h
    rw [List.mem_cons] at hkv
    rw [List.flatMap_cons, List.mem_append]
    rcases hkv with rfl | hkv
    · left; rw [h]; exact List.mem_singleton_self d
    · right; exact ih d kv hkv h

/-- A reference among a node's positional arguments is among its
references. -/
theorem ref_mem_nodeRefs_args (n : Node) (d : String) (h : Arg.ref d ∈ n.args) :
    d ∈ nodeRefs n := by
  unfold nodeRefs
  rw [List.mem_append]
  exact Or.inl (ref_mem_flatMap_args n.args d h)

/-- A reference among a node's keyword arguments is among its
references. -/
theorem ref_mem_nodeRefs_kwargs (n : Node) (d : String) (kv : String × Arg)
    (hkv : kv ∈ n.kwargs) (h : kv.2 = Arg.ref d) : d ∈ nodeRefs n := by
  unfold nodeRefs
  rw [List.mem_append]
  exact Or.inr (ref_mem_flatMap_kwargs n.kwargs d kv hkv h)

/-- Membership in a discovered partition's member list is exactly having
that partition as the node's group. -/
theorem mem_node_names_iff_grp (g : Graph) (cb : Node → Int) (hwf : WF g)
    (γ : String) (P0 : Partition)
    (hP : alookup (discover g cb []).partitions γ = some P0) (v : String) :
    v ∈ P0.node_names ↔ grp g cb v = some γ := by
  rw [(discover_char g cb hwf).mem_iff γ P0 hP v, grp_eq_some_iff cb hwf]
  constructor
  · rintro ⟨m, hm, he, hc, hn⟩
    exact ⟨m, hm, hn, he, hc⟩
  · rintro ⟨m, hm, hn, he, hc⟩
    exact ⟨m, hm, he, hc, hn⟩

/-- The invariant of the node-cloning loop: after processing the prefix
`pre`, each discovered partition's clone holds its placeholder prefix
followed by the clones so far, and its environment is the identity on
its declared inputs and its already-cloned members. -/
def TI (g : Graph) (cb : Node → Int) (pre : List Node) (ps : PartMap) : Prop :=
  ∀ γ P0, alookup (discover g cb []).partitions γ = some P0 →
    ∃ p, alookup ps γ = some p ∧
      p.node_names = P0.node_names ∧ p.inputs = P0.inputs ∧ p.outputs = P0.outputs ∧
      (∃ more, p.graph.nodes = P0.inputs.map mkPlaceholder ++ more) ∧
      (∀ v, alookup p.environment v =
        if v ∈ P0.inputs ∨ (v ∈ P0.node_names ∧ v ∈ pre.map Node.name)
        then some v else none)

/-- The invariant holds after placeholder declaration, before any node
is cloned. -/
theorem TI_start (g : Graph) (cb : Node → Int) (hwf : WF g)
    (hlen : (kahn (discover g cb []).partitions).2.length =
      (discover g cb []).partitions.length) :
    TI g cb []
      (addPlaceholders (kahn (discover g cb []).partitions).1
        (kahn (discover g cb []).partitions).2) := by
  intro γ P0 hP
  have hpre := discover_kahnPre g cb hwf
  have hsound := kahn_sound _ hpre hlen
  have hγs : γ ∈ (kahn (discover g cb []).partitions).2 :=
    (hsound.2.1 γ).mpr (mem_keys_of_alookup hP)
  have hlook := kahn_look _ hpre γ
  rw [hP] at hlook
  rw [addPlaceholders_look _ _ hsound.1 γ, if_pos hγs, hlook, Option.map_some']
  obtain ⟨hfg, hfe, _⟩ := (discover_char g cb hwf).fresh γ P0 hP
  obtain ⟨h1, h2, h3, h4, h5⟩ := phFold_spec
    (depFilt (kahn (discover g cb []).partitions).2 P0).inputs
    (depFilt (kahn (discover g cb []).partitions).2 P0)
  refine ⟨_, rfl, ?_, ?_, ?_, ⟨[], ?_⟩, ?_⟩
  · rw [h1]; rfl
  · rw [h2]; rfl
  · rw [h3]; rfl
  · rw [h4]
    show P0.graph.nodes ++ P0.inputs.map mkPlaceholder =
      P0.inputs.map mkPlaceholder ++ []
    rw [hfg, List.append_nil]
    rfl
  · intro v
    rw [h5 v]
    show (if v ∈ P0.inputs then some v else alookup P0.environment v) =
      if v ∈ P0.inputs ∨ (v ∈ P0.node_names ∧ v ∈ ([] : List Node).map Node.name)
      then some v else none
    rw [hfe]
    by_cases hv : v ∈ P0.inputs
    · rw [if_pos hv, if_pos (Or.inl hv)]
    · rw [if_neg hv, if_neg (by
        rintro (hc | ⟨_, hc⟩)
        · exact hv hc
        · simp at hc)]
      rfl

/-- Eligibility is being a call node. -/
theorem eligible_op (n : Node) :
    Eligible n ↔ (n.op = Op.call_function ∨ n.op = Op.call_module) := by
  unfold Eligible
  cases h : n.op <;> simp [h]

/-- Unfolding of one cloning step at a tagged node whose partition is
present. -/
theorem transformNode_eq (m_obj : Obj) (tags : List (String × String))
    (ps : PartMap) (node : Node) (γ : String) (p : Partition)
    (h1 : alookup tags node.name = some γ) (h2 : alookup ps γ = some p) :
    transformNode m_obj tags ps node = do
      let gargs ← node.args.mapM (gatherArg p.environment)
      let gkwargs ← node.kwargs.mapM
        (fun kv => do return (kv.1, ← gatherArg p.environment kv.2))
      let tp ← resolveTargetStep m_obj node p
      let newNode : Node :=
        { name := node.name, op := node.op, target := tp.1, args := gargs, kwargs := gkwargs }
      let p' := { tp.2 with
        graph := { tp.2.graph with nodes := tp.2.graph.nodes ++ [newNode] }
        environment := aset tp.2.environment node.name node.name }
      return aset ps γ p' := by
  unfold transformNode
  simp only [h1]
  simp only [h2]

/-- Gathering an argument whose reference is bound to itself keeps it
unchanged. -/
theorem gatherArg_id (env : List (String × String)) (a : Arg)
    (h : ∀ d, a = Arg.ref d → alookup env d = some d) : gatherArg env a = .ok a := by
  cases a with
  | lit k => rfl
  | ref d =>
    unfold gatherArg
    simp only [h d rfl]

/-- One keyword entry of the cloning loop, when its reference gathers to
itself. -/
theorem kw_step_ok (env : List (String × String)) (kv : String × Arg)
    (h : gatherArg env kv.2 = .ok kv.2) :
    (do return (kv.1, ← gatherArg env kv.2)) = (.ok kv : Except SplitErr (String × Arg)) := by
  show (gatherArg env kv.2 >>= fun x => pure (kv.1, x)) = .ok kv
  rw [h]
  rfl

/-- Appending a node that is not a member of partition γ does not change
which names the invariant's environment condition accepts. -/
theorem TI_cond_snoc (g : Graph) (cb : Node → Int) (hwf : WF g)
    (γ : String) (P0 : Partition)
    (hP : alookup (discover g cb []).partitions γ = some P0)
    (n : Node) (pre : List Node) (hgrpn : grp g cb n.name ≠ some γ) (v : String) :
    (v ∈ P0.inputs ∨ (v ∈ P0.node_names ∧ v ∈ (pre ++ [n]).map Node.name)) ↔
      (v ∈ P0.inputs ∨ (v ∈ P0.node_names ∧ v ∈ pre.map Node.name)) := by
  constructor
  · rintro (h | ⟨hm, hv⟩)
    · exact Or.inl h
    · rw [List.map_append, List.mem_append] at hv
      rcases hv with hv | hv
      · exact Or.inr ⟨hm, hv⟩
      · simp only [List.map_cons, List.map_nil, List.mem_singleton] at hv
        subst hv
        exact absurd ((mem_node_names_iff_grp g cb hwf γ P0 hP n.name).mp hm) hgrpn
  · rintro (h | ⟨hm, hv⟩)
    · exact Or.inl h
    · exact Or.inr ⟨hm, by rw [List.map_append, List.mem_append]; exact Or.inl hv⟩

/-- Updating the member's partition with its clone preserves the cloning
invariant, extending the processed prefix. -/
theorem TI_update (g : Graph) (cb : Node → Int) (hwf : WF g)
    (pre : List Node) (n : Node) (γn : String)
    (hgrpn : grp g cb n.name = some γn)
    (ps : PartMap) (hti : TI g cb pre ps)
    (P0n : Partition) (hP0n : alookup (discover g cb []).partitions γn = some P0n)
    (p pT : Partition) (hp : alookup ps γn = some p)
    (hTm : pT.node_names = p.node_names) (hTi : pT.inputs = p.inputs)
    (hTo : pT.outputs = p.outputs) (hTg : pT.graph.nodes = p.graph.nodes)
    (hTe : pT.environment = p.environment) (nd : Node) :
    TI g cb (pre ++ [n])
      (aset ps γn { pT with
        graph := { pT.graph with nodes := pT.graph.nodes ++ [nd] }
        environment := aset pT.environment n.name n.name }) := by
  intro γ P0 hP
  obtain ⟨p', hp', hm', hi', ho', ⟨more', hg'⟩, henv'⟩ := hti γ P0 hP
  by_cases hγ : γ = γn
  · subst hγ
    rw [hp] at hp'
    injection hp' with hpp
    subst hpp
    refine ⟨_, by rw [alookup_aset, if_pos rfl], ?_, ?_, ?_, ?_, ?_⟩
    · show pT.node_names = P0.node_names
      rw [hTm]; exact hm'
    · show pT.inputs = P0.inputs
      rw [hTi]; exact hi'
    · show pT.outputs = P0.outputs
      rw [hTo]; exact ho'
    · refine ⟨more' ++ [nd], ?_⟩
      show pT.graph.nodes ++ [nd] = P0.inputs.map mkPlaceholder ++ (more' ++ [nd])
      rw [hTg, hg', List.append_assoc]
    · intro v
      show alookup (aset pT.environment n.name n.name) v = _
      rw [alookup_aset]
      by_cases hv : v = n.name
      · subst hv
        rw [if_pos rfl, if_pos (Or.inr
          ⟨(mem_node_names_iff_grp g cb hwf γ P0 hP n.name).mpr hgrpn,
            by rw [List.map_append, List.mem_append]; right; simp⟩)]
      · rw [if_neg hv, hTe, henv' v]
        refine if_congr ?_ rfl rfl
        constructor
        · rintro (h | ⟨hm, hvp⟩)
          · exact Or.inl h
          · exact Or.inr ⟨hm, by rw [List.map_append, List.mem_append]; exact Or.inl hvp⟩
        · rintro (h | ⟨hm, hvp⟩)
          · exact Or.inl h
          · rw [List.map_append, List.mem_append] at hvp
            rcases hvp with hvp | hvp
            · exact Or.inr ⟨hm, hvp⟩
            · simp only [List.map_cons, List.map_nil, List.mem_singleton] at hvp
              exact absurd hvp hv
  · refine ⟨p', by rw [alookup_aset, if_neg hγ]; exact hp', hm', hi', ho', ⟨more', hg'⟩, ?_⟩
    intro v
    rw [henv' v]
    refine if_congr ?_ rfl rfl
    exact (TI_cond_snoc g cb hwf γ P0 hP n pre
      (by rw [hgrpn]; intro hc; exact hγ (Option.some_inj.mp hc).symm) v).symm

/-- One step of the cloning loop: either the node is a call to a
sub-module whose dotted path does not resolve — the step raises exactly
the unresolved-target error — or the step succeeds and preserves the
invariant. -/
theorem transform_step (g : Graph) (cb : Node → Int) (m_obj : Obj) (hwf : WF g)
    (pre : List Node) (n : Node) (hn : n ∈ g.nodes)
    (hrefs : ∀ v ∈ nodeRefs n, v ∈ pre.map Node.name)
    (ps : PartMap) (hti : TI g cb pre ps) :
    (n.op = Op.call_module ∧ resolvePath m_obj (n.target.splitOn ".") = none ∧
      transformNode m_obj (discover g cb []).tags ps n =
        .error (.unresolvedTarget n.target)) ∨
    (∃ ps', transformNode m_obj (discover g cb []).tags ps n = .ok ps' ∧
      TI g cb (pre ++ [n]) ps') := by
  have htag : alookup (discover g cb []).tags n.name = grp g cb n.name :=
    discover_tags g cb hwf n.name
  by_cases he : n.op = Op.placeholder ∨ n.op = Op.get_attr
  · right
    have hgrp : grp g cb n.name = none := by
      rw [grp_of_mem cb hwf hn, if_pos he]
    have hstep : transformNode m_obj (discover g cb []).tags ps n = .ok ps := by
      unfold transformNode
      rw [htag, hgrp]
    refine ⟨ps, hstep, ?_⟩
    intro γ P0 hP
    obtain ⟨p, hp, hm, hi, ho, hg, henv⟩ := hti γ P0 hP
    refine ⟨p, hp, hm, hi, ho, hg, ?_⟩
    intro v
    rw [henv v]
    refine if_congr ?_ rfl rfl
    exact (TI_cond_snoc g cb hwf γ P0 hP n pre (by rw [hgrp]; intro hc; cases hc) v).symm
  · have hE : Eligible n := he
    have hgrp : grp g cb n.name = some (toString (cb n)) := by
      rw [grp_of_mem cb hwf hn, if_neg he]
    have hkey : (alookup (discover g cb []).partitions (toString (cb n))).isSome := by
      rw [alookup_isSome_iff_mem]
      exact ((discover_char g cb hwf).key_iff (toString (cb n))).mpr ⟨n, hn, hE, rfl⟩
    obtain ⟨P0n, hP0n⟩ := Option.isSome_iff_exists.mp hkey
    obtain ⟨p, hp, hm, hi, ho, ⟨more, hg⟩, henv⟩ := hti (toString (cb n)) P0n hP0n
    have hlooked : ∀ d ∈ nodeRefs n, alookup p.environment d = some d := by
      intro d hd
      have hdpre := hrefs d hd
      rw [henv d]
      rw [if_pos ?_]
      by_cases hgd : grp g cb d = some (toString (cb n))
      · exact Or.inr ⟨(mem_node_names_iff_grp g cb hwf _ P0n hP0n d).mpr hgd, hdpre⟩
      · left
        rw [(discover_char g cb hwf).in_iff _ P0n hP0n d]
        exact ⟨hgd, n, hn, hE, hd, rfl⟩
    have hargs : ∀ a ∈ n.args, gatherArg p.environment a = .ok a := by
      intro a ha
      refine gatherArg_id _ _ ?_
      rintro d rfl
      exact hlooked d (ref_mem_nodeRefs_args n d ha)
    have hkw : ∀ kv ∈ n.kwargs,
        (do return (kv.1, ← gatherArg p.environment kv.2)) =
          (.ok kv : Except SplitErr (String × Arg)) := by
      intro kv hkv
      refine kw_step_ok _ _ (gatherArg_id _ _ ?_)
      intro d hd
      exact hlooked d (ref_mem_nodeRefs_kwargs n d kv hkv hd)
    have hmapA : n.args.mapM (gatherArg p.environment) = .ok n.args := by
      have := exMapM_ok_of_forall (gatherArg p.environment) id n.args
        (fun a ha => hargs a ha)
      rw [List.map_id] at this
      exact this
    have hmapK : n.kwargs.mapM
        (fun kv => do return (kv.1, ← gatherArg p.environment kv.2)) = .ok n.kwargs := by
      have := exMapM_ok_of_forall
        (fun kv => do return (kv.1, ← gatherArg p.environment kv.2)) id n.kwargs
        (fun kv hkv => hkw kv hkv)
      rw [List.map_id] at this
      exact this
    rcases (eligible_op n).mp hE with hop | hop
    · right
      have hres : resolveTargetStep m_obj n p = .ok (n.target, p) := by
        unfold resolveTargetStep
        rw [if_neg (by rw [hop]; rintro (hc | hc) <;> exact Op.noConfusion hc)]
      refine ⟨_, ?_, TI_update g cb hwf pre n (toString (cb n)) hgrp ps hti P0n hP0n
        p p hp rfl rfl rfl rfl rfl
        { name := n.name, op := n.op, target := n.target, args := n.args, kwargs := n.kwargs }⟩
      rw [transformNode_eq m_obj _ ps n (toString (cb n)) p (htag.trans hgrp) hp,
        hmapA, hmapK, hres]
      rfl
    · cases hresp : resolvePath m_obj (n.target.splitOn ".") with
      | none =>
        left
        refine ⟨hop, rfl, ?_⟩
        have hres : resolveTargetStep m_obj n p = .error (.unresolvedTarget n.target) := by
          unfold resolveTargetStep
          rw [if_pos (Or.inl hop), hresp]
        rw [transformNode_eq m_obj _ ps n (toString (cb n)) p (htag.trans hgrp) hp,
          hmapA, hmapK, hres]
        rfl
      | some o =>
        right
        have hres : resolveTargetStep m_obj n p =
            .ok ((n.target.splitOn ".").getLastD "",
              { p with targets := aset p.targets n.target o }) := by
          unfold resolveTargetStep
          rw [if_pos (Or.inl hop), hresp]
        refine ⟨_, ?_, TI_update g cb hwf pre n (toString (cb n)) hgrp ps hti P0n hP0n
          p { p with targets := aset p.targets n.target o } hp rfl rfl rfl rfl rfl
          { name := n.name, op := n.op, target := (n.target.splitOn ".").getLastD "",
            args := n.args, kwargs := n.kwargs }⟩
        rw [transformNode_eq m_obj _ ps n (toString (cb n)) p (htag.trans hgrp) hp,
          hmapA, hmapK, hres]
        rfl

/-- The node-cloning loop: either some call-module node's dotted path
fails to resolve and the loop raises exactly that unresolved-target
error, or the loop succeeds with the invariant at the full graph. -/
theorem transform_fold (g : Graph) (cb : Node → Int) (m_obj : Obj) (hwf : WF g) :
    ∀ (rest pre : List Node) (ps : PartMap),
      (∀ x ∈ rest, x ∈ g.nodes) → WFnodes (pre.map Node.name) rest → TI g cb pre ps →
      (∃ n ∈ g.nodes, n.op = Op.call_module ∧
          resolvePath m_obj (n.target.splitOn ".") = none ∧
          rest.foldlM (transformNode m_obj (discover g cb []).tags) ps =
            .error (.unresolvedTarget n.target)) ∨
      (∃ psT, rest.foldlM (transformNode m_obj (discover g cb []).tags) ps = .ok psT ∧
        TI g cb (pre ++ rest) psT) := by
  intro rest
  induction rest with
  | nil =>
    intro pre ps _ _ hti
    right
    refine ⟨ps, rfl, ?_⟩
    rw [List.append_nil]
    exact hti
  | cons n rest' ih =>
    intro pre ps hsub hwfrest hti
    obtain ⟨hn1, hn2, _, hn4⟩ := hwfrest
    have hn : n ∈ g.nodes := hsub n (List.mem_cons_self _ _)
    rcases transform_step g cb m_obj hwf pre n hn hn2 ps hti with
      ⟨hop, hrp, herr⟩ | ⟨ps', hstep, hti'⟩
    · exact Or.inl ⟨n, hn, hop, hrp, exFoldlM_error_head _ n rest' ps _ herr⟩
    · have hsub' : ∀ x ∈ rest', x ∈ g.nodes :=
        fun x hx => hsub x (List.mem_cons_of_mem _ hx)
      have hwfrest' : WFnodes ((pre ++ [n]).map Node.name) rest' := by
        simpa [List.append_assoc] using hn4
      rcases ih (pre ++ [n]) ps' hsub' hwfrest' hti' with
        ⟨n', hn', hop', hrp', herr'⟩ | ⟨psT, hfold, htiT⟩
      · exact Or.inl ⟨n', hn', hop', hrp',
          by rw [exFoldlM_ok_head _ n rest' ps ps' hstep]; exact herr'⟩
      · refine Or.inr ⟨psT,
          by rw [exFoldlM_ok_head _ n rest' ps ps' hstep]; exact hfold, ?_⟩
        have heq : (pre ++ [n]) ++ rest' = pre ++ n :: rest' := by simp
        rw [heq] at htiT
        exact htiT

/-- Re-declaring an ineligible node extends the identity base
environment. -/
theorem baseEnv_cond_snoc (pre : List Node) (n : Node) (hni : ¬Eligible n)
    (env : List (String × String))
    (h : ∀ v, alookup env v =
      if ∃ m ∈ pre, ¬Eligible m ∧ m.name = v then some v else none) :
    ∀ v, alookup (aset env n.name n.name) v =
      if ∃ m ∈ pre ++ [n], ¬Eligible m ∧ m.name = v then some v else none := by
  intro v
  rw [alookup_aset]
  by_cases hv : v = n.name
  · subst hv
    rw [if_pos rfl, if_pos ⟨n, by simp, hni, rfl⟩]
  · rw [if_neg hv, h v]
    refine if_congr ?_ rfl rfl
    constructor
    · rintro ⟨m, hm, hme, hmn⟩
      exact ⟨m, by simp [hm], hme, hmn⟩
    · rintro ⟨m, hm, hme, hmn⟩
      rw [List.mem_append] at hm
      rcases hm with hm | hm
      · exact ⟨m, hm, hme, hmn⟩
      · rw [List.mem_singleton] at hm
        subst hm
        exact absurd hmn.symm hv

/-- Skipping an eligible node leaves the identity base environment's
description unchanged. -/
theorem baseEnv_cond_snoc_elig (pre : List Node) (n : Node) (hE : Eligible n)
    (env : List (String × String))
    (h : ∀ v, alookup env v =
      if ∃ m ∈ pre, ¬Eligible m ∧ m.name = v then some v else none) :
    ∀ v, alookup env v =
      if ∃ m ∈ pre ++ [n], ¬Eligible m ∧ m.name = v then some v else none := by
  intro v
  rw [h v]
  refine if_congr ?_ rfl rfl
  constructor
  · rintro ⟨m, hm, hme, hmn⟩
    exact ⟨m, by simp [hm], hme, hmn⟩
  · rintro ⟨m, hm, hme, hmn⟩
    rw [List.mem_append] at hm
    rcases hm with hm | hm
    · exact ⟨m, hm, hme, hmn⟩
    · rw [List.mem_singleton] at hm
      subst hm
      exact absurd hE hme

/-- The base-environment setup loop: either some attribute-reference
node's dotted path fails to resolve and the loop raises exactly that
unresolved-target error, or it succeeds and the base environment is the
identity on the ineligible nodes' names. -/
theorem base_fold (m_obj : Obj) :
    ∀ (rest pre : List Node) (st : BaseSt),
      (∀ v, alookup st.env v =
        if ∃ m ∈ pre, ¬Eligible m ∧ m.name = v then some v else none) →
      (∃ n ∈ rest, n.op = Op.get_attr ∧
          resolvePath m_obj (n.target.splitOn ".") = none ∧
          rest.foldlM (baseSetupStep m_obj) st = .error (.unresolvedTarget n.target)) ∨
      (∃ bst, rest.foldlM (baseSetupStep m_obj) st = .ok bst ∧
        ∀ v, alookup bst.env v =
          if ∃ m ∈ pre ++ rest, ¬Eligible m ∧ m.name = v then some v else none) := by
  intro rest
  induction rest with
  | nil =>
    intro pre st henv
    right
    refine ⟨st, rfl, ?_⟩
    intro v
    rw [henv v]
    refine if_congr ?_ rfl rfl
    rw [List.append_nil]
  | cons n rest' ih =>
    intro pre st henv
    by_cases hph : n.op = Op.placeholder
    · have hstep : baseSetupStep m_obj st n = .ok { st with
          env := aset st.env n.name n.name
          graph := { st.graph with nodes := st.graph.nodes ++ [mkPlaceholder n.name] } } := by
        unfold baseSetupStep
        rw [if_pos hph]
      have henv' := baseEnv_cond_snoc pre n (fun hE => hE (Or.inl hph)) st.env henv
      rcases ih (pre ++ [n]) { st with
          env := aset st.env n.name n.name
          graph := { st.graph with nodes := st.graph.nodes ++ [mkPlaceholder n.name] } }
        henv' with ⟨n', hn', hop', hrp', herr'⟩ | ⟨bst, hfold, hbenv⟩
      · exact Or.inl ⟨n', List.mem_cons_of_mem _ hn', hop', hrp',
          by rw [exFoldlM_ok_head _ n rest' st _ hstep]; exact herr'⟩
      · refine Or.inr ⟨bst, by rw [exFoldlM_ok_head _ n rest' st _ hstep]; exact hfold, ?_⟩
        intro v
        rw [hbenv v]
        refine if_congr ?_ rfl rfl
        rw [List.append_assoc, List.singleton_append]
    · by_cases hga : n.op = Op.get_attr
      · cases hrp : resolvePath m_obj (n.target.splitOn ".") with
        | none =>
          left
          have hstep : baseSetupStep m_obj st n = .error (.unresolvedTarget n.target) := by
            unfold baseSetupStep
            rw [if_neg hph, if_pos hga]
            simp only [hrp]
          exact ⟨n, List.mem_cons_self _ _, hga, hrp,
            exFoldlM_error_head _ n rest' st _ hstep⟩
        | some o =>
          have hstep : baseSetupStep m_obj st n = .ok
              { env := aset st.env n.name n.name
                graph := { st.graph with nodes := st.graph.nodes ++
                  [{ name := n.name, op := Op.get_attr, target := n.target,
                     args := [], kwargs := [] }] }
                attrs := aset st.attrs n.target (.obj o) } := by
            unfold baseSetupStep
            rw [if_neg hph, if_pos hga]
            simp only [hrp]
          have henv' := baseEnv_cond_snoc pre n (fun hE => hE (Or.inr hga)) st.env henv
          rcases ih (pre ++ [n])
            { env := aset st.env n.name n.name,
              graph := { st.graph with nodes := st.graph.nodes ++
                [{ name := n.name, op := Op.get_attr, target := n.target,
                   args := [], kwargs := [] }] },
              attrs := aset st.attrs n.target (.obj o) }
            henv' with ⟨n', hn', hop', hrp', herr'⟩ | ⟨bst, hfold, hbenv⟩
          · exact Or.inl ⟨n', List.mem_cons_of_mem _ hn', hop', hrp',
              by rw [exFoldlM_ok_head _ n rest' st _ hstep]; exact herr'⟩
          · refine Or.inr ⟨bst, by rw [exFoldlM_ok_head _ n rest' st _ hstep]; exact hfold, ?_⟩
            intro v
            rw [hbenv v]
            refine if_congr ?_ rfl rfl
            rw [List.append_assoc, List.singleton_append]
      · have hstep : baseSetupStep m_obj st n = .ok st := by
          unfold baseSetupStep
          rw [if_neg hph, if_neg hga]
        have hE : Eligible n := fun hc => hc.elim hph hga
        have henv' := baseEnv_cond_snoc_elig pre n hE st.env henv
        rcases ih (pre ++ [n]) st henv' with ⟨n', hn', hop', hrp', herr'⟩ | ⟨bst, hfold, hbenv⟩
        · exact Or.inl ⟨n', List.mem_cons_of_mem _ hn', hop', hrp',
            by rw [exFoldlM_ok_head _ n rest' st _ hstep]; exact herr'⟩
        · refine Or.inr ⟨bst, by rw [exFoldlM_ok_head _ n rest' st _ hstep]; exact hfold, ?_⟩
          intro v
          rw [hbenv v]
          refine if_congr ?_ rfl rfl
          rw [List.append_assoc, List.singleton_append]

theorem exbind_ok {α β : Type} (a : α) (f : α → Except SplitErr β) :
    (Except.ok a >>= f : Except SplitErr β) = f a := rfl

/-- A name carried by an ineligible node has no group. -/
theorem inelig_name_grp_none (g : Graph) (cb : Node → Int) (hwf : WF g)
    (v : String) (h : ∃ m ∈ g.nodes, ¬Eligible m ∧ m.name = v) :
    grp g cb v = none := by
  obtain ⟨m, hm, hin, rfl⟩ := h
  rw [grp_of_mem cb hwf hm, if_pos (not_not.mp hin)]

/-- Everything a partition depends on is listed before it in the
topological order. -/
theorem depo_before (g : Graph) (cb : Node → Int) (hwf : WF g)
    (hlen : (kahn (discover g cb []).partitions).2.length =
      (discover g cb []).partitions.length)
    (l1 : List String) (δ : String) (l2 : List String)
    (hsorted : (kahn (discover g cb []).partitions).2 = l1 ++ δ :: l2)
    (q : String)
    (hq : q ∈ (partGet (discover g cb []).partitions δ).partitions_dependent_on) :
    q ∈ l1 := by
  have hsound := kahn_sound _ (discover_kahnPre g cb hwf) hlen
  have hk : l1.length < (kahn (discover g cb []).partitions).2.length := by
    rw [hsorted, List.length_append, List.length_cons]
    omega
  have hget? : (kahn (discover g cb []).partitions).2.get? l1.length = some δ := by
    rw [hsorted, List.get?_append_right (le_refl l1.length), Nat.sub_self]
    rfl
  have hget : (kahn (discover g cb []).partitions).2.get ⟨l1.length, hk⟩ = δ := by
    have := List.get?_eq_get hk
    rw [hget?] at this
    exact (Option.some_inj.mp this).symm
  have horder := hsound.2.2 l1.length hk
  rw [hget] at horder
  have := horder q hq
  rw [hsorted, List.take_left] at this
  exact this

/-- The indexed-accessor emission fold: appends one `getitem` node per
output and binds each output name to its accessor's name. -/
theorem enumFold_spec (pname : String) :
    ∀ (l : List String) (k : Nat) (acc : Graph × List (String × String)),
      (∃ suffix, ((List.enumFrom k l).foldl
        (fun (acc : Graph × List (String × String)) oi =>
          ({ acc.1 with nodes := acc.1.nodes ++
              [{ name := getitemName pname oi.1, op := Op.call_function,
                 target := "getitem",
                 args := [Arg.ref (callNodeName pname), Arg.lit oi.1], kwargs := [] }] },
           aset acc.2 oi.2 (getitemName pname oi.1))) acc).1.nodes =
        acc.1.nodes ++ suffix) ∧
      (∀ i o, l.get? i = some o →
        ({ name := getitemName pname (k + i), op := Op.call_function,
           target := "getitem",
           args := [Arg.ref (callNodeName pname), Arg.lit (k + i)],
           kwargs := [] } : Node) ∈ ((List.enumFrom k l).foldl
          (fun (acc : Graph × List (String × String)) oi =>
            ({ acc.1 with nodes := acc.1.nodes ++
                [{ name := getitemName pname oi.1, op := Op.call_function,
                   target := "getitem",
                   args := [Arg.ref (callNodeName pname), Arg.lit oi.1], kwargs := [] }] },
             aset acc.2 oi.2 (getitemName pname oi.1))) acc).1.nodes) ∧
      (∀ v, v ∉ l → alookup ((List.enumFrom k l).foldl
          (fun (acc : Graph × List (String × String)) oi =>
            ({ acc.1 with nodes := acc.1.nodes ++
                [{ name := getitemName pname oi.1, op := Op.call_function,
                   target := "getitem",
                   args := [Arg.ref (callNodeName pname), Arg.lit oi.1], kwargs := [] }] },
             aset acc.2 oi.2 (getitemName pname oi.1))) acc).2 v = alookup acc.2 v) ∧
      (l.Nodup → ∀ i o, l.get? i = some o →
        alookup ((List.enumFrom k l).foldl
          (fun (acc : Graph × List (String × String)) oi =>
            ({ acc.1 with nodes := acc.1.nodes ++
                [{ name := getitemName pname oi.1, op := Op.call_function,
                   target := "getitem",
                   args := [Arg.ref (callNodeName pname), Arg.lit oi.1], kwargs := [] }] },
             aset acc.2 oi.2 (getitemName pname oi.1))) acc).2 o =
          some (getitemName pname (k + i))) := by
  intro l
  induction l with
  | nil =>
    intro k acc
    refine ⟨⟨[], by simp⟩, ?_, ?_, ?_⟩
    · intro i o h; cases h
    · intro v _; rfl
    · intro _ i o h; cases h
  | cons o0 rest ih =>
    intro k acc
    have hstep : List.enumFrom k (o0 :: rest) = (k, o0) :: List.enumFrom (k + 1) rest := rfl
    rw [hstep]
    simp only [List.foldl_cons]
    obtain ⟨⟨suffix, hsuf⟩, hmem, hpres, hbind⟩ := ih (k + 1)
      ({ acc.1 with nodes := acc.1.nodes ++
          [{ name := getitemName pname k, op := Op.call_function,
             target := "getitem",
             args := [Arg.ref (callNodeName pname), Arg.lit k], kwargs := [] }] },
       aset acc.2 o0 (getitemName pname k))
    refine ⟨?_, ?_, ?_, ?_⟩
    · exact ⟨({ name := getitemName pname k, op := Op.call_function, target := "getitem", args := [Arg.ref (callNodeName pname), Arg.lit k], kwargs := [] } : Node) :: suffix, by rw [hsuf]; simp⟩
    · intro i o h
      cases i with
      | zero =>
        injection h with h
        subst h
        rw [hsuf]
        rw [Nat.add_zero]
        exact List.mem_append_left _ (List.mem_append_right _ (List.mem_singleton_self _))
      | succ i' =>
        have := hmem i' o h
        have harith : k + 1 + i' = k + (i' + 1) := by omega
        rw [harith] at this
        exact this
    · intro v hv
      rw [List.mem_cons] at hv
      push_neg at hv
      rw [hpres v hv.2, alookup_aset, if_neg hv.1]
    · intro hnd i o h
      have hnd' := List.nodup_cons.mp hnd
      cases i with
      | zero =>
        injection h with h
        subst h
        rw [hpres o0 hnd'.1, alookup_aset, if_pos rfl, Nat.add_zero]
      | succ i' =>
        have := hbind hnd'.2 i' o h
        have harith : k + 1 + i' = k + (i' + 1) := by omega
        rw [harith] at this
        exact this

theorem partGet_eq_of_alookup {ps : PartMap} {γ : String} {P : Partition}
    (h : alookup ps γ = some P) : partGet ps γ = P := by
  unfold partGet
  rw [h]
  rfl

/-- An output name of a discovered partition is a member of it and is a
node name of the graph. -/
theorem output_facts (g : Graph) (cb : Node → Int) (hwf : WF g)
    (δ : String) (P0δ : Partition)
    (hPδ : alookup (discover g cb []).partitions δ = some P0δ)
    (o : String) (ho : o ∈ P0δ.outputs) :
    grp g cb o = some δ ∧ o ∈ P0δ.node_names := by
  have hout := ((discover_char g cb hwf).out_iff δ P0δ hPδ o).mp ho
  have hgrp : grp g cb o = some δ := by
    rcases hout with ⟨hg, _⟩ | ⟨hg, _⟩ <;> exact hg
  exact ⟨hgrp, (mem_node_names_iff_grp g cb hwf δ P0δ hPδ o).mpr hgrp⟩

/-- A name with a group is a node name of the graph. -/
theorem grp_some_name_mem (g : Graph) (cb : Node → Int) (hwf : WF g)
    (o δ : String) (h : grp g cb o = some δ) : o ∈ g.nodes.map Node.name := by
  obtain ⟨m, hm, hname, _, _⟩ := (grp_eq_some_iff cb hwf o δ).mp h
  exact hname ▸ List.mem_map_of_mem Node.name hm

/-- The invariant of the emission loop: the cloning invariant persists
on the partition map, the base environment is the identity on ineligible
names, and every already-emitted partition has its call node, accessor
nodes and output bindings in place. -/
def EI (g : Graph) (cb : Node → Int) (done : List String)
    (st : BaseSt × PartMap) : Prop :=
  TI g cb g.nodes st.2 ∧
  (∀ v, (∃ n ∈ g.nodes, ¬Eligible n ∧ n.name = v) → alookup st.1.env v = some v) ∧
  (∀ γ ∈ done, ∀ P0, alookup (discover g cb []).partitions γ = some P0 →
    (P0.outputs.length > 1 →
      ∀ i o, P0.outputs.get? i = some o →
        alookup st.1.env o = some (getitemName γ i) ∧
        ∃ gi, gi ∈ st.1.graph.nodes ∧ gi.name = getitemName γ i ∧
          gi.op = Op.call_function ∧ gi.target = "getitem" ∧
          gi.args = [Arg.ref (callNodeName γ), Arg.lit i]) ∧
    (∀ o, P0.outputs = [o] → alookup st.1.env o = some (callNodeName γ)) ∧
    (∃ callN, callN ∈ st.1.graph.nodes ∧ callN.name = callNodeName γ ∧
      callN.op = Op.call_module ∧ callN.target = "submod_" ++ γ ∧
      callN.args.length = P0.inputs.length ∧
      ∀ i nm, P0.inputs.get? i = some nm →
        ∃ v, alookup st.1.env nm = some v ∧ callN.args.get? i = some (Arg.ref v)))

/-- A declared input of a partition whose dependencies are all emitted
is bound in the base environment. -/
theorem input_binding (g : Graph) (cb : Node → Int) (hwf : WF g)
    (done : List String) (st : BaseSt × PartMap) (hei : EI g cb done st)
    (θ : String) (P0θ : Partition)
    (hPθ : alookup (discover g cb []).partitions θ = some P0θ)
    (hdeps : ∀ q, q ∈ P0θ.partitions_dependent_on → q ∈ done)
    (nm : String) (hnm : nm ∈ P0θ.inputs) :
    ∃ v, alookup st.1.env nm = some v := by
  have hin := ((discover_char g cb hwf).in_iff θ P0θ hPθ nm).mp hnm
  obtain ⟨hne, u, hu, huE, href, hcbu⟩ := hin
  have hname : nm ∈ g.nodes.map Node.name := by
    rcases wfnodes_refs_subset g.nodes [] hwf.1 u hu nm href with hc | hc
    · cases hc
    · exact hc
  obtain ⟨m, hm, hmname⟩ := List.mem_map.mp hname
  by_cases hEm : Eligible m
  · have hgd : grp g cb nm = some (toString (cb m)) := by
      rw [← hmname, grp_of_mem cb hwf hm, if_neg hEm]
    have hδne : toString (cb m) ≠ θ := fun hc => hne (by rw [hgd, hc])
    have hdepo : DepoP g cb g.nodes θ (toString (cb m)) :=
      ⟨hδne, u, hu, huE, hcbu, nm, href, hgd⟩
    have hδdeps : toString (cb m) ∈ P0θ.partitions_dependent_on :=
      ((discover_char g cb hwf).depo_iff θ P0θ hPθ (toString (cb m))).mpr hdepo
    have hδdone : toString (cb m) ∈ done := hdeps _ hδdeps
    have hkeyδ : (alookup (discover g cb []).partitions (toString (cb m))).isSome := by
      rw [alookup_isSome_iff_mem]
      obtain ⟨m', hm', _, hE', hc'⟩ := (grp_eq_some_iff cb hwf nm _).mp hgd
      exact ((discover_char g cb hwf).key_iff _).mpr ⟨m', hm', hE', hc'⟩
    obtain ⟨P0δ, hPδ⟩ := Option.isSome_iff_exists.mp hkeyδ
    have hcross : OutFin g cb (toString (cb m)) nm :=
      Or.inl ⟨hgd, u, hu, huE, href, by rw [hcbu]; exact fun hc => hδne hc.symm⟩
    have hout : nm ∈ P0δ.outputs :=
      ((discover_char g cb hwf).out_iff _ P0δ hPδ nm).mpr hcross
    obtain ⟨hgt, hone, _⟩ := hei.2.2 _ hδdone P0δ hPδ
    cases houts : P0δ.outputs with
    | nil => rw [houts] at hout; cases hout
    | cons o1 outs =>
      cases outs with
      | nil =>
        have : nm = o1 := by
          rw [houts] at hout
          rcases List.mem_cons.mp hout with h | h
          · exact h
          · cases h
        subst this
        exact ⟨callNodeName (toString (cb m)), hone nm houts⟩
      | cons o2 outs' =>
        have hlen2 : P0δ.outputs.length > 1 := by rw [houts]; simp
        obtain ⟨i, hi⟩ := List.mem_iff_get.mp hout
        have hget? : P0δ.outputs.get? i.1 = some nm := by
          rw [List.get?_eq_get i.2, hi]
        exact ⟨getitemName (toString (cb m)) i.1, (hgt hlen2 i.1 nm hget?).1⟩
  · have hinel : ∃ n ∈ g.nodes, ¬Eligible n ∧ n.name = nm := ⟨m, hm, hEm, hmname⟩
    exact ⟨nm, hei.2.1 nm hinel⟩

/-- A declared input of a partition placed no later than the partition
now being emitted is not among the latter's outputs. -/
theorem input_not_in_outputs (g : Graph) (cb : Node → Int) (hwf : WF g)
    (done : List String) (γcur : String)
    (hγdone : γcur ∉ done)
    (θ : String) (P0θ : Partition)
    (hPθ : alookup (discover g cb []).partitions θ = some P0θ)
    (hdeps : ∀ q, q ∈ P0θ.partitions_dependent_on → q ∈ done)
    (nm : String) (hnm : nm ∈ P0θ.inputs)
    (P0 : Partition) (hP : alookup (discover g cb []).partitions γcur = some P0) :
    nm ∉ P0.outputs := by
  intro hmem
  have hgout : grp g cb nm = some γcur := (output_facts g cb hwf γcur P0 hP nm hmem).1
  have hin := ((discover_char g cb hwf).in_iff θ P0θ hPθ nm).mp hnm
  obtain ⟨hne, u, hu, huE, href, hcbu⟩ := hin
  have hγθ : γcur ≠ θ := fun hc => hne (by rw [hgout, hc])
  have hdepo : DepoP g cb g.nodes θ γcur := ⟨hγθ, u, hu, huE, hcbu, nm, href, hgout⟩
  have : γcur ∈ P0θ.partitions_dependent_on :=
    ((discover_char g cb hwf).depo_iff θ P0θ hPθ γcur).mpr hdepo
  exact hγdone (hdeps _ this)

/-- Extending the emission invariant by one emitted partition: it
suffices that the partition map keeps the cloning invariant, that the
new base state only appends graph nodes, only rebinds the emitted
partition's output names, and carries the new partition's call node,
accessors and bindings. -/
theorem EI_snoc (g : Graph) (cb : Node → Int) (hwf : WF g)
    (hlen : (kahn (discover g cb []).partitions).2.length =
      (discover g cb []).partitions.length)
    (done : List String) (γ : String) (rest' : List String)
    (hsorted : (kahn (discover g cb []).partitions).2 = done ++ γ :: rest')
    (st : BaseSt × PartMap) (hei : EI g cb done st)
    (P0 : Partition) (hP : alookup (discover g cb []).partitions γ = some P0)
    (newSt : BaseSt × PartMap)
    (hTI' : TI g cb g.nodes newSt.2)
    (hpres : ∀ v, v ∉ P0.outputs → alookup newSt.1.env v = alookup st.1.env v)
    (hnodes : ∃ suffix, newSt.1.graph.nodes = st.1.graph.nodes ++ suffix)
    (hnew :
      (P0.outputs.length > 1 →
        ∀ i o, P0.outputs.get? i = some o →
          alookup newSt.1.env o = some (getitemName γ i) ∧
          ∃ gi, gi ∈ newSt.1.graph.nodes ∧ gi.name = getitemName γ i ∧
            gi.op = Op.call_function ∧ gi.target = "getitem" ∧
            gi.args = [Arg.ref (callNodeName γ), Arg.lit i]) ∧
      (∀ o, P0.outputs = [o] → alookup newSt.1.env o = some (callNodeName γ)) ∧
      (∃ callN, callN ∈ newSt.1.graph.nodes ∧ callN.name = callNodeName γ ∧
        callN.op = Op.call_module ∧ callN.target = "submod_" ++ γ ∧
        callN.args.length = P0.inputs.length ∧
        ∀ i nm, P0.inputs.get? i = some nm →
          ∃ v, alookup newSt.1.env nm = some v ∧ callN.args.get? i = some (Arg.ref v))) :
    EI g cb (done ++ [γ]) newSt := by
  obtain ⟨suffix, hsuffix⟩ := hnodes
  have hγdone : γ ∉ done := by
    have hnd := (kahn_sound _ (discover_kahnPre g cb hwf) hlen).1
    rw [hsorted] at hnd
    obtain ⟨_, _, hdisj⟩ := List.nodup_append.mp hnd
    intro hc
    exact hdisj hc (List.mem_cons_self _ _)
  refine ⟨hTI', ?_, ?_⟩
  · intro v hv
    have hgv : grp g cb v = none := inelig_name_grp_none g cb hwf v hv
    have hnout : v ∉ P0.outputs := by
      intro hc
      rw [(output_facts g cb hwf γ P0 hP v hc).1] at hgv
      cases hgv
    rw [hpres v hnout]
    exact hei.2.1 v hv
  · intro δ hδ P0δ hPδ
    rw [List.mem_append, List.mem_singleton] at hδ
    rcases hδ with hδ | rfl
    · -- a previously emitted partition: everything is preserved
      obtain ⟨hgt, hone, hcall⟩ := hei.2.2 δ hδ P0δ hPδ
      have hδγ : δ ≠ γ := fun hc => hγdone (hc ▸ hδ)
      have hdepsδ : ∀ q, q ∈ P0δ.partitions_dependent_on → q ∈ done := by
        obtain ⟨d1, d2, hdone⟩ := List.append_of_mem hδ
        intro q hq
        have hsorted' : (kahn (discover g cb []).partitions).2 =
            d1 ++ δ :: (d2 ++ γ :: rest') := by
          rw [hsorted, hdone]
          simp
        have := depo_before g cb hwf hlen d1 δ (d2 ++ γ :: rest') hsorted' q
          (by rw [partGet_eq_of_alookup hPδ]; exact hq)
        rw [hdone]
        exact List.mem_append_left _ this
      have houtpres : ∀ o, o ∈ P0δ.outputs → o ∉ P0.outputs := by
        intro o hc hc'
        have h1 := (output_facts g cb hwf δ P0δ hPδ o hc).1
        have h2 := (output_facts g cb hwf γ P0 hP o hc').1
        rw [h1] at h2
        exact hδγ (Option.some_inj.mp h2)
      refine ⟨?_, ?_, ?_⟩
      · intro hl i o hget
        have hom : o ∈ P0δ.outputs := List.get?_mem hget
        obtain ⟨hbind, gi, hgimem, hrest⟩ := hgt hl i o hget
        refine ⟨?_, gi, ?_, hrest⟩
        · rw [hpres o (houtpres o hom)]
          exact hbind
        · rw [hsuffix]
          exact List.mem_append_left _ hgimem
      · intro o hout
        have hom : o ∈ P0δ.outputs := by rw [hout]; exact List.mem_singleton_self o
        rw [hpres o (houtpres o hom)]
        exact hone o hout
      · obtain ⟨callN, hcm, hcn, hco, hct, hcl, hca⟩ := hcall
        refine ⟨callN, by rw [hsuffix]; exact List.mem_append_left _ hcm,
          hcn, hco, hct, hcl, ?_⟩
        intro i nm hget
        obtain ⟨v, hv, harg⟩ := hca i nm hget
        refine ⟨v, ?_, harg⟩
        have hnm : nm ∈ P0δ.inputs := List.get?_mem hget
        rw [hpres nm (input_not_in_outputs g cb hwf done γ hγdone δ P0δ hPδ
          hdepsδ nm hnm P0 hP)]
        exact hv
    · -- the newly emitted partition
      rw [hP] at hPδ
      injection hPδ with hPδ
      subst hPδ
      exact hnew

theorem expure {α : Type} (a : α) : (pure a : Except SplitErr α) = .ok a := rfl

/-- The accessor fold over `enum` (indices from zero). -/
theorem enumFold_spec0 (pname : String) (l : List String)
    (acc : Graph × List (String × String)) :
    (∃ suffix, ((l.enum).foldl
      (fun (acc : Graph × List (String × String)) oi =>
        ({ acc.1 with nodes := acc.1.nodes ++
            [{ name := getitemName pname oi.1, op := Op.call_function,
               target := "getitem",
               args := [Arg.ref (callNodeName pname), Arg.lit oi.1], kwargs := [] }] },
         aset acc.2 oi.2 (getitemName pname oi.1))) acc).1.nodes =
      acc.1.nodes ++ suffix) ∧
    (∀ i o, l.get? i = some o →
      ({ name := getitemName pname i, op := Op.call_function,
         target := "getitem",
         args := [Arg.ref (callNodeName pname), Arg.lit i],
         kwargs := [] } : Node) ∈ ((l.enum).foldl
        (fun (acc : Graph × List (String × String)) oi =>
          ({ acc.1 with nodes := acc.1.nodes ++
              [{ name := getitemName pname oi.1, op := Op.call_function,
                 target := "getitem",
                 args := [Arg.ref (callNodeName pname), Arg.lit oi.1], kwargs := [] }] },
           aset acc.2 oi.2 (getitemName pname oi.1))) acc).1.nodes) ∧
    (∀ v, v ∉ l → alookup ((l.enum).foldl
        (fun (acc : Graph × List (String × String)) oi =>
          ({ acc.1 with nodes := acc.1.nodes ++
              [{ name := getitemName pname oi.1, op := Op.call_function,
                 target := "getitem",
                 args := [Arg.ref (callNodeName pname), Arg.lit oi.1], kwargs := [] }] },
           aset acc.2 oi.2 (getitemName pname oi.1))) acc).2 v = alookup acc.2 v) ∧
    (l.Nodup → ∀ i o, l.get? i = some o →
      alookup ((l.enum).foldl
        (fun (acc : Graph × List (String × String)) oi =>
          ({ acc.1 with nodes := acc.1.nodes ++
              [{ name := getitemName pname oi.1, op := Op.call_function,
                 target := "getitem",
                 args := [Arg.ref (callNodeName pname), Arg.lit oi.1], kwargs := [] }] },
           aset acc.2 oi.2 (getitemName pname oi.1))) acc).2 o =
        some (getitemName pname i)) := by
  obtain ⟨h1, h2, h3, h4⟩ := enumFold_spec pname l 0 acc
  refine ⟨h1, ?_, h3, ?_⟩
  · intro i o h
    have := h2 i o h
    rw [Nat.zero_add] at this
    exact this
  · intro hnd i o h
    have := h4 hnd i o h
    rw [Nat.zero_add] at this
    exact this

/-- The call node emitted for a partition, feeding it the base
environment's values of its declared inputs, in order. -/
@[reducible] def emitCallNode (γ : String) (env : List (String × String))
    (inputs : List String) : Node :=
  { name := callNodeName γ, op := Op.call_module, target := "submod_" ++ γ,
    args := inputs.map (fun nm => Arg.ref ((alookup env nm).getD "")), kwargs := [] }

/-- One emission step: a partition with no outputs raises exactly the
index error; one with outputs is emitted successfully, preserving the
invariant. -/
theorem emit_step (g : Graph) (cb : Node → Int) (hwf : WF g)
    (hlen : (kahn (discover g cb []).partitions).2.length =
      (discover g cb []).partitions.length)
    (done : List String) (γ : String) (rest' : List String)
    (hsorted : (kahn (discover g cb []).partitions).2 = done ++ γ :: rest')
    (st : BaseSt × PartMap) (hei : EI g cb done st)
    (P0 : Partition) (hP : alookup (discover g cb []).partitions γ = some P0) :
    (P0.outputs = [] → emitPartition st γ = .error SplitErr.indexErr) ∧
    (P0.outputs ≠ [] →
      ∃ st', emitPartition st γ = .ok st' ∧ EI g cb (done ++ [γ]) st') := by
  have hγdone : γ ∉ done := by
    have hnd := (kahn_sound _ (discover_kahnPre g cb hwf) hlen).1
    rw [hsorted] at hnd
    obtain ⟨_, _, hdisj⟩ := List.nodup_append.mp hnd
    intro hc
    exact hdisj hc (List.mem_cons_self _ _)
  have hdepsγ : ∀ q, q ∈ P0.partitions_dependent_on → q ∈ done := by
    intro q hq
    exact depo_before g cb hwf hlen done γ rest' hsorted q
      (by rw [partGet_eq_of_alookup hP]; exact hq)
  obtain ⟨p, hp, hm, hi, ho, ⟨more, hg⟩, henv⟩ := hei.1 γ P0 hP
  have hovOk : ∀ o ∈ p.outputs,
      (match alookup p.environment o with
       | some v => Except.ok v
       | none => Except.error (SplitErr.corruptEnv o)) = Except.ok (id o) := by
    intro o hmem
    rw [ho] at hmem
    obtain ⟨hgo, hmo⟩ := output_facts g cb hwf γ P0 hP o hmem
    have honames := grp_some_name_mem g cb hwf o γ hgo
    have hslook : alookup p.environment o = some o := by
      rw [henv o, if_pos (Or.inr ⟨hmo, honames⟩)]
    rw [hslook]
    rfl
  have hmapOV : p.outputs.mapM
      (fun nm => match alookup p.environment nm with
       | some v => Except.ok v
       | none => Except.error (SplitErr.corruptEnv nm)) = Except.ok p.outputs := by
    have := exMapM_ok_of_forall _ id p.outputs hovOk
    rw [List.map_id] at this
    exact this
  have hinOk : ∀ nm ∈ p.inputs, ∃ v, alookup st.1.env nm = some v := by
    intro nm hnm
    rw [hi] at hnm
    exact input_binding g cb hwf done st hei γ P0 hP hdepsγ nm hnm
  have hoaOk : ∀ nm ∈ p.inputs,
      (match alookup st.1.env nm with
       | some v => Except.ok (Arg.ref v)
       | none => Except.error (SplitErr.corruptEnv nm)) =
        Except.ok (Arg.ref ((alookup st.1.env nm).getD "")) := by
    intro nm hnm
    obtain ⟨v, hv⟩ := hinOk nm hnm
    rw [hv]
    rfl
  have hmapOA : p.inputs.mapM
      (fun nm => match alookup st.1.env nm with
       | some v => Except.ok (Arg.ref v)
       | none => Except.error (SplitErr.corruptEnv nm)) =
        Except.ok (p.inputs.map (fun nm => Arg.ref ((alookup st.1.env nm).getD ""))) :=
    exMapM_ok_of_forall _ _ p.inputs hoaOk
  have hinout : ∀ nm ∈ P0.inputs, nm ∉ P0.outputs := by
    intro nm hnm hc
    exact (((discover_char g cb hwf).in_iff γ P0 hP nm).mp hnm).1
      (output_facts g cb hwf γ P0 hP nm hc).1
  have hTI' : TI g cb g.nodes
      (aset st.2 γ { p with graph :=
        { p.graph with result := some (ResExpr.tup p.outputs) } }) := by
    intro γ'' P0'' hP''
    by_cases hγ'' : γ'' = γ
    · subst hγ''
      rw [hP] at hP''
      injection hP'' with hP''
      subst hP''
      exact ⟨{ p with graph := { p.graph with result := some (ResExpr.tup p.outputs) } },
        by rw [alookup_aset, if_pos rfl], hm, hi, ho, ⟨more, hg⟩, henv⟩
    · obtain ⟨p'', hp'', hm'', hi'', ho'', hgr'', henv''⟩ := hei.1 γ'' P0'' hP''
      exact ⟨p'', by rw [alookup_aset, if_neg hγ'']; exact hp'', hm'', hi'', ho'',
        hgr'', henv''⟩
  constructor
  · intro hempty
    have hpo : p.outputs = [] := ho.trans hempty
    unfold emitPartition
    simp only [hp, hpo, List.mapM_nil, expure, exbind_ok, hmapOA]
    rfl
  · intro hnonempty
    have hcomp : emitPartition st γ =
        (if p.outputs.length > 1 then
          Except.ok
            (⟨(p.outputs.enum.foldl
                (fun (acc : Graph × List (String × String)) oi =>
                  ({ acc.1 with nodes := acc.1.nodes ++
                      [{ name := getitemName γ oi.1, op := Op.call_function,
                         target := "getitem",
                         args := [Arg.ref (callNodeName γ), Arg.lit oi.1], kwargs := [] }] },
                   aset acc.2 oi.2 (getitemName γ oi.1)))
                ({ st.1.graph with nodes := st.1.graph.nodes ++
                    [emitCallNode γ st.1.env p.inputs] }, st.1.env)).2,
              (p.outputs.enum.foldl
                (fun (acc : Graph × List (String × String)) oi =>
                  ({ acc.1 with nodes := acc.1.nodes ++
                      [{ name := getitemName γ oi.1, op := Op.call_function,
                         target := "getitem",
                         args := [Arg.ref (callNodeName γ), Arg.lit oi.1], kwargs := [] }] },
                   aset acc.2 oi.2 (getitemName γ oi.1)))
                ({ st.1.graph with nodes := st.1.graph.nodes ++
                    [emitCallNode γ st.1.env p.inputs] }, st.1.env)).1,
              aset st.1.attrs ("submod_" ++ γ)
                (BaseAttr.gm p.targets
                  { p.graph with result := some (ResExpr.tup p.outputs) })⟩,
             aset st.2 γ
               { p with graph := { p.graph with result := some (ResExpr.tup p.outputs) } })
        else
          match p.outputs with
          | [] => Except.error SplitErr.indexErr
          | o :: _ =>
            Except.ok
              (⟨aset st.1.env o (callNodeName γ),
                { st.1.graph with nodes := st.1.graph.nodes ++
                    [emitCallNode γ st.1.env p.inputs] },
                aset st.1.attrs ("submod_" ++ γ)
                  (BaseAttr.gm p.targets
                    { p.graph with result := some (ResExpr.tup p.outputs) })⟩,
               aset st.2 γ
                 { p with graph :=
                     { p.graph with result := some (ResExpr.tup p.outputs) } })) := by
      unfold emitPartition
      simp only [hp, hmapOV, hmapOA, exbind_ok]
      rfl
    by_cases hgt : p.outputs.length > 1
    · rw [hcomp, if_pos hgt]
      obtain ⟨⟨suffix, hsuffix⟩, h2, h3, h4⟩ := enumFold_spec0 γ p.outputs
        ({ st.1.graph with nodes := st.1.graph.nodes ++
            [emitCallNode γ st.1.env p.inputs] }, st.1.env)
      refine ⟨_, rfl, EI_snoc g cb hwf hlen done γ rest' hsorted st hei P0 hP _
        hTI' ?_ ?_ ⟨?_, ?_, ?_⟩⟩
      · intro v hv
        rw [← ho] at hv
        exact h3 v hv
      · refine ⟨[emitCallNode γ st.1.env p.inputs] ++ suffix, ?_⟩
        rw [hsuffix]
        simp
      · intro hl i o hget
        rw [← ho] at hget
        refine ⟨h4 (by rw [ho]; exact (discover_char g cb hwf).out_nd γ P0 hP) i o hget,
          _, h2 i o hget, rfl, rfl, rfl, rfl⟩
      · intro o hout
        rw [← ho] at hout
        rw [hout] at hgt
        simp at hgt
      · refine ⟨emitCallNode γ st.1.env p.inputs, ?_, rfl, rfl, rfl, ?_, ?_⟩
        · rw [hsuffix]
          exact List.mem_append_left _ (List.mem_append_right _ (List.mem_singleton_self _))
        · show (p.inputs.map (fun nm => Arg.ref ((alookup st.1.env nm).getD ""))).length =
            P0.inputs.length
          rw [List.length_map, hi]
        · intro i nm hget
          have hgetp : p.inputs.get? i = some nm := by rw [hi]; exact hget
          have hnmem : nm ∈ p.inputs := List.get?_mem hgetp
          obtain ⟨v, hv⟩ := hinOk nm hnmem
          refine ⟨v, ?_, ?_⟩
          · have hnout : nm ∉ p.outputs := by
              rw [ho]
              exact hinout nm (by rw [← hi]; exact hnmem)
            rw [h3 nm hnout]
            exact hv
          · show (p.inputs.map (fun nm => Arg.ref ((alookup st.1.env nm).getD ""))).get? i =
              some (Arg.ref v)
            rw [List.get?_map, hgetp]
            rw [Option.map_some', hv]
            rfl
    · cases hpo : p.outputs with
      | nil => exact absurd (ho.symm.trans hpo) hnonempty
      | cons o outs =>
        have houts1 : outs = [] := by
          rw [hpo] at hgt
          simp only [List.length_cons, gt_iff_lt, not_lt] at hgt
          have : outs.length = 0 := by omega
          exact List.eq_nil_of_length_eq_zero this
        subst houts1
        have hP0o : P0.outputs = [o] := ho.symm.trans hpo
        rw [hcomp, if_neg hgt, hpo]
        rw [hpo] at hTI'
        refine ⟨_, rfl, EI_snoc g cb hwf hlen done γ rest' hsorted st hei P0 hP _
          hTI' ?_ ?_ ⟨?_, ?_, ?_⟩⟩
        · intro v hv
          show alookup (aset st.1.env o (callNodeName γ)) v = alookup st.1.env v
          rw [alookup_aset, if_neg ?_]
          intro hc
          subst hc
          exact hv (by rw [hP0o]; exact List.mem_singleton_self v)
        · exact ⟨[emitCallNode γ st.1.env p.inputs], rfl⟩
        · intro hl
          rw [hP0o] at hl
          simp at hl
        · intro o' hout'
          have : o' = o := by
            rw [hP0o] at hout'
            injection hout' with h1 _
            exact h1.symm
          subst this
          show alookup (aset st.1.env o' (callNodeName γ)) o' = some (callNodeName γ)
          rw [alookup_aset, if_pos rfl]
        · refine ⟨emitCallNode γ st.1.env p.inputs, ?_, rfl, rfl, rfl, ?_, ?_⟩
          · exact List.mem_append_right _ (List.mem_singleton_self _)
          · show (p.inputs.map (fun nm => Arg.ref ((alookup st.1.env nm).getD ""))).length =
              P0.inputs.length
            rw [List.length_map, hi]
          · intro i nm hget
            have hgetp : p.inputs.get? i = some nm := by rw [hi]; exact hget
            have hnmem : nm ∈ p.inputs := List.get?_mem hgetp
            obtain ⟨v, hv⟩ := hinOk nm hnmem
            refine ⟨v, ?_, ?_⟩
            · show alookup (aset st.1.env o (callNodeName γ)) nm = some v
              rw [alookup_aset, if_neg ?_]
              · exact hv
              · intro hc
                subst hc
                exact hinout nm (by rw [← hi]; exact hnmem)
                  (by rw [hP0o]; exact List.mem_singleton_self nm)
            · show (p.inputs.map (fun nm => Arg.ref ((alookup st.1.env nm).getD ""))).get? i =
                some (Arg.ref v)
              rw [List.get?_map, hgetp, Option.map_some', hv]
              rfl

/-- A successfully cloned call-module node had a resolvable target. -/
theorem transformNode_ok_resolve (m_obj : Obj) (tags : List (String × String))
    (ps : PartMap) (n : Node) (γ : String) (p : Partition) (ps' : PartMap)
    (h1 : alookup tags n.name = some γ) (h2 : alookup ps γ = some p)
    (hok : transformNode m_obj tags ps n = .ok ps')
    (hcm : n.op = Op.call_module) :
    resolvePath m_obj (n.target.splitOn ".") ≠ none := by
  intro hnone
  rw [transformNode_eq m_obj tags ps n γ p h1 h2] at hok
  rw [exbind_ok_iff] at hok
  obtain ⟨gargs, _, hok⟩ := hok
  rw [exbind_ok_iff] at hok
  obtain ⟨gkwargs, _, hok⟩ := hok
  rw [exbind_ok_iff] at hok
  obtain ⟨tp, hres, _⟩ := hok
  unfold resolveTargetStep at hres
  rw [if_pos (Or.inl hcm), hnone] at hres
  cases hres

/-- The invariant before any partition is emitted. -/
theorem EI_start (g : Graph) (cb : Node → Int)
    (psT : PartMap) (hTI : TI g cb g.nodes psT) (bst : BaseSt)
    (hbenv : ∀ v, alookup bst.env v =
      if ∃ m ∈ g.nodes, ¬Eligible m ∧ m.name = v then some v else none) :
    EI g cb [] (bst, psT) := by
  refine ⟨hTI, ?_, ?_⟩
  · intro v hv
    rw [hbenv v, if_pos hv]
  · intro γ hγ
    cases hγ

/-- The emission loop: a partition left with no outputs makes it raise
exactly the index error; otherwise it succeeds and establishes the
invariant for everything emitted. -/
theorem emit_fold (g : Graph) (cb : Node → Int) (hwf : WF g)
    (hlen : (kahn (discover g cb []).partitions).2.length =
      (discover g cb []).partitions.length) :
    ∀ (rest done : List String) (st : BaseSt × PartMap),
      (kahn (discover g cb []).partitions).2 = done ++ rest → EI g cb done st →
      ((∃ δ ∈ rest, (partGet (discover g cb []).partitions δ).outputs = []) →
        rest.foldlM emitPartition st = .error SplitErr.indexErr) ∧
      ((∀ δ ∈ rest, (partGet (discover g cb []).partitions δ).outputs ≠ []) →
        ∃ stF, rest.foldlM emitPartition st = .ok stF ∧
          EI g cb (done ++ rest) stF) := by
  intro rest
  induction rest with
  | nil =>
    intro done st _ hei
    constructor
    · rintro ⟨δ, hδ, _⟩
      cases hδ
    · intro _
      refine ⟨st, rfl, ?_⟩
      rw [List.append_nil]
      exact hei
  | cons γ rest' ih =>
    intro done st hsorted hei
    have hγmem : γ ∈ (kahn (discover g cb []).partitions).2 := by
      rw [hsorted]; simp
    have hkey : (alookup (discover g cb []).partitions γ).isSome := by
      rw [alookup_isSome_iff_mem]
      exact ((kahn_sound _ (discover_kahnPre g cb hwf) hlen).2.1 γ).mp hγmem
    obtain ⟨P0, hP⟩ := Option.isSome_iff_exists.mp hkey
    have hpg : partGet (discover g cb []).partitions γ = P0 := partGet_eq_of_alookup hP
    obtain ⟨hstepE, hstepOk⟩ := emit_step g cb hwf hlen done γ rest' hsorted st hei P0 hP
    have hsorted' : (kahn (discover g cb []).partitions).2 = (done ++ [γ]) ++ rest' := by
      rw [hsorted]; simp
    constructor
    · rintro ⟨δ, hδ, hδe⟩
      by_cases hγe : P0.outputs = []
      · exact exFoldlM_error_head _ γ rest' st _ (hstepE hγe)
      · obtain ⟨st', hok, hei'⟩ := hstepOk hγe
        have hδ' : δ ∈ rest' := by
          rcases List.mem_cons.mp hδ with rfl | h
          · rw [hpg] at hδe
            exact absurd hδe hγe
          · exact h
        rw [exFoldlM_ok_head _ γ rest' st st' hok]
        exact (ih (done ++ [γ]) st' hsorted' hei').1 ⟨δ, hδ', hδe⟩
    · intro hall
      have hγe : P0.outputs ≠ [] := by
        rw [← hpg]
        exact hall γ (List.mem_cons_self _ _)
      obtain ⟨st', hok, hei'⟩ := hstepOk hγe
      obtain ⟨stF, hfold, heiF⟩ := (ih (done ++ [γ]) st' hsorted' hei').2
        (fun δ hδ => hall δ (List.mem_cons_of_mem _ hδ))
      refine ⟨stF, by rw [exFoldlM_ok_head _ γ rest' st st' hok]; exact hfold, ?_⟩
      have heq : (done ++ [γ]) ++ rest' = done ++ γ :: rest' := by simp
      rw [heq] at heiF
      exact heiF

theorem splitStages_eq (g : Graph) (m_obj : Obj) (t : List (String × String))
    (psK : PartMap) (sorted : List String) :
    splitStages g m_obj t psK sorted =
      (g.nodes.foldlM (transformNode m_obj t) (addPlaceholders psK sorted)) >>=
        (fun ps => (g.nodes.foldlM (baseSetupStep m_obj) ⟨[], emptyGraph, []⟩) >>=
          (fun bst => (sorted.foldlM emitPartition (bst, ps)) >>=
            (fun bp => (mapResultOpt bp.1.env g.result) >>=
              (fun res => pure
                { partitions := bp.2, sorted := sorted, baseEnv := bp.1.env,
                  baseAttrs := bp.1.attrs,
                  baseGraph := { bp.1.graph with result := res },
                  tags := t })))) := rfl

theorem splitCore_eq (g : Graph) (m_obj : Obj) (cb : Node → Int)
    (t : List (String × String)) :
    splitCore g m_obj cb t =
      if (kahn (discover g cb t).partitions).2.length ≠
          (discover g cb t).partitions.length then
        throw .cycleErr
      else
        splitStages g m_obj (discover g cb t).tags
          (kahn (discover g cb t).partitions).1
          (kahn (discover g cb t).partitions).2 := rfl

/-- The empty initial base state satisfies the setup loop's entry
condition. -/
theorem base_init_env :
    ∀ v, alookup (⟨[], emptyGraph, []⟩ : BaseSt).env v =
      if ∃ m ∈ ([] : List Node), ¬Eligible m ∧ m.name = v then some v else none := by
  intro v
  rw [if_neg (by rintro ⟨m, hm, _⟩; cases hm)]
  rfl

/-- Inverting a successful run: its sorted order is the Kahn order, and
its partition map, base environment and base graph are those of a final
emission state satisfying the full emission invariant. -/
theorem split_ok_invert (g : Graph) (m_obj : Obj) (cb : Node → Int) (out : SplitOut)
    (hwf : WF g) (hok : splitCore g m_obj cb [] = .ok out) :
    out.sorted = (kahn (discover g cb []).partitions).2 ∧
    ∃ stF : BaseSt × PartMap,
      out.partitions = stF.2 ∧ out.baseEnv = stF.1.env ∧
      out.baseGraph.nodes = stF.1.graph.nodes ∧
      EI g cb (kahn (discover g cb []).partitions).2 stF := by
  have hlen : (kahn (discover g cb []).partitions).2.length =
      (discover g cb []).partitions.length := by
    by_contra hc
    rw [splitCore_eq, if_pos hc] at hok
    cases hok
  rw [splitCore_eq, if_neg (fun hc => hc hlen), splitStages_eq] at hok
  rw [exbind_ok_iff] at hok
  obtain ⟨psT, hfoldT, hok⟩ := hok
  rw [exbind_ok_iff] at hok
  obtain ⟨bst, hfoldB, hok⟩ := hok
  rw [exbind_ok_iff] at hok
  obtain ⟨bp, hfoldE, hok⟩ := hok
  rw [exbind_ok_iff] at hok
  obtain ⟨res, hres, hout⟩ := hok
  injection hout with hout
  rcases transform_fold g cb m_obj hwf g.nodes []
      (addPlaceholders (kahn (discover g cb []).partitions).1
        (kahn (discover g cb []).partitions).2)
      (fun x hx => hx) (by simpa using hwf.1) (TI_start g cb hwf hlen) with
    ⟨n, hn, _, _, herr⟩ | ⟨psT0, hfoldT0, hTI⟩
  · rw [herr] at hfoldT
    cases hfoldT
  rw [hfoldT0] at hfoldT
  injection hfoldT with hpsT
  subst hpsT
  rw [List.nil_append] at hTI
  rcases base_fold m_obj g.nodes [] ⟨[], emptyGraph, []⟩ base_init_env with
    ⟨n, _, _, _, herrB⟩ | ⟨bst0, hfoldB0, hbenv⟩
  · rw [herrB] at hfoldB
    cases hfoldB
  rw [hfoldB0] at hfoldB
  injection hfoldB with hbst
  subst hbst
  have hbenv' : ∀ v, alookup bst0.env v =
      if ∃ m ∈ g.nodes, ¬Eligible m ∧ m.name = v then some v else none := by
    intro v
    have := hbenv v
    rw [List.nil_append] at this
    exact this
  have hEI0 : EI g cb [] (bst0, psT0) := EI_start g cb psT0 hTI bst0 hbenv'
  have hEpair := emit_fold g cb hwf hlen (kahn (discover g cb []).partitions).2
    [] (bst0, psT0) (by rw [List.nil_append]) hEI0
  have hall : ∀ δ ∈ (kahn (discover g cb []).partitions).2,
      (partGet (discover g cb []).partitions δ).outputs ≠ [] := by
    intro δ hδ hc
    have := hEpair.1 ⟨δ, hδ, hc⟩
    rw [this] at hfoldE
    cases hfoldE
  obtain ⟨stF, hfoldE0, heiF⟩ := hEpair.2 hall
  rw [hfoldE0] at hfoldE
  injection hfoldE with hbp
  subst hbp
  rw [List.nil_append] at heiF
  refine ⟨?_, stF, ?_, ?_, ?_, heiF⟩
  · rw [← hout]
  · rw [← hout]
  · rw [← hout]
  · rw [← hout]

/-- C6: a call-module or attribute-reference node whose dotted target
path does not resolve segment by segment against the root object makes
the transformation (past the cycle check) abort with the
unresolved-target error and no output. -/
theorem C6_unresolved_target (g : Graph) (m_obj : Obj) (cb : Node → Int)
    (hwf : WF g)
    (hlen : (kahn (discover g cb []).partitions).2.length =
      (discover g cb []).partitions.length)
    (hbad : ∃ n ∈ g.nodes, (n.op = Op.call_module ∨ n.op = Op.get_attr) ∧
      resolvePath m_obj (n.target.splitOn ".") = none) :
    ∃ t, splitCore g m_obj cb [] = .error (SplitErr.unresolvedTarget t) := by
  rcases transform_fold g cb m_obj hwf g.nodes []
      (addPlaceholders (kahn (discover g cb []).partitions).1
        (kahn (discover g cb []).partitions).2)
      (fun x hx => hx) (by simpa using hwf.1) (TI_start g cb hwf hlen) with
    ⟨n', hn', hop', hrp', herr⟩ | ⟨psT, hfoldT, hTI⟩
  · refine ⟨n'.target, ?_⟩
    rw [splitCore_eq, if_neg (fun hc => hc hlen), splitStages_eq, herr]
    rfl
  · obtain ⟨n, hn, hop, hrp⟩ := hbad
    have hga : n.op = Op.get_attr := by
      rcases hop with hcm | hga
      · exfalso
        obtain ⟨l1, l2, hsplitn⟩ := List.append_of_mem hn
        rw [hsplitn] at hfoldT
        obtain ⟨psMid, ps', hmid, hstep, _⟩ := exFoldlM_ok_split _ l1 n l2 _ _ hfoldT
        have hwfl : WFnodes ([] : List String) l1 :=
          (wfnodes_append_inv l1 (n :: l2) [] (by rw [← hsplitn]; exact hwf.1)).1
        rcases transform_fold g cb m_obj hwf l1 []
            (addPlaceholders (kahn (discover g cb []).partitions).1
              (kahn (discover g cb []).partitions).2)
            (fun x hx => by rw [hsplitn]; exact List.mem_append_left _ hx)
            (by simpa using hwfl) (TI_start g cb hwf hlen) with
          ⟨_, _, _, _, herr1⟩ | ⟨psMid0, hmid0, hTI1⟩
        · rw [herr1] at hmid
          cases hmid
        rw [hmid0] at hmid
        injection hmid with hpsMid
        subst hpsMid
        rw [List.nil_append] at hTI1
        have hE : Eligible n := (eligible_op n).mpr (Or.inr hcm)
        have hgrp : grp g cb n.name = some (toString (cb n)) := by
          rw [grp_of_mem cb hwf hn, if_neg hE]
        have htag : alookup (discover g cb []).tags n.name = some (toString (cb n)) := by
          rw [discover_tags g cb hwf n.name]
          exact hgrp
        have hkey : (alookup (discover g cb []).partitions (toString (cb n))).isSome := by
          rw [alookup_isSome_iff_mem]
          exact ((discover_char g cb hwf).key_iff _).mpr ⟨n, hn, hE, rfl⟩
        obtain ⟨P0, hP0⟩ := Option.isSome_iff_exists.mp hkey
        obtain ⟨p, hp, _⟩ := hTI1 _ P0 hP0
        exact transformNode_ok_resolve m_obj _ psMid0 n _ p ps' htag hp hstep hcm hrp
      · exact hga
    rcases base_fold m_obj g.nodes [] ⟨[], emptyGraph, []⟩ base_init_env with
      ⟨n', hn', hop', hrp', herrB⟩ | ⟨bst, hfoldB, _⟩
    · refine ⟨n'.target, ?_⟩
      rw [splitCore_eq, if_neg (fun hc => hc hlen), splitStages_eq, hfoldT,
        exbind_ok, herrB]
      rfl
    · exfalso
      obtain ⟨l1, l2, hsplitn⟩ := List.append_of_mem hn
      rw [hsplitn] at hfoldB
      obtain ⟨bmid, b', _, hstepB, _⟩ := exFoldlM_ok_split _ l1 n l2 _ _ hfoldB
      unfold baseSetupStep at hstepB
      rw [if_neg (by rw [hga]; exact fun hc => Op.noConfusion hc), if_pos hga] at hstepB
      simp only [hrp] at hstepB
      cases hstepB

/-- C10: a partition that ends Dependency Discovery with an empty
outputs set makes the Top-Level Rebuild fail with the index error of
the unconditional element-0 access, instead of completing or raising
one of the structural errors. -/
theorem C10_empty_outputs_crash (g : Graph) (m_obj : Obj) (cb : Node → Int)
    (hwf : WF g)
    (hlen : (kahn (discover g cb []).partitions).2.length =
      (discover g cb []).partitions.length)
    (hrescm : ∀ n ∈ g.nodes, n.op = Op.call_module →
      resolvePath m_obj (n.target.splitOn ".") ≠ none)
    (hresga : ∀ n ∈ g.nodes, n.op = Op.get_attr →
      resolvePath m_obj (n.target.splitOn ".") ≠ none)
    (hempty : ∃ γ P0, alookup (discover g cb []).partitions γ = some P0 ∧
      P0.outputs = []) :
    splitCore g m_obj cb [] = .error SplitErr.indexErr := by
  rcases transform_fold g cb m_obj hwf g.nodes []
      (addPlaceholders (kahn (discover g cb []).partitions).1
        (kahn (discover g cb []).partitions).2)
      (fun x hx => hx) (by simpa using hwf.1) (TI_start g cb hwf hlen) with
    ⟨n, hn, hop, hrp, _⟩ | ⟨psT, hfoldT, hTI⟩
  · exact absurd hrp (hrescm n hn hop)
  rw [List.nil_append] at hTI
  rcases base_fold m_obj g.nodes [] ⟨[], emptyGraph, []⟩ base_init_env with
    ⟨n, hn, hop, hrp, _⟩ | ⟨bst, hfoldB, hbenv⟩
  · exact absurd hrp (hresga n hn hop)
  have hbenv' : ∀ v, alookup bst.env v =
      if ∃ m ∈ g.nodes, ¬Eligible m ∧ m.name = v then some v else none := by
    intro v
    have := hbenv v
    rw [List.nil_append] at this
    exact this
  obtain ⟨γ, P0, hP, hPe⟩ := hempty
  have hγsorted : γ ∈ (kahn (discover g cb []).partitions).2 :=
    ((kahn_sound _ (discover_kahnPre g cb hwf) hlen).2.1 γ).mpr (mem_keys_of_alookup hP)
  have hEI0 : EI g cb [] (bst, psT) := EI_start g cb psT hTI bst hbenv'
  have hfoldE := (emit_fold g cb hwf hlen (kahn (discover g cb []).partitions).2
    [] (bst, psT) (by rw [List.nil_append]) hEI0).1
    ⟨γ, hγsorted, by rw [partGet_eq_of_alookup hP]; exact hPe⟩
  rw [splitCore_eq, if_neg (fun hc => hc hlen), splitStages_eq, hfoldT,
    exbind_ok, hfoldB, exbind_ok, hfoldE]
  rfl

/-- C7: in a successful run, every partition's emitted call node passes
its arguments in exactly the declaration order of that partition's input
placeholders: the sub-graph's first nodes are the placeholders of the
partition's inputs in order, and the i-th argument of the call node is a
reference to the base-environment binding of the i-th input. -/
theorem C7_argument_order (g : Graph) (m_obj root_m : Obj) (cb : Node → Int)
    (out : SplitOut) (hwf : WF g)
    (hok : split_module g m_obj root_m cb = .ok out) :
    ∀ γ ∈ out.sorted, ∃ P callN,
      alookup out.partitions γ = some P ∧
      P.graph.nodes.take P.inputs.length = P.inputs.map mkPlaceholder ∧
      callN ∈ out.baseGraph.nodes ∧
      callN.name = callNodeName γ ∧ callN.op = Op.call_module ∧
      callN.target = "submod_" ++ γ ∧
      callN.args.length = P.inputs.length ∧
      (∀ i nm, P.inputs.get? i = some nm →
        ∃ v, alookup out.baseEnv nm = some v ∧ callN.args.get? i = some (Arg.ref v)) := by
  have hok' : splitCore g m_obj cb [] = .ok out := hok
  obtain ⟨hsorted, stF, hparts, henv, hnodes, heiF⟩ :=
    split_ok_invert g m_obj cb out hwf hok'
  intro γ hγ
  rw [hsorted] at hγ
  have hkey : (alookup (discover g cb []).partitions γ).isSome := by
    rw [alookup_isSome_iff_mem]
    have hlen : (kahn (discover g cb []).partitions).2.length =
        (discover g cb []).partitions.length := by
      by_contra hc
      rw [splitCore_eq, if_pos hc] at hok'
      cases hok'
    exact ((kahn_sound _ (discover_kahnPre g cb hwf) hlen).2.1 γ).mp hγ
  obtain ⟨P0, hP⟩ := Option.isSome_iff_exists.mp hkey
  obtain ⟨P, hPl, hmP, hiP, hoP, ⟨more, hgP⟩, henvP⟩ := heiF.1 γ P0 hP
  obtain ⟨_, _, callN, hcm, hcn, hco, hct, hcl, hca⟩ := heiF.2.2 γ hγ P0 hP
  refine ⟨P, callN, by rw [hparts]; exact hPl, ?_, by rw [hnodes]; exact hcm,
    hcn, hco, hct, by rw [hcl, hiP], ?_⟩
  · rw [hgP, hiP]
    rw [show P0.inputs.length = (P0.inputs.map mkPlaceholder).length from
      (List.length_map _ _).symm]
    exact List.take_left _ _
  · intro i nm hget
    rw [hiP] at hget
    obtain ⟨v, hv, harg⟩ := hca i nm hget
    exact ⟨v, by rw [henv]; exact hv, harg⟩

/-- C8: in a successful run, a partition with more than one output gets
one indexed-accessor node per output — the i-th accessor applies
getitem at literal index i to the partition's call node and the base
environment binds the i-th output name to it — while a partition with
exactly one output has that name bound directly to the call node. -/
theorem C8_output_binding (g : Graph) (m_obj root_m : Obj) (cb : Node → Int)
    (out : SplitOut) (hwf : WF g)
    (hok : split_module g m_obj root_m cb = .ok out) :
    ∀ γ ∈ out.sorted, ∃ P,
      alookup out.partitions γ = some P ∧
      (P.outputs.length > 1 →
        ∀ i o, P.outputs.get? i = some o →
          alookup out.baseEnv o = some (getitemName γ i) ∧
          ∃ gi, gi ∈ out.baseGraph.nodes ∧ gi.name = getitemName γ i ∧
            gi.op = Op.call_function ∧ gi.target = "getitem" ∧
            gi.args = [Arg.ref (callNodeName γ), Arg.lit i]) ∧
      (∀ o, P.outputs = [o] → alookup out.baseEnv o = some (callNodeName γ)) := by
  have hok' : splitCore g m_obj cb [] = .ok out := hok
  obtain ⟨hsorted, stF, hparts, henv, hnodes, heiF⟩ :=
    split_ok_invert g m_obj cb out hwf hok'
  intro γ hγ
  rw [hsorted] at hγ
  have hkey : (alookup (discover g cb []).partitions γ).isSome := by
    rw [alookup_isSome_iff_mem]
    have hlen : (kahn (discover g cb []).partitions).2.length =
        (discover g cb []).partitions.length := by
      by_contra hc
      rw [splitCore_eq, if_pos hc] at hok'
      cases hok'
    exact ((kahn_sound _ (discover_kahnPre g cb hwf) hlen).2.1 γ).mp hγ
  obtain ⟨P0, hP⟩ := Option.isSome_iff_exists.mp hkey
  obtain ⟨P, hPl, hmP, hiP, hoP, hgrP, henvP⟩ := heiF.1 γ P0 hP
  obtain ⟨hgt, hone, _⟩ := heiF.2.2 γ hγ P0 hP
  refine ⟨P, by rw [hparts]; exact hPl, ?_, ?_⟩
  · intro hl i o hget
    rw [hoP] at hl hget
    obtain ⟨hbind, gi, hgm, hrest⟩ := hgt hl i o hget
    exact ⟨by rw [henv]; exact hbind, gi, by rw [hnodes]; exact hgm, hrest⟩
  · intro o hout
    rw [hoP] at hout
    rw [henv]
    exact hone o hout

/-- The split of a string is never the empty list of pieces. -/
theorem splitOnAux_ne_nil : ∀ (s sep : String) (b i j : String.Pos) (r : List String),
    String.splitOnAux s sep b i j r ≠ [] := by
  intro s sep b i j r
  induction b, i, j, r using String.splitOnAux.induct s sep with
  | _ =>
    rw [String.splitOnAux]
    simp_all
    try split <;> simp_all

theorem splitOn_ne_nil (s sep : String) : s.splitOn sep ≠ [] := by
  unfold String.splitOn
  split
  · simp
  · exact splitOnAux_ne_nil s sep 0 0 0 []

/-- No non-trivial path resolves on the empty root object. -/
theorem resolvePath_attrs_nil (l : List String) (hl : l ≠ []) :
    resolvePath (Obj.attrs []) l = none := by
  cases l with
  | nil => exact absurd rfl hl
  | cons a rest => simp [resolvePath, getattrObj]

/-- A graph whose one call-module node's target resolves to nothing on
the (empty) root object. -/
def badG : Graph :=
  { nodes := [phNode "x", modNode "a" "nope" [.ref "x"]],
    result := some (.ref "a") }

theorem C6_unresolved_target_witness :
    ∃ t, splitCore badG exRoot zeroCb [] = .error (SplitErr.unresolvedTarget t) :=
  C6_unresolved_target badG exRoot zeroCb (by decide) rfl
    ⟨modNode "a" "nope" [.ref "x"],
      List.mem_cons_of_mem _ (List.mem_cons_self _ _), Or.inl rfl,
      resolvePath_attrs_nil _ (splitOn_ne_nil _ _)⟩

/-- A graph in which group 1's only node is consumed by nobody and does
not feed the result: its partition ends discovery with no outputs. -/
def deadG : Graph :=
  { nodes := [phNode "x", fnNode "a" "f" [.ref "x"], fnNode "b" "f" [.ref "x"]],
    result := some (.ref "a") }

theorem C10_empty_outputs_crash_witness :
    splitCore deadG exRoot exCb [] = .error SplitErr.indexErr :=
  C10_empty_outputs_crash deadG exRoot exCb (by decide) rfl
    (by intro n hn hcm; fin_cases hn <;> exact absurd hcm (by decide))
    (by intro n hn hga; fin_cases hn <;> exact absurd hga (by decide))
    ⟨"1", _, rfl, rfl⟩

theorem C7_argument_order_witness :
    ∃ out, split_module sglG exRoot exRoot zeroCb = .ok out ∧
      ∀ γ ∈ out.sorted, ∃ P callN,
        alookup out.partitions γ = some P ∧
        P.graph.nodes.take P.inputs.length = P.inputs.map mkPlaceholder ∧
        callN ∈ out.baseGraph.nodes ∧
        callN.name = callNodeName γ ∧ callN.op = Op.call_module ∧
        callN.target = "submod_" ++ γ ∧
        callN.args.length = P.inputs.length ∧
        (∀ i nm, P.inputs.get? i = some nm →
          ∃ v, alookup out.baseEnv nm = some v ∧
            callN.args.get? i = some (Arg.ref v)) := by
  refine ⟨_, rfl, ?_⟩
  exact C7_argument_order sglG exRoot exRoot zeroCb _ (by decide) rfl

theorem C8_output_binding_witness :
    ∃ out, split_module exG2 exRoot exRoot exCb = .ok out ∧
      ∀ γ ∈ out.sorted, ∃ P,
        alookup out.partitions γ = some P ∧
        (P.outputs.length > 1 →
          ∀ i o, P.outputs.get? i = some o →
            alookup out.baseEnv o = some (getitemName γ i) ∧
            ∃ gi, gi ∈ out.baseGraph.nodes ∧ gi.name = getitemName γ i ∧
              gi.op = Op.call_function ∧ gi.target = "getitem" ∧
              gi.args = [Arg.ref (callNodeName γ), Arg.lit i]) ∧
        (∀ o, P.outputs = [o] → alookup out.baseEnv o = some (callNodeName γ)) := by
  refine ⟨_, rfl, ?_⟩
  exact C8_output_binding exG2 exRoot exRoot exCb _ (by decide) rfl

end SplitMod
